import Mathlib

/-!
# gorm: clause merging and rendering, dependency-ordered migration

A shallow embedding of `clause/clause.go`, `clause/limit.go` and
`migrator/migrator.go`.

Conventions of the embedding.

* A Go `interface{}` holding a model is a `Value`: its reflected model type
  and its payload (payload `0` is the zero value `reflect.New` builds).
* A `*schema.Schema` pointer is a `SchemaRef`; the descriptors live in the heap
  `Env.schema`. Pointer comparison is comparison of references.
* The metadata parser, the naming strategy, the dialect and the SQL driver are
  not part of the sources; they are fields of `Env`.
* Go maps are total functions into `Option`. The slices of the migrator are
  built and read in one place and are lists; the slices of a `Clause` are views
  of backing arrays kept in a `Heap`, and `append` writes into spare capacity.
* The statements handed to `DB.Exec` are kept in a log, in order; the driver
  answers from that log.
* A closure that recurses is given fuel; running out of fuel is the fault
  `Fault.outOfFuel`, dereferencing a nil pointer the fault `Fault.nilPointer`.
-/

namespace Gorm

/-! ## Schema descriptors (consumed, produced by the metadata parser) -/

/-- Identity of a `*schema.Schema` pointer. -/
abbrev SchemaRef := Nat

/-- A Go `error`, by its message. -/
abbrev Error := String

/-- A model value passed as `interface{}`. -/
structure Value where
  ModelType : Nat
  payload : Nat
deriving DecidableEq, Repr

/-- The value `reflect.New(t).Interface()`: a zero-valued instance of `t`. -/
def reflectNew (t : Nat) : Value := ⟨t, 0⟩

/-- The fields of `schema.Field` the migrator reads. -/
structure Field where
  Name : String
  DBName : String
  DBDataType : String
  AutoIncrement : Bool
  NotNull : Bool
  Unique : Bool
  DefaultValue : String
deriving DecidableEq, Repr

/-- The fields of `schema.Constraint` the migrator reads. `Field` is the
`*schema.Field` of the relationship; a schema holds each field once, so two
such pointers are equal when the fields are. -/
structure Constraint where
  Name : String
  Schema : SchemaRef
  ReferenceSchema : SchemaRef
  ForeignKeys : List Field
  References : List Field
  OnDelete : String
  OnUpdate : String
  Field : Field
deriving DecidableEq, Repr

/-- A `schema.Relationship`: the result of `rel.ParseConstraint()` (`none` is
nil) and the join-table schema `rel.JoinTable` (`none` is nil). -/
structure Relationship where
  ParseConstraint : Option Constraint
  JoinTable : Option SchemaRef
deriving DecidableEq, Repr

/-- One `schema.IndexOption`; `Sort_` is the field `Sort`, `Field` the
`*schema.Field` the option is on. -/
structure IndexOption where
  DBName : String
  Expression : String
  Length : Int
  Collate : String
  Sort_ : String
  Field : Field
deriving DecidableEq, Repr

/-- One `schema.Index`; `Type_` is the field `Type`. -/
structure Index where
  Name : String
  Class : String
  Type_ : String
  Comment : String
  Fields : List IndexOption
deriving DecidableEq, Repr

/-- One `schema.Check`. -/
structure Check where
  Name : String
  Constraint : String
deriving DecidableEq, Repr

/-- A `schema.Schema`. `Relations`, `ParseIndexes` and `ParseCheckConstraints`
list the entries in the order a `range` loop visits them; `FieldsByDBName` is
the map of that name and `LookUpField` the method of that name. -/
structure Schema where
  Table : String
  ModelType : Nat
  DBNames : List String
  FieldsByDBName : List (String × Field)
  PrimaryFields : List Field
  Relations : List Relationship
  ParseIndexes : List Index
  ParseCheckConstraints : List Check
  LookUpField : String → Option Field

/-- A parsed `gorm.Statement`: its schema and its table name. -/
structure Stmt where
  Schema : SchemaRef
  Table : String
deriving DecidableEq, Repr

/-- An argument bound to a `?` marker. -/
inductive Arg where
  | Table (Name : String)
  | Column (Name : String)
  | Expr (SQL : String)
  | Str (s : String)
  | Int (n : Int)
  | List (xs : List Arg)

/-- A statement handed to `DB.Exec` or `DB.Raw`: template and arguments. -/
structure SQLCall where
  SQL : String
  Vars : List Arg

/-- The collaborators of the migrator. `Parse` is `Statement.Parse`,
`ColumnName` the naming strategy, `DialectorDataTypeOf` the dialect's
`DataTypeOf`. The driver answers from the history of executed statements:
`Exec` gives the error of a statement (`none` is nil), `ScanCount` and
`ScanString` the outcome of `Raw(...).Row().Scan(&dest)`, which stores into
`dest` only when it succeeds. -/
structure Env where
  schema : SchemaRef → Schema
  Parse : Value → Except Error Stmt
  ColumnName : String → String → String
  DialectorDataTypeOf : Field → String
  Exec : List SQLCall → SQLCall → Option Error
  ScanCount : List SQLCall → SQLCall → Except Error Int
  ScanString : List SQLCall → SQLCall → Except Error String

/-! ## `Migrator.ReorderModels` -/

/-- The ways `ReorderModels` can fail to return. -/
inductive Fault where
  | outOfFuel
  | nilPointer
deriving DecidableEq, Repr

/-- The local type `Dependency`: the statement (its `Dest` and `Schema`) and
the schemas it depends on. -/
structure Dependency where
  Dest : Value
  Schema : SchemaRef
  Depends : List SchemaRef
deriving DecidableEq, Repr

/-- The variables the closures of `ReorderModels` share. -/
structure ReorderState where
  modelNames : List String
  orderedModelNames : List String
  orderedModelNamesMap : String → Option Bool
  valuesMap : String → Option Dependency

/-- The state at the `var` block. -/
def ReorderState.init : ReorderState :=
  ⟨[], [], fun _ => none, fun _ => none⟩

/-- The loop of `parseDependence` over the relationships: the reference schema
of every constraint with `c.Schema != c.ReferenceSchema`, in order. -/
def dependsOfRelations : List Relationship → List SchemaRef
  | [] => []
  | rel :: rels =>
    match rel.ParseConstraint with
    | some c =>
      if c.Schema ≠ c.ReferenceSchema then c.ReferenceSchema :: dependsOfRelations rels
      else dependsOfRelations rels
    | none => dependsOfRelations rels

/-- The `Depends` list `parseDependence` computes for a schema. -/
def dependsOf (env : Env) (s : SchemaRef) : List SchemaRef :=
  dependsOfRelations (env.schema s).Relations

/-- The closure `parseDependence`. A value that does not parse leaves
`dep.Schema` nil, and reading its relationships faults. -/
def parseDependence (env : Env) (value : Value) (addToList : Bool)
    (st : ReorderState) : Except Fault ReorderState :=
  match env.Parse value with
  | .error _ => .error .nilPointer
  | .ok stmt =>
    let dep : Dependency := ⟨value, stmt.Schema, dependsOf env stmt.Schema⟩
    let table := (env.schema stmt.Schema).Table
    let valuesMap := fun k => if k = table then some dep else st.valuesMap k
    .ok { st with
      valuesMap := valuesMap
      modelNames := if addToList then st.modelNames ++ [table] else st.modelNames }

/-- The loop `for _, d := range dep.Depends` of `insertIntoOrderedList`, with
the recursive call passed as `ins`. -/
def insertDepends (env : Env) (autoAdd : Bool)
    (ins : String → ReorderState → Except Fault ReorderState) :
    List SchemaRef → ReorderState → Except Fault ReorderState
  | [], st => .ok st
  | d :: ds, st =>
    match st.valuesMap (env.schema d).Table with
    | some _ =>
      match ins (env.schema d).Table st with
      | .ok st1 => insertDepends env autoAdd ins ds st1
      | .error e => .error e
    | none =>
      if autoAdd then
        match parseDependence env (reflectNew (env.schema d).ModelType) autoAdd st with
        | .ok st0 =>
          match ins (env.schema d).Table st0 with
          | .ok st1 => insertDepends env autoAdd ins ds st1
          | .error e => .error e
        | .error e => .error e
      else insertDepends env autoAdd ins ds st

/-- The closure `insertIntoOrderedList`; the fuel bounds the recursion depth.
A name missing from `valuesMap` reads the zero `Dependency`, whose `Depends`
is empty. -/
def insertIntoOrderedList (env : Env) (autoAdd : Bool) :
    Nat → String → ReorderState → Except Fault ReorderState
  | 0, _, _ => .error .outOfFuel
  | fuel + 1, name, st =>
    match st.orderedModelNamesMap name with
    | some _ => .ok st
    | none =>
      let depends := match st.valuesMap name with
        | some dep => dep.Depends
        | none => []
      match insertDepends env autoAdd
          (fun n s => insertIntoOrderedList env autoAdd fuel n s) depends st with
      | .ok st1 =>
        .ok { st1 with
          orderedModelNames := st1.orderedModelNames ++ [name]
          orderedModelNamesMap :=
            fun k => if k = name then some true else st1.orderedModelNamesMap k }
      | .error e => .error e

/-- The loop `for _, value := range values { parseDependence(value, true) }`. -/
def parseAll (env : Env) : List Value → ReorderState → Except Fault ReorderState
  | [], st => .ok st
  | v :: vs, st =>
    match parseDependence env v true st with
    | .ok st1 => parseAll env vs st1
    | .error e => .error e

/-- The loop `for _, name := range modelNames { insertIntoOrderedList(name) }`. -/
def insertAll (env : Env) (autoAdd : Bool) (fuel : Nat) :
    List String → ReorderState → Except Fault ReorderState
  | [], st => .ok st
  | n :: ns, st =>
    match insertIntoOrderedList env autoAdd fuel n st with
    | .ok st1 => insertAll env autoAdd fuel ns st1
    | .error e => .error e

/-- The loop that collects `valuesMap[name].Statement.Dest`; a name missing
from `valuesMap` has a nil `Statement`, and reading `Dest` faults. -/
def collectDest (valuesMap : String → Option Dependency) :
    List String → Except Fault (List Value)
  | [] => .ok []
  | n :: ns =>
    match valuesMap n with
    | some dep =>
      match collectDest valuesMap ns with
      | .ok vs => .ok (dep.Dest :: vs)
      | .error e => .error e
    | none => .error .nilPointer

/-- The method `Migrator.ReorderModels`. The `range` over `modelNames` reads
the slice as it is when the loop starts. -/
def ReorderModels (env : Env) (fuel : Nat) (values : List Value) (autoAdd : Bool) :
    Except Fault (List Value) :=
  match parseAll env values ReorderState.init with
  | .error e => .error e
  | .ok st1 =>
    match insertAll env autoAdd fuel st1.modelNames st1 with
    | .error e => .error e
    | .ok st2 => collectDest st2.valuesMap st2.orderedModelNames

/-- The schema a value parses to, `none` when it does not parse. -/
def schemaOf (env : Env) (v : Value) : Option SchemaRef :=
  match env.Parse v with
  | .ok stmt => some stmt.Schema
  | .error _ => none

/-- The table name of the schema a value parses to. -/
def tableOf (env : Env) (v : Value) : Option String :=
  (schemaOf env v).map fun s => (env.schema s).Table

/-- A set `U` of schemas that is closed under foreign-key references, has
distinct table names and whose reference edges are acyclic: `rank` falls along
every edge. With `autoAdd`, parsing a fresh instance of a schema's model type
gives that schema back. -/
structure Acyclic (env : Env) (U : List SchemaRef) (rank : SchemaRef → Nat)
    (autoAdd : Bool) : Prop where
  closed : ∀ s ∈ U, ∀ d ∈ dependsOf env s, d ∈ U
  fresh : autoAdd = true → ∀ s ∈ U,
    schemaOf env (reflectNew (env.schema s).ModelType) = some s
  distinct : ∀ s ∈ U, ∀ t ∈ U, (env.schema s).Table = (env.schema t).Table → s = t
  falls : ∀ s ∈ U, ∀ d ∈ dependsOf env s, rank d < rank s

/-- The invariant of the shared variables of `ReorderModels`. -/
structure ReorderInv (env : Env) (U : List SchemaRef) (autoAdd : Bool)
    (st : ReorderState) : Prop where
  map_iff : ∀ n, st.orderedModelNamesMap n ≠ none ↔ n ∈ st.orderedModelNames
  nodup : st.orderedModelNames.Nodup
  placed_known : ∀ n ∈ st.orderedModelNames, st.valuesMap n ≠ none
  wf : ∀ n dep, st.valuesMap n = some dep →
    dep.Schema ∈ U ∧ (env.schema dep.Schema).Table = n ∧
      dep.Depends = dependsOf env dep.Schema ∧ schemaOf env dep.Dest = some dep.Schema
  deps_first : ∀ (i : Nat) n dep, st.orderedModelNames[i]? = some n → st.valuesMap n = some dep →
    ∀ d ∈ dep.Depends, (autoAdd = true ∨ st.valuesMap (env.schema d).Table ≠ none) →
      ∃ j : Nat, j < i ∧ st.orderedModelNames[j]? = some (env.schema d).Table

/-- How a run of the closures changes the state: names are only appended, each
new name is registered with a schema of rank below `r`, registered entries
stay, and without `autoAdd` nothing is registered. -/
structure ReorderExt (rank : SchemaRef → Nat) (autoAdd : Bool) (r : Nat)
    (st st' : ReorderState) : Prop where
  grows : ∃ l, st'.orderedModelNames = st.orderedModelNames ++ l ∧
    ∀ n ∈ l, ∃ dep, st'.valuesMap n = some dep ∧ rank dep.Schema < r
  keeps : ∀ n dep, st.valuesMap n = some dep → st'.valuesMap n = some dep
  fixed : autoAdd = false → st'.valuesMap = st.valuesMap

/-- What a call of the closure `ins` guarantees for a registered name whose
schema has rank below `B`: it returns, keeps the invariant and places the name. -/
def InsertSpec (env : Env) (U : List SchemaRef) (rank : SchemaRef → Nat)
    (autoAdd : Bool) (B : Nat)
    (ins : String → ReorderState → Except Fault ReorderState) : Prop :=
  ∀ name st dep, ReorderInv env U autoAdd st → st.valuesMap name = some dep →
    rank dep.Schema < B →
    ∃ st', ins name st = .ok st' ∧ ReorderInv env U autoAdd st' ∧
      name ∈ st'.orderedModelNames ∧ ReorderExt rank autoAdd (rank dep.Schema + 1) st st'

/-! ### Example schemas -/

/-- A foreign-key constraint of schema `owner` that references `target`. -/
def foreignKey (name : String) (owner target : SchemaRef) : Relationship :=
  ⟨some ⟨name, owner, target, [], [], "", "", ⟨name, "", "", false, false, false, ""⟩⟩, none⟩

/-- A schema with a table name and relationships only. -/
def plainSchema (table : String) (t : Nat) (rels : List Relationship) : Schema :=
  ⟨table, t, [], [], [], rels, [], [], fun _ => none⟩

/-- An environment over a heap and a parser; the driver accepts every
statement and counts zero rows. -/
def plainEnv (heap : SchemaRef → Schema) (parse : Value → Except Error Stmt) : Env :=
  ⟨heap, parse, fun _ c => c, fun _ => "text", fun _ _ => none,
    fun _ _ => .ok 0, fun _ _ => .ok "main"⟩

/-- The shop: schema 0 is `Order`, which references schema 1, `Customer`. -/
def shopHeap (s : SchemaRef) : Schema :=
  if s = 0 then plainSchema "orders" 0 [foreignKey "fk_orders_customer" 0 1]
  else plainSchema "customers" 1 []

/-- The parser of the shop: model type 0 is `Order`, every other `Customer`. -/
def shopParse (v : Value) : Except Error Stmt :=
  if v.ModelType = 0 then .ok ⟨0, "orders"⟩ else .ok ⟨1, "customers"⟩

/-- The shop environment. -/
def shopEnv : Env := plainEnv shopHeap shopParse

/-- An `Order` value. -/
def orderValue : Value := ⟨0, 7⟩

/-- A `Customer` value. -/
def customerValue : Value := ⟨1, 9⟩

/-- Two schemas that reference each other: schema 0 is `Author`, schema 1 is
`Book`. -/
def mutualHeap (s : SchemaRef) : Schema :=
  if s = 0 then plainSchema "authors" 0 [foreignKey "fk_authors_book" 0 1]
  else plainSchema "books" 1 [foreignKey "fk_books_author" 1 0]

/-- The parser of the mutual pair. -/
def mutualParse (v : Value) : Except Error Stmt :=
  if v.ModelType = 0 then .ok ⟨0, "authors"⟩ else .ok ⟨1, "books"⟩

/-- The environment of the mutual pair. -/
def mutualEnv : Env := plainEnv mutualHeap mutualParse

/-- An `Author` value. -/
def authorValue : Value := ⟨0, 3⟩

/-- A `Book` value. -/
def bookValue : Value := ⟨1, 4⟩

/-- The shared variables after the first loop on `[authorValue, bookValue]`. -/
def mutualState : ReorderState :=
  match parseAll mutualEnv [authorValue, bookValue] ReorderState.init with
  | .ok st => st
  | .error _ => ReorderState.init

/-- One schema, `Employee`, whose manager constraint references itself. -/
def staffHeap (_ : SchemaRef) : Schema :=
  plainSchema "employees" 0 [foreignKey "fk_employees_manager" 0 0]

/-- The environment of the self-referencing schema. -/
def staffEnv : Env := plainEnv staffHeap fun _ => .ok ⟨0, "employees"⟩

/-- An `Employee` value. -/
def employeeValue : Value := ⟨0, 5⟩

/-! ## Package `clause` -/

/-- The clause value `Limit`; its fields are Go `int`s, on which no arithmetic
is done. -/
structure Limit where
  Limit : Int
  Offset : Int
deriving DecidableEq, Repr

/-- A value of the interface `Expression`: a `Limit`, an `Expr{SQL: ...}`, or
another implementation, known by a tag. -/
inductive Expression where
  | limit (l : Limit)
  | expr (SQL : String)
  | other (tag : Nat)
deriving DecidableEq, Repr

/-- A Go slice `[]Expression`: the `len` cells from cell `off` of the backing
array `array`, of which `append` may use the `cap` cells from `off`. -/
structure Slice where
  array : Nat
  off : Nat
  len : Nat
  cap : Nat
deriving DecidableEq, Repr

/-- The nil slice: no cell and no capacity. -/
def nilSlice : Slice := ⟨0, 0, 0, 0⟩

/-- The backing arrays of the slices, by their identity. A cell holds a value
of the interface `Expression`, `none` for nil. -/
abbrev Heap := List (List (Option Expression))

/-- The struct `Clause`. `Expression` is `none` for a nil interface; `Builder`
names the custom `ClauseBuilder`, `none` for nil. -/
structure Clause where
  Name : String
  Priority : Float
  BeforeExpressions : Slice
  AfterNameExpressions : Slice
  AfterExpressions : Slice
  Expression : Option Expression
  Builder : Option Nat

/-- One call on the interface `Builder`. -/
inductive BuilderCall where
  | WriteByte (b : Char)
  | Write (sql : List String)
  | WriteQuoted (field : Arg)
  | AddVar (vars : List Arg)
  | Quote (field : Arg)

/-- A `Builder`, as the calls made on it so far. -/
abbrev Builder := List BuilderCall

/-- The implementations of `Build` that are not part of the sources: of the
expressions other than `Limit`, and of the custom clause builders, which are
handed the clause and so may read and write its backing arrays. -/
structure Renderers where
  Expression : Expression → Builder → Builder
  ClauseBuilder : Nat → Clause → Heap → Builder → Heap × Builder

/-- What `append` takes from the Go runtime: `growslice old needed` is the
capacity of the array allocated when `needed` elements do not fit into the
capacity `old`; it is never below `needed`. -/
structure Runtime where
  growslice : Nat → Nat → Nat

/-- The elements of a slice. -/
def elems (heap : Heap) (s : Slice) : List (Option Expression) :=
  ((heap.getD s.array []).drop s.off).take s.len

/-- The cells of the array `a` from cell `i` on overwritten with `xs`. -/
def store (heap : Heap) (a i : Nat) (xs : List (Option Expression)) : Heap :=
  heap.set a (((heap.getD a []).take i ++ xs) ++ (heap.getD a []).drop (i + xs.length))

/-- The builtin `append(s, xs...)`. When the elements fit into the capacity of
`s` they are written into the backing array of `s`, after its last element;
otherwise a new array is allocated that holds the elements of `s`, then `xs`,
then zero values up to its capacity, and the array of `s` is left as it is. -/
def append (rt : Runtime) (heap : Heap) (s : Slice) (xs : List (Option Expression)) :
    Heap × Slice :=
  if s.len + xs.length ≤ s.cap then
    (store heap s.array (s.off + s.len) xs, { s with len := s.len + xs.length })
  else
    let cap := max (s.len + xs.length) (rt.growslice s.cap (s.len + xs.length))
    (heap ++ [(elems heap s ++ xs) ++ List.replicate (cap - (s.len + xs.length)) none],
      ⟨heap.length, 0, s.len + xs.length, cap⟩)

/-- The function `strconv.Itoa`. -/
def Itoa (n : Int) : String := toString n

/-- The method `Limit.Build`. -/
def Limit.Build (limit : Gorm.Limit) (builder : Builder) : Builder :=
  if limit.Limit > 0 then
    let builder := builder ++ [.Write ["LIMIT "]]
    let builder := builder ++ [.Write [Itoa limit.Limit]]
    if limit.Offset > 0 then
      let builder := builder ++ [.Write [" OFFSET "]]
      builder ++ [.Write [Itoa limit.Offset]]
    else builder
  else builder

/-- The method `Limit.MergeClause`; the clause behind the pointer is returned. -/
def Limit.MergeClause (limit : Gorm.Limit) (clause : Clause) : Clause :=
  let clause := { clause with Name := "" }
  let limit :=
    match clause.Expression with
    | some (.limit v) =>
      let limit :=
        if limit.Limit = 0 ∧ v.Limit > 0 then { limit with Limit := v.Limit } else limit
      if limit.Offset = 0 ∧ v.Offset > 0 then { limit with Offset := v.Offset } else limit
    | _ => limit
  { clause with Expression := some (.limit limit) }

/-- The call `expr.Build(builder)`, dispatched on the expression. -/
def Expression.Build (r : Renderers) (e : Gorm.Expression) (builder : Builder) : Builder :=
  match e with
  | .limit l => l.Build builder
  | e => r.Expression e builder

/-- The loop `for idx, expr := range ...` of `Clause.Build`, from index `idx`,
over the elements of the ranged slice. Calling `Build` on a nil element
faults. -/
def Clause.buildFrom (r : Renderers) :
    Nat → List (Option Gorm.Expression) → Gorm.Builder → Except Fault Gorm.Builder
  | _, [], builder => .ok builder
  | idx, expr :: es, builder =>
    let builder := if idx ≠ 0 then builder ++ [.WriteByte ' '] else builder
    match expr with
    | none => .error .nilPointer
    | some e => Clause.buildFrom r (idx + 1) es (e.Build r builder)

/-- The method `Clause.Build`. The receiver is a copy of the struct, so its
slices share their backing arrays with the caller's; each `append` reads the
elements it appends from the heap as it stands at that point. -/
def Clause.Build (r : Renderers) (rt : Runtime) (c : Clause) (heap : Heap)
    (builder : Gorm.Builder) : Except Fault (Heap × Gorm.Builder) :=
  match c.Builder with
  | some b => .ok (r.ClauseBuilder b c heap builder)
  | none =>
    let builders := c.BeforeExpressions
    let grown :=
      if c.Name ≠ "" then append rt heap builders [some (.expr c.Name)] else (heap, builders)
    let grown := append rt grown.1 grown.2 (elems grown.1 c.AfterNameExpressions)
    let grown :=
      match c.Expression with
      | some e => append rt grown.1 grown.2 [some e]
      | none => grown
    let ranged := append rt grown.1 grown.2 (elems grown.1 c.AfterExpressions)
    match Clause.buildFrom r 0 (elems ranged.1 ranged.2) builder with
    | .error f => .error f
    | .ok builder => .ok (ranged.1, builder)

/-- What the specification says a default clause renders, in order: the
before-expressions, the name token if non-empty, the after-name-expressions,
the primary expression if set, the after-expressions; each slot as the heap
holds it when `Build` is called. -/
def Clause.slots (heap : Heap) (c : Clause) : List (Option Gorm.Expression) :=
  elems heap c.BeforeExpressions ++ (if c.Name = "" then [] else [some (.expr c.Name)]) ++
    elems heap c.AfterNameExpressions ++ (c.Expression.map some).toList ++
    elems heap c.AfterExpressions

/-- What the specification says of the separators: nothing for no item;
otherwise the first item, then each further item after one space byte. -/
def renderSpaced (r : Renderers) (items : List Expression) (builder : Builder) : Builder :=
  match items with
  | [] => builder
  | e :: es =>
    es.foldl (fun b x => x.Build r (b ++ [.WriteByte ' '])) (e.Build r builder)

/-! ## The operations of the migrator on one model -/

/-- The call `DB.Exec(sql, vars...)`: the statement joins the executed ones and
the driver gives its error. -/
def Exec (env : Env) (log : List SQLCall) (call : SQLCall) : List SQLCall × Option Error :=
  (log ++ [call], env.Exec log call)

/-- The method `Migrator.RunWithValue`: a value that does not parse returns the
parse error and `fc` is not run. -/
def RunWithValue (env : Env) (value : Value) (log : List SQLCall)
    (fc : Stmt → List SQLCall × Option Error) : List SQLCall × Option Error :=
  match env.Parse value with
  | .error err => (log, some err)
  | .ok stmt => fc stmt

/-- The method `Migrator.DataTypeOf`. -/
def DataTypeOf (env : Env) (field : Field) : String :=
  if field.DBDataType ≠ "" then field.DBDataType else env.DialectorDataTypeOf field

/-- The method `Migrator.CurrentDatabase`: the name stays empty when the scan
fails. -/
def CurrentDatabase (env : Env) (log : List SQLCall) : String :=
  match env.ScanString log ⟨"SELECT DATABASE()", []⟩ with
  | .ok name => name
  | .error _ => ""

/-- The count a probe reads: `count` starts at zero, `fc` runs only when the
value parses, and the scan stores the count only when it succeeds. -/
def probeCount (env : Env) (log : List SQLCall) (value : Value)
    (query : Stmt → SQLCall) : Int :=
  match env.Parse value with
  | .error _ => 0
  | .ok stmt =>
    match env.ScanCount log (query stmt) with
    | .ok count => count
    | .error _ => 0

/-- The query of `HasTable`. -/
def HasTableQuery (env : Env) (log : List SQLCall) (stmt : Stmt) : SQLCall :=
  ⟨"SELECT count(*) FROM information_schema.tables WHERE table_schema = ? AND table_name = ? AND table_type = ?",
    [.Str (CurrentDatabase env log), .Str stmt.Table, .Str "BASE TABLE"]⟩

/-- The method `Migrator.HasTable`. -/
def HasTable (env : Env) (log : List SQLCall) (value : Value) : Bool :=
  probeCount env log value (HasTableQuery env log) > 0

/-- The query of `HasColumn`: the name is the `DBName` of the field when the
field resolves, and the supplied name otherwise. -/
def HasColumnQuery (env : Env) (log : List SQLCall) (field : String) (stmt : Stmt) :
    SQLCall :=
  let name :=
    match (env.schema stmt.Schema).LookUpField field with
    | some f => f.DBName
    | none => field
  ⟨"SELECT count(*) FROM INFORMATION_SCHEMA.columns WHERE table_schema = ? AND table_name = ? AND column_name = ?",
    [.Str (CurrentDatabase env log), .Str stmt.Table, .Str name]⟩

/-- The method `Migrator.HasColumn`. -/
def HasColumn (env : Env) (log : List SQLCall) (value : Value) (field : String) : Bool :=
  probeCount env log value (HasColumnQuery env log field) > 0

/-- The query of `HasConstraint`. -/
def HasConstraintQuery (env : Env) (log : List SQLCall) (name : String) (stmt : Stmt) :
    SQLCall :=
  ⟨"SELECT count(*) FROM INFORMATION_SCHEMA.referential_constraints WHERE constraint_schema = ? AND table_name = ? AND constraint_name = ?",
    [.Str (CurrentDatabase env log), .Str stmt.Table, .Str name]⟩

/-- The method `Migrator.HasConstraint`. -/
def HasConstraint (env : Env) (log : List SQLCall) (value : Value) (name : String) : Bool :=
  probeCount env log value (HasConstraintQuery env log name) > 0

/-- The query of `HasIndex`. -/
def HasIndexQuery (env : Env) (log : List SQLCall) (name : String) (stmt : Stmt) :
    SQLCall :=
  ⟨"SELECT count(*) FROM information_schema.statistics WHERE table_schema = ? AND table_name = ? AND index_name = ?",
    [.Str (CurrentDatabase env log), .Str stmt.Table, .Str name]⟩

/-- The method `Migrator.HasIndex`. -/
def HasIndex (env : Env) (log : List SQLCall) (value : Value) (name : String) : Bool :=
  probeCount env log value (HasIndexQuery env log name) > 0

/-- The error `fmt.Errorf("failed to look up field with name: %s", field)`. -/
def lookUpError (field : String) : Error :=
  "failed to look up field with name: " ++ field

/-- The method `Migrator.AddColumn`. -/
def AddColumn (env : Env) (log : List SQLCall) (value : Value) (field : String) :
    List SQLCall × Option Error :=
  RunWithValue env value log fun stmt =>
    match (env.schema stmt.Schema).LookUpField field with
    | some f =>
      Exec env log ⟨"ALTER TABLE ? ADD ? ?",
        [.Table stmt.Table, .Column f.DBName, .Expr (DataTypeOf env f)]⟩
    | none => (log, some (lookUpError field))

/-- The method `Migrator.DropColumn`. -/
def DropColumn (env : Env) (log : List SQLCall) (value : Value) (field : String) :
    List SQLCall × Option Error :=
  RunWithValue env value log fun stmt =>
    match (env.schema stmt.Schema).LookUpField field with
    | some f =>
      Exec env log ⟨"ALTER TABLE ? DROP COLUMN ?", [.Table stmt.Table, .Column f.DBName]⟩
    | none => (log, some (lookUpError field))

/-- The method `Migrator.AlterColumn`. -/
def AlterColumn (env : Env) (log : List SQLCall) (value : Value) (field : String) :
    List SQLCall × Option Error :=
  RunWithValue env value log fun stmt =>
    match (env.schema stmt.Schema).LookUpField field with
    | some f =>
      Exec env log ⟨"ALTER TABLE ? ALTER COLUMN ? TYPE ?",
        [.Table stmt.Table, .Column f.DBName, .Expr (DataTypeOf env f)]⟩
    | none => (log, some (lookUpError field))

/-- The method `Migrator.RenameColumn`: the new name `field` is looked up, the
old name goes through the naming strategy. -/
def RenameColumn (env : Env) (log : List SQLCall) (value : Value)
    (oldName field : String) : List SQLCall × Option Error :=
  RunWithValue env value log fun stmt =>
    match (env.schema stmt.Schema).LookUpField field with
    | some f =>
      let oldName := env.ColumnName stmt.Table oldName
      Exec env log ⟨"ALTER TABLE ? RENAME COLUMN ? TO ?",
        [.Table stmt.Table, .Column oldName, .Column f.DBName]⟩
    | none => (log, some (lookUpError field))

/-- The method `Migrator.DropConstraint`. -/
def DropConstraint (env : Env) (log : List SQLCall) (value : Value) (name : String) :
    List SQLCall × Option Error :=
  RunWithValue env value log fun stmt =>
    Exec env log ⟨"ALTER TABLE ? DROP CONSTRAINT ?", [.Table stmt.Table, .Column name]⟩

/-- The method `Migrator.DropIndex`. -/
def DropIndex (env : Env) (log : List SQLCall) (value : Value) (name : String) :
    List SQLCall × Option Error :=
  RunWithValue env value log fun stmt =>
    Exec env log ⟨"DROP INDEX ? ON ?", [.Column name, .Table stmt.Table]⟩

/-- The method `Migrator.RenameIndex`. -/
def RenameIndex (env : Env) (log : List SQLCall) (value : Value)
    (oldName newName : String) : List SQLCall × Option Error :=
  RunWithValue env value log fun stmt =>
    Exec env log ⟨"ALTER TABLE ? RENAME INDEX ? TO ?",
      [.Table stmt.Table, .Column oldName, .Column newName]⟩

/-! ### Example clauses and models -/

/-- A clause with only its name and expression set. -/
def plainClause (name : String) (e : Option Expression) : Clause :=
  ⟨name, 0, nilSlice, nilSlice, nilSlice, e, none⟩

/-- Renderers that write the text of an `Expr` and nothing for other kinds. -/
def plainRenderers : Renderers :=
  ⟨fun e b => match e with
    | .expr sql => b ++ [.Write [sql]]
    | _ => b,
   fun _ _ heap b => (heap, b)⟩

/-- A runtime that doubles the capacity when a slice grows. -/
def doublingRuntime : Runtime := ⟨fun old _ => 2 * old⟩

/-- One array `base` with the cells `a` and `b`. -/
def sharedHeap : Heap := [[some (.expr "a"), some (.expr "b")]]

/-- The clause `Clause{Name: "N", BeforeExpressions: base[:1],
AfterNameExpressions: base[1:2]}` over the array of `sharedHeap`. -/
def sharedClause : Clause := ⟨"N", 0, ⟨0, 0, 1, 2⟩, ⟨0, 1, 1, 1⟩, nilSlice, none, none⟩

/-- Two arrays: `[a]` with no spare cell and `[b]`. -/
def apartHeap : Heap := [[some (.expr "a")], [some (.expr "b")]]

/-- The clause `Clause{Name: "N", BeforeExpressions: []Expression{a},
AfterNameExpressions: []Expression{b}}` over the arrays of `apartHeap`. -/
def apartClause : Clause := ⟨"N", 0, ⟨0, 0, 1, 1⟩, ⟨1, 0, 1, 1⟩, nilSlice, none, none⟩

/-- The field `ID` of `Item`. -/
def itemID : Field := ⟨"ID", "id", "", false, false, false, ""⟩

/-- The field `Name` of `Item`. -/
def itemName : Field := ⟨"Name", "name", "", false, false, false, ""⟩

/-- The schema of `Item{id int primary key, name varchar}`: no indexes, no
relationships, no check constraints. -/
def itemSchema : Schema :=
  ⟨"items", 0, ["id", "name"], [("id", itemID), ("name", itemName)], [itemID], [], [], [],
    fun n =>
      if n = "ID" ∨ n = "id" then some itemID
      else if n = "Name" ∨ n = "name" then some itemName
      else none⟩

/-- The environment of `Item`: the dialect maps `ID` to `int` and other fields
to `varchar`; the driver accepts every statement and counts zero rows. -/
def itemEnv : Env :=
  ⟨fun _ => itemSchema, fun _ => .ok ⟨0, "items"⟩, fun _ c => c,
    fun f => if f.Name = "ID" then "int" else "varchar", fun _ _ => none,
    fun _ _ => .ok 0, fun _ _ => .ok "main"⟩

/-- An `Item` value. -/
def itemValue : Value := ⟨0, 1⟩

/-- A `LIMIT` clause that holds `Limit{Limit: -1}`, the value that cancels a
limit. -/
def cancelClause : Clause := plainClause "LIMIT" (some (.limit ⟨-1, 0⟩))

/-- A `LIMIT` clause that holds `Limit{Limit: 10, Offset: 3}`. -/
def pageClause : Clause := plainClause "LIMIT" (some (.limit ⟨10, 3⟩))

/-- A `WHERE` clause with one condition. -/
def whereClause : Clause := plainClause "WHERE" (some (.expr "age > 18"))

/-! ## The table operations of the migrator -/

/-- The struct `Config`: its two flags; the `DB` and the `Dialector` are in
`Env`. -/
structure Config where
  CreateIndexAfterCreateTable : Bool
  AllowDeferredConstraintsWhenAutoMigrate : Bool

/-- Functions of other packages that the table operations call:
`strings.ToUpper` and `Statement.Quote`. -/
structure Library where
  ToUpper : String → String
  Quote : Stmt → String → String

/-- The outcome of an operation that may fault: the executed statements and the
returned error (`none` is nil). -/
abbrev Outcome := Except Fault (List SQLCall × Option Error)

/-- The function `strings.Contains`. -/
def Contains (s substr : String) : Bool :=
  s.data.tails.any fun t => substr.data.isPrefixOf t

/-- The function `strings.TrimSuffix`. -/
def TrimSuffix (s suffix : String) : String :=
  if suffix.data.isSuffixOf s.data then
    ⟨s.data.take (s.data.length - suffix.data.length)⟩
  else s

/-- The method `Migrator.BuildIndexOptions`; `fmt.Sprintf("(%d)", n)` is the
decimal `n` in parentheses. -/
def BuildIndexOptions (lib : Library) (opts : List IndexOption) (stmt : Stmt) : List Arg :=
  opts.map fun opt =>
    let str := lib.Quote stmt opt.DBName
    let str :=
      if opt.Expression ≠ "" then opt.Expression
      else if opt.Length > 0 then str ++ ("(" ++ Itoa opt.Length ++ ")")
      else str
    let str := if opt.Collate ≠ "" then str ++ (" COLLATE " ++ opt.Collate) else str
    let str := if opt.Sort_ ≠ "" then str ++ (" " ++ opt.Sort_) else str
    .Expr str

/-- The function `buildConstraint`. -/
def buildConstraint (env : Env) (constraint : Constraint) : String × List Arg :=
  let sql := "CONSTRAINT ? FOREIGN KEY ? REFERENCES ??"
  let sql := if constraint.OnDelete ≠ "" then sql ++ (" ON DELETE " ++ constraint.OnDelete) else sql
  let sql := if constraint.OnUpdate ≠ "" then sql ++ (" ON UPDATE  " ++ constraint.OnUpdate) else sql
  let foreignKeys := constraint.ForeignKeys.map fun field => Arg.Column field.DBName
  let references := constraint.References.map fun field => Arg.Column field.DBName
  (sql, [.Table constraint.Name, .List foreignKeys,
    .Table (env.schema constraint.ReferenceSchema).Table, .List references])

/-- The statement `CreateIndex` executes for an index it has found. -/
def createIndexCall (lib : Library) (stmt : Stmt) (idx : Index) : SQLCall :=
  let opts := BuildIndexOptions lib idx.Fields stmt
  let values := [Arg.Column idx.Name, .Table stmt.Table, .List opts]
  let createIndexSQL := "CREATE "
  let createIndexSQL :=
    if idx.Class ≠ "" then createIndexSQL ++ (idx.Class ++ " ") else createIndexSQL
  let createIndexSQL := createIndexSQL ++ "INDEX ? ON ??"
  let values := if idx.Comment ≠ "" then values ++ [.Str idx.Comment] else values
  let createIndexSQL :=
    if idx.Comment ≠ "" then createIndexSQL ++ " COMMENT ?" else createIndexSQL
  let createIndexSQL :=
    if idx.Type_ ≠ "" then createIndexSQL ++ (" USING " ++ idx.Type_) else createIndexSQL
  ⟨createIndexSQL, values⟩

/-- A loop of the shape `if err = create(name); err != nil { return err }` over
the names, with `err` as it stands before the loop; `return err` follows. -/
def createEach (create : List SQLCall → String → Outcome) :
    List String → List SQLCall → Option Error → Outcome
  | [], log, err => .ok (log, err)
  | name :: names, log, _ =>
    match create log name with
    | .error f => .error f
    | .ok (log1, some e) => .ok (log1, some e)
    | .ok (log1, none) => createEach create names log1 none

/-- The method `Migrator.CreateIndex`; the fuel bounds the recursion. When the
name is that of a field, the nested loops call `CreateIndex` once for every
option on that field, index by index. -/
def CreateIndex (env : Env) (lib : Library) :
    Nat → List SQLCall → Value → String → Outcome
  | 0, _, _, _ => .error .outOfFuel
  | fuel + 1, log, value, name =>
    match env.Parse value with
    | .error e => .ok (log, some e)
    | .ok stmt =>
      let err : Error := "failed to create index with name " ++ name
      let indexes := (env.schema stmt.Schema).ParseIndexes
      match indexes.find? fun idx => idx.Name = name with
      | some idx => .ok (Exec env log (createIndexCall lib stmt idx))
      | none =>
        match (env.schema stmt.Schema).LookUpField name with
        | some field =>
          createEach (fun l n => CreateIndex env lib fuel l value n)
            (indexes.flatMap fun idx =>
              (idx.Fields.filter fun idxOpt => idxOpt.Field = field).map fun _ => idx.Name)
            log (some err)
        | none => .ok (log, some err)

/-- The first constraint of the relationships with the given name, as the
loop of `CreateConstraint` finds it. -/
def findConstraint (name : String) : List Relationship → Option Constraint
  | [] => none
  | rel :: rels =>
    match rel.ParseConstraint with
    | some c => if c.Name = name then some c else findConstraint name rels
    | none => findConstraint name rels

/-- The method `Migrator.CreateConstraint`. -/
def CreateConstraint (env : Env) (lib : Library) (fuel : Nat) (log : List SQLCall)
    (value : Value) (name : String) : Outcome :=
  match env.Parse value with
  | .error e => .ok (log, some e)
  | .ok stmt =>
    let checkConstraints := (env.schema stmt.Schema).ParseCheckConstraints
    match checkConstraints.find? fun chk => chk.Name = name with
    | some chk =>
      .ok (Exec env log ⟨"ALTER TABLE ? ADD CONSTRAINT ? CHECK ?",
        [.Table stmt.Table, .Column chk.Name, .Expr chk.Constraint]⟩)
    | none =>
      match findConstraint name (env.schema stmt.Schema).Relations with
      | some constraint =>
        let built := buildConstraint env constraint
        .ok (Exec env log ⟨"ALTER TABLE ? ADD " ++ built.1, .Table stmt.Table :: built.2⟩)
      | none =>
        let err : Error := "failed to create constraint with name " ++ name
        match (env.schema stmt.Schema).LookUpField name with
        | some field =>
          createEach (fun l n => CreateIndex env lib fuel l value n)
            (checkConstraints.map (fun cc => cc.Name) ++
              (env.schema stmt.Schema).Relations.filterMap fun rel =>
                match rel.ParseConstraint with
                | some c => if c.Field = field then some c.Name else none
                | none => none)
            log (some err)
        | none => .ok (log, some err)

/-- The variables `createTableSQL`, `values` and `hasPrimaryKeyInDataType` of
`CreateTable`. -/
structure TableSQL where
  createTableSQL : String
  values : List Arg
  hasPrimaryKeyInDataType : Bool

/-- The loop of `CreateTable` over `DBNames`. A name that is missing from
`FieldsByDBName` gives a nil field, and reading it faults. -/
def addColumns (env : Env) (lib : Library) (sch : Schema) :
    List String → TableSQL → Except Fault TableSQL
  | [], t => .ok t
  | dbName :: rest, t =>
    match sch.FieldsByDBName.lookup dbName with
    | none => .error .nilPointer
    | some field =>
      let createTableSQL := t.createTableSQL ++ "? ?"
      let hasPrimaryKeyInDataType :=
        t.hasPrimaryKeyInDataType || Contains (lib.ToUpper field.DBDataType) "PRIMARY KEY"
      let values := t.values ++ [.Column dbName, .Expr (DataTypeOf env field)]
      let createTableSQL :=
        if field.AutoIncrement then createTableSQL ++ " AUTO_INCREMENT" else createTableSQL
      let createTableSQL :=
        if field.NotNull then createTableSQL ++ " NOT NULL" else createTableSQL
      let createTableSQL :=
        if field.Unique then createTableSQL ++ " UNIQUE" else createTableSQL
      let values :=
        if field.DefaultValue ≠ "" then values ++ [.Expr field.DefaultValue] else values
      let createTableSQL :=
        if field.DefaultValue ≠ "" then createTableSQL ++ " DEFAULT ?" else createTableSQL
      let createTableSQL := createTableSQL ++ ","
      addColumns env lib sch rest ⟨createTableSQL, values, hasPrimaryKeyInDataType⟩

/-- The step `if !hasPrimaryKeyInDataType { ... }` of `CreateTable`. -/
def addPrimaryKey (sch : Schema) (t : TableSQL) : TableSQL :=
  if t.hasPrimaryKeyInDataType then t
  else
    { t with
      createTableSQL := t.createTableSQL ++ "PRIMARY KEY ?,"
      values := t.values ++ [.List (sch.PrimaryFields.map fun field => .Column field.DBName)] }

/-- The loop of `CreateTable` over the indexes, as far as the template goes:
with `CreateIndexAfterCreateTable` nothing is added to it. -/
def addIndexes (cfg : Config) (lib : Library) (stmt : Stmt) : List Index → TableSQL → TableSQL
  | [], t => t
  | idx :: rest, t =>
    if cfg.CreateIndexAfterCreateTable then addIndexes cfg lib stmt rest t
    else
      addIndexes cfg lib stmt rest
        { t with
          createTableSQL := t.createTableSQL ++ "INDEX ? ?,"
          values := t.values ++ [.Expr idx.Name, .List (BuildIndexOptions lib idx.Fields stmt)] }

/-- The loop of `CreateTable` over the relationships, as far as the template
goes. -/
def addConstraints (env : Env) : List Relationship → TableSQL → TableSQL
  | [], t => t
  | rel :: rest, t =>
    match rel.ParseConstraint with
    | some constraint =>
      let built := buildConstraint env constraint
      addConstraints env rest
        { t with
          createTableSQL := t.createTableSQL ++ (built.1 ++ ",")
          values := t.values ++ built.2 }
    | none => addConstraints env rest t

/-- The loop of `CreateTable` over the check constraints. -/
def addChecks : List Check → TableSQL → TableSQL
  | [], t => t
  | chk :: rest, t =>
    addChecks rest
      { t with
        createTableSQL := t.createTableSQL ++ "CONSTRAINT ? CHECK ?,"
        values := t.values ++ [.Column chk.Name, .Expr chk.Constraint] }

/-- The statement the closure of `CreateTable` builds for a parsed value. The
template and its values do not depend on what is executed while they are
built, so they are computed here in one go. -/
def createTableCall (env : Env) (cfg : Config) (lib : Library) (stmt : Stmt) :
    Except Fault SQLCall :=
  let sch := env.schema stmt.Schema
  match addColumns env lib sch sch.DBNames ⟨"CREATE TABLE ? (", [.Table stmt.Table], false⟩ with
  | .error f => .error f
  | .ok t =>
    let t := addPrimaryKey sch t
    let t := addIndexes cfg lib stmt sch.ParseIndexes t
    let t := addConstraints env sch.Relations t
    let t := addChecks sch.ParseCheckConstraints t
    let createTableSQL := TrimSuffix t.createTableSQL ","
    .ok ⟨createTableSQL ++ ")", t.values⟩

/-- The calls `tx.Migrator().CreateIndex(value, idx.Name)` of `CreateTable`, made
while the template is built; their results are dropped. -/
def createIndexes (env : Env) (lib : Library) (fuel : Nat) (value : Value) :
    List Index → List SQLCall → Except Fault (List SQLCall)
  | [], log => .ok log
  | idx :: rest, log =>
    match CreateIndex env lib fuel log value idx.Name with
    | .error f => .error f
    | .ok (log1, _) => createIndexes env lib fuel value rest log1

/-- The join values for which the relationship loop defers
`CreateTable(joinValue)`: those whose `HasTable` probe is false, in the order
of the `defer` statements. -/
def deferredJoinTables (env : Env) (log : List SQLCall) : List Relationship → List Value
  | [] => []
  | rel :: rest =>
    match rel.JoinTable with
    | some joinTable =>
      let joinValue := reflectNew (env.schema joinTable).ModelType
      if !HasTable env log joinValue then joinValue :: deferredJoinTables env log rest
      else deferredJoinTables env log rest
    | none => deferredJoinTables env log rest

/-- The deferred calls `CreateTable(joinValue)`, run in the order given; their
results are dropped. -/
def runDeferred (create : List SQLCall → List Value → Outcome) :
    List Value → List SQLCall → Except Fault (List SQLCall)
  | [], log => .ok log
  | joinValue :: rest, log =>
    match create log [joinValue] with
    | .error f => .error f
    | .ok (log1, _) => runDeferred create rest log1

/-- One round of the loop of `CreateTable`: `RunWithValue` with the closure. The
indexes are created first when `CreateIndexAfterCreateTable` is set, then the
statement is executed, then the deferred calls run, last deferred first. -/
def createTableOf (env : Env) (cfg : Config) (lib : Library) (fuel : Nat)
    (create : List SQLCall → List Value → Outcome) (log : List SQLCall) (value : Value) :
    Outcome :=
  match env.Parse value with
  | .error e => .ok (log, some e)
  | .ok stmt =>
    match createTableCall env cfg lib stmt with
    | .error f => .error f
    | .ok call =>
      let indexes :=
        if cfg.CreateIndexAfterCreateTable then (env.schema stmt.Schema).ParseIndexes else []
      match createIndexes env lib fuel value indexes log with
      | .error f => .error f
      | .ok log1 =>
        let deferred := deferredJoinTables env log1 (env.schema stmt.Schema).Relations
        let done := Exec env log1 call
        match runDeferred create deferred.reverse done.1 with
        | .error f => .error f
        | .ok log2 => .ok (log2, done.2)

/-- The loop `for _, value := range ...` of `CreateTable`: the first error ends
it. -/
def createTables (one : List SQLCall → Value → Outcome) :
    List Value → List SQLCall → Outcome
  | [], log => .ok (log, none)
  | value :: rest, log =>
    match one log value with
    | .error f => .error f
    | .ok (log1, some e) => .ok (log1, some e)
    | .ok (log1, none) => createTables one rest log1

/-- The method `Migrator.CreateTable`; the fuel bounds the recursion through the
join tables, and is the fuel of `ReorderModels` and `CreateIndex` as well. -/
def CreateTable (env : Env) (cfg : Config) (lib : Library) :
    Nat → List SQLCall → List Value → Outcome
  | 0, _, _ => .error .outOfFuel
  | fuel + 1, log, values =>
    match ReorderModels env (fuel + 1) values false with
    | .error f => .error f
    | .ok ordered =>
      createTables
        (createTableOf env cfg lib (fuel + 1) fun l vs => CreateTable env cfg lib fuel l vs)
        ordered log

/-- The loop of `DropTable`, over the reordered values from the last to the
first. -/
def dropTables (env : Env) : List Value → List SQLCall → List SQLCall × Option Error
  | [], log => (log, none)
  | value :: rest, log =>
    if HasTable env log value then
      match RunWithValue env value log fun stmt =>
          Exec env log ⟨"DROP TABLE ?", [.Table stmt.Table]⟩ with
      | (log1, some e) => (log1, some e)
      | (log1, none) => dropTables env rest log1
    else dropTables env rest log

/-- The method `Migrator.DropTable`. -/
def DropTable (env : Env) (fuel : Nat) (log : List SQLCall) (values : List Value) : Outcome :=
  match ReorderModels env fuel values false with
  | .error f => .error f
  | .ok ordered => .ok (dropTables env ordered.reverse log)

/-- The loop of `AutoMigrate` over `FieldsByDBName`. -/
def migrateColumns (env : Env) (value : Value) :
    List Field → List SQLCall → List SQLCall × Option Error
  | [], log => (log, none)
  | field :: rest, log =>
    if !HasColumn env log value field.DBName then
      match AddColumn env log value field.DBName with
      | (log1, some e) => (log1, some e)
      | (log1, none) => migrateColumns env value rest log1
    else migrateColumns env value rest log

/-- The loop of `AutoMigrate` over the check constraints; it stands inside the
loop over the relationships. -/
def migrateChecks (env : Env) (lib : Library) (fuel : Nat) (value : Value) :
    List Check → List SQLCall → Outcome
  | [], log => .ok (log, none)
  | chk :: rest, log =>
    if !HasConstraint env log value chk.Name then
      match CreateConstraint env lib fuel log value chk.Name with
      | .error f => .error f
      | .ok (log1, some e) => .ok (log1, some e)
      | .ok (log1, none) => migrateChecks env lib fuel value rest log1
    else migrateChecks env lib fuel value rest log

/-- The step of `AutoMigrate` for the constraint of one relationship. -/
def migrateConstraint (env : Env) (lib : Library) (fuel : Nat) (value : Value)
    (rel : Relationship) (log : List SQLCall) : Outcome :=
  match rel.ParseConstraint with
  | some constraint =>
    if !HasConstraint env log value constraint.Name then
      CreateConstraint env lib fuel log value constraint.Name
    else .ok (log, none)
  | none => .ok (log, none)

/-- The loop of `AutoMigrate` over the relationships: the constraint, then all
check constraints, then the `defer` for the join table. It returns the log,
the error that ended it and the join values deferred so far. -/
def migrateRelations (env : Env) (lib : Library) (fuel : Nat) (value : Value)
    (checks : List Check) :
    List Relationship → List SQLCall → List Value →
      Except Fault (List SQLCall × Option Error × List Value)
  | [], log, deferred => .ok (log, none, deferred)
  | rel :: rest, log, deferred =>
    match migrateConstraint env lib fuel value rel log with
    | .error f => .error f
    | .ok (log1, some e) => .ok (log1, some e, deferred)
    | .ok (log1, none) =>
      match migrateChecks env lib fuel value checks log1 with
      | .error f => .error f
      | .ok (log2, some e) => .ok (log2, some e, deferred)
      | .ok (log2, none) =>
        let deferred :=
          match rel.JoinTable with
          | some joinTable =>
            let joinValue := reflectNew (env.schema joinTable).ModelType
            if !HasTable env log2 joinValue then deferred ++ [joinValue] else deferred
          | none => deferred
        migrateRelations env lib fuel value checks rest log2 deferred

/-- The `else` branch of `AutoMigrate` for one value: `RunWithValue` with the
closure; the deferred calls run when the closure returns, last deferred
first, also when it returns an error. -/
def migrateValue (env : Env) (cfg : Config) (lib : Library) (fuel : Nat)
    (log : List SQLCall) (value : Value) : Outcome :=
  match env.Parse value with
  | .error e => .ok (log, some e)
  | .ok stmt =>
    let sch := env.schema stmt.Schema
    match migrateColumns env value (sch.FieldsByDBName.map fun p => p.2) log with
    | (log1, some e) => .ok (log1, some e)
    | (log1, none) =>
      match migrateRelations env lib fuel value sch.ParseCheckConstraints sch.Relations
          log1 [] with
      | .error f => .error f
      | .ok (log2, err, deferred) =>
        match runDeferred (fun l vs => CreateTable env cfg lib fuel l vs)
            deferred.reverse log2 with
        | .error f => .error f
        | .ok log3 => .ok (log3, err)

/-- One round of the loop of `AutoMigrate`. -/
def autoMigrateOne (env : Env) (cfg : Config) (lib : Library) (fuel : Nat)
    (log : List SQLCall) (value : Value) : Outcome :=
  if !HasTable env log value then CreateTable env cfg lib fuel log [value]
  else migrateValue env cfg lib fuel log value

/-- The method `Migrator.AutoMigrate`. -/
def AutoMigrate (env : Env) (cfg : Config) (lib : Library) (fuel : Nat)
    (log : List SQLCall) (values : List Value) : Outcome :=
  match ReorderModels env fuel values true with
  | .error f => .error f
  | .ok ordered => createTables (autoMigrateOne env cfg lib fuel) ordered log

/-! ### Example configurations and catalogs -/

/-- An upper-casing of the ASCII letters that keeps every other character. It
agrees with `strings.ToUpper` on ASCII strings, the only ones it is applied
to here. -/
def asciiUpper (s : String) : String := ⟨s.data.map Char.toUpper⟩

/-- A library that upper-cases ASCII letters and quotes with double quotes. -/
def plainLibrary : Library := ⟨asciiUpper, fun _ s => "\"" ++ (s ++ "\"")⟩

/-- The configuration with both flags off. -/
def plainConfig : Config := ⟨false, false⟩

/-- The configuration with `CreateIndexAfterCreateTable` set. -/
def indexAfterConfig : Config := ⟨true, false⟩

/-- The environment of `Item` with a dialect that declares the primary key in
the data type of an integer key, as `DataTypeOf` of a dialect may. -/
def keyedItemEnv : Env :=
  { itemEnv with
    DialectorDataTypeOf := fun f =>
      if f.Name = "ID" then "integer PRIMARY KEY AUTOINCREMENT" else "text" }

/-- The schema of `Product`: the table `products` with one column, no
relationship, and the check constraint `chk_price`. -/
def productSchema : Schema :=
  ⟨"products", 0, ["price"], [("price", ⟨"Price", "price", "", false, false, false, ""⟩)],
    [], [], [], [⟨"chk_price", "price > 0"⟩],
    fun n => if n = "price" then some ⟨"Price", "price", "", false, false, false, ""⟩ else none⟩

/-- A catalog in which the table and the column of `Product` exist and no
constraint does: the count is zero for the constraint query and one for every
other query. -/
def productEnv : Env :=
  ⟨fun _ => productSchema, fun _ => .ok ⟨0, "products"⟩, fun _ c => c, fun _ => "int",
    fun _ _ => none,
    fun _ call =>
      if call.SQL = "SELECT count(*) FROM INFORMATION_SCHEMA.referential_constraints WHERE constraint_schema = ? AND table_name = ? AND constraint_name = ?"
      then .ok 0 else .ok 1,
    fun _ _ => .ok "main"⟩

/-- A `Product` value. -/
def productValue : Value := ⟨0, 2⟩

/-- The schema of `Note`: the table `notes` with one column and the index
`idx_notes_title` on it. -/
def noteSchema : Schema :=
  ⟨"notes", 0, ["title"], [("title", ⟨"Title", "title", "", false, false, false, ""⟩)],
    [], [], [⟨"idx_notes_title", "", "", "",
      [⟨"title", "", 0, "", "", ⟨"Title", "title", "", false, false, false, ""⟩⟩]⟩], [],
    fun n => if n = "title" then some ⟨"Title", "title", "", false, false, false, ""⟩ else none⟩

/-- The schema of `Tag`: the table `tags` with one column. -/
def tagSchema : Schema :=
  ⟨"tags", 1, ["label"], [("label", ⟨"Label", "label", "", false, false, false, ""⟩)],
    [], [], [], [],
    fun n => if n = "label" then some ⟨"Label", "label", "", false, false, false, ""⟩ else none⟩

/-- The environment of `Note` (model type 0) and `Tag` (every other model
type); the driver accepts every statement and counts zero rows. -/
def noteEnv : Env :=
  ⟨fun s => if s = 0 then noteSchema else tagSchema,
    fun v => if v.ModelType = 0 then .ok ⟨0, "notes"⟩ else .ok ⟨1, "tags"⟩,
    fun _ c => c, fun _ => "text", fun _ _ => none, fun _ _ => .ok 0, fun _ _ => .ok "main"⟩

/-- The environment of `Note` and `Tag` with a driver that fails every
`CREATE INDEX`. -/
def brokenIndexEnv : Env :=
  { noteEnv with
    Exec := fun _ call =>
      if call.SQL = "CREATE INDEX ? ON ??" then some "index creation failed" else none }

/-- A `Tag` value. -/
def tagValue : Value := ⟨1, 8⟩

/-- The mutual pair of `Author` and `Book` in a catalog where every count is
one: every existence probe is true. -/
def settledMutualEnv : Env :=
  { mutualEnv with ScanCount := fun _ _ => .ok 1 }

/-- A `Note` value. -/
def noteValue : Value := ⟨0, 6⟩

/-! ### The shape of the `CREATE TABLE` template -/

/-- The strings of a list, one after the other. -/
def joinAll : List String → String
  | [] => ""
  | s :: rest => s ++ joinAll rest

/-- What the column loop of `CreateTable` adds to the template for one field. -/
def columnSegment (field : Field) : String :=
  "? ?" ++ ((if field.AutoIncrement then " AUTO_INCREMENT" else "") ++
    ((if field.NotNull then " NOT NULL" else "") ++
      ((if field.Unique then " UNIQUE" else "") ++
        ((if field.DefaultValue ≠ "" then " DEFAULT ?" else "") ++ ","))))

/-- What the column loop of `CreateTable` adds to the values for one field. -/
def columnValues (env : Env) (dbName : String) (field : Field) : List Arg :=
  [.Column dbName, .Expr (DataTypeOf env field)] ++
    (if field.DefaultValue ≠ "" then [.Expr field.DefaultValue] else [])

/-- The fields of the names of a schema, name by name; a name without a field
is left out. -/
def fieldsOf (sch : Schema) : List String → List (String × Field)
  | [] => []
  | dbName :: rest =>
    match sch.FieldsByDBName.lookup dbName with
    | some field => (dbName, field) :: fieldsOf sch rest
    | none => fieldsOf sch rest

/-- The statement `AddColumn` executes for a field. -/
def addColumnCall (env : Env) (stmt : Stmt) (field : Field) : SQLCall :=
  ⟨"ALTER TABLE ? ADD ? ?",
    [.Table stmt.Table, .Column field.DBName, .Expr (DataTypeOf env field)]⟩

/-- What the specification says the diff step adds: one `ADD COLUMN` for each
declared column whose probe is false, none for a column that is present; a
probe is taken after the statements before it. -/
def missingColumns (env : Env) (value : Value) (stmt : Stmt) :
    List Field → List SQLCall → List SQLCall
  | [], _ => []
  | field :: rest, log =>
    if HasColumn env log value field.DBName then missingColumns env value stmt rest log
    else
      addColumnCall env stmt field ::
        missingColumns env value stmt rest (log ++ [addColumnCall env stmt field])

/-- A catalog of `Item` in which the table and the column `id` exist and the
column `name` is missing. -/
def staleItemEnv : Env :=
  { itemEnv with
    ScanCount := fun _ call =>
      match call.Vars with
      | [_, _, .Str "name"] => .ok 0
      | _ => .ok 1 }

/-- The model `a` references the model `b`: the schema of `b` is among the
dependencies `parseDependence` computes for the schema of `a`. -/
def References (env : Env) (a b : Value) : Prop :=
  ∃ sa sb, schemaOf env a = some sa ∧ schemaOf env b = some sb ∧ sb ∈ dependsOf env sa

/-- The statement `DropTable` executes for a value. -/
def dropTableCall (env : Env) (value : Value) : SQLCall :=
  ⟨"DROP TABLE ?",
    [.Table (match env.Parse value with
      | .ok stmt => stmt.Table
      | .error _ => "")]⟩

/-- What the specification says `DropTable` drops, from a list walked in order:
the models whose `HasTable` probe is true, none whose probe is false; a probe
is taken after the drops before it. -/
def droppedOf (env : Env) : List Value → List SQLCall → List Value
  | [], _ => []
  | value :: rest, log =>
    if HasTable env log value then
      value :: droppedOf env rest (log ++ [dropTableCall env value])
    else droppedOf env rest log

/-- The shop of `Order` and `Customer` in a catalog where every count is one:
both tables exist. -/
def settledShopEnv : Env :=
  { shopEnv with ScanCount := fun _ _ => .ok 1 }

/-- The schemas reachable from the supplied models through foreign-key
references: the schema of a supplied model, and every dependency of a
reachable schema. -/
inductive Reachable (env : Env) (values : List Value) : SchemaRef → Prop where
  | supplied {v : Value} {s : SchemaRef} :
    v ∈ values → schemaOf env v = some s → Reachable env values s
  | referenced {s d : SchemaRef} :
    Reachable env values s → d ∈ dependsOf env s → Reachable env values d

/-- Where the registered entries of `valuesMap` come from: each holds a
reachable schema of `U` with its dependencies, and its `Dest` is a supplied
value or a fresh instance of the model type of its schema. -/
def ReorderProv (env : Env) (U : List SchemaRef) (values : List Value)
    (st : ReorderState) : Prop :=
  ∀ n dep, st.valuesMap n = some dep →
    dep.Schema ∈ U ∧ Reachable env values dep.Schema ∧
      dep.Depends = dependsOf env dep.Schema ∧
      (dep.Dest ∈ values ∨ dep.Dest = reflectNew (env.schema dep.Schema).ModelType)

/-- The number of `?` markers of a template. -/
def markers (s : String) : Nat := s.data.count '?'

/-- The string is not empty and its last character is not a comma. -/
def GoodLast (s : String) : Prop := ∃ c, s.data.getLast? = some c ∧ c ≠ ','

/-- The string ends with a comma that follows a character other than a comma. -/
def EndsWell (s : String) : Prop := ∃ x : String, s = x ++ "," ∧ GoodLast x

/-- The template and the values are paired: as many markers as values. -/
def Paired (t : TableSQL) : Prop := markers t.createTableSQL = t.values.length

/-- The schema of `Order` with a foreign key to `Customer` whose `OnUpdate`
action ends with a comma. -/
def cascadeSchema : Schema :=
  ⟨"orders", 0, ["id"], [("id", itemID)], [itemID],
    [⟨some ⟨"fk_orders_customer", 0, 1, [], [], "", "CASCADE,", itemName⟩, none⟩], [], [],
    fun _ => none⟩

/-- The environment of that `Order`. -/
def cascadeEnv : Env :=
  plainEnv (fun s => if s = 0 then cascadeSchema else plainSchema "customers" 1 [])
    fun v => if v.ModelType = 0 then .ok ⟨0, "orders"⟩ else .ok ⟨1, "customers"⟩

/-- The schema of `Order` with a foreign key to `Customer` with the actions
`SET NULL` and `CASCADE`. -/
def linkedSchema : Schema :=
  ⟨"orders", 0, ["id"], [("id", itemID)], [itemID],
    [⟨some ⟨"fk_orders_customer", 0, 1, [], [], "SET NULL", "CASCADE", itemName⟩, none⟩],
    [], [], fun _ => none⟩

/-- The environment of that `Order`. -/
def linkedEnv : Env :=
  plainEnv (fun s => if s = 0 then linkedSchema else plainSchema "customers" 1 [])
    fun v => if v.ModelType = 0 then .ok ⟨0, "orders"⟩ else .ok ⟨1, "customers"⟩

/-! ## Decimal numerals, as the specification reads them -/

/-- The value of a decimal digit character. -/
def digitValue (c : Char) : Nat := c.toNat - 48

/-- The number a string of decimal digits denotes, most significant digit
first. -/
def decimalValue (cs : List Char) : Nat :=
  cs.foldl (fun a c => 10 * a + digitValue c) 0

/-- The string `s` is the decimal numeral of the positive number `n`: it is a
non-empty string of digits without a leading zero that denotes `n`. -/
def IsDecimal (s : String) (n : Int) : Prop :=
  s.data ≠ [] ∧ (∀ c ∈ s.data, c.isDigit = true) ∧ s.data.head? ≠ some '0' ∧
    (decimalValue s.data : Int) = n

instance (s : String) (n : Int) : Decidable (IsDecimal s n) := by
  unfold IsDecimal
  exact inferInstance

/-! ### Examples for the claims that fail as stated -/

/-- Statements handed to the driver one after the other until one fails: the
failing statement is the last one executed and its error is the result. -/
def execUntilFailure (env : Env) : List SQLCall → List SQLCall → List SQLCall × Option Error
  | [], log => (log, none)
  | call :: rest, log =>
    match env.Exec log call with
    | some e => (log ++ [call], some e)
    | none => execUntilFailure env rest (log ++ [call])

/-- The shop with both tables present and a driver that fails every
statement. -/
def failingShopEnv : Env :=
  { settledShopEnv with Exec := fun _ _ => some "drop failed" }

/-- The log `out` continues the log `log` with statements none of which is the
`ADD COLUMN` statement of `AddColumn`. -/
def NoColumnAdded (log out : List SQLCall) : Prop :=
  ∃ rest, out = log ++ rest ∧ ∀ c ∈ rest, c.SQL ≠ "ALTER TABLE ? ADD ? ?"

/-- A catalog of `Item` in which the table exists and has no column, with a
driver that fails every statement. -/
def bareItemEnv : Env :=
  { itemEnv with
    Exec := fun _ _ => some "add failed"
    ScanCount := fun _ call =>
      match call.Vars with
      | [_, _, .Str "BASE TABLE"] => .ok 1
      | _ => .ok 0 }

/-- The field `Price` of `Stock`. -/
def stockPrice : Field := ⟨"Price", "price", "", false, false, false, ""⟩

/-- The schema of `Stock{id, name, price}`: three columns, no indexes, no
relationships, no check constraints. -/
def stockSchema : Schema :=
  ⟨"stocks", 0, ["id", "name", "price"],
    [("id", itemID), ("name", itemName), ("price", stockPrice)], [itemID], [], [], [],
    fun n =>
      if n = "ID" ∨ n = "id" then some itemID
      else if n = "Name" ∨ n = "name" then some itemName
      else if n = "Price" ∨ n = "price" then some stockPrice
      else none⟩

/-- A catalog of `Stock` in which the table and the column `id` exist and the
columns `name` and `price` are missing; the driver accepts every statement. -/
def stockEnv : Env :=
  { itemEnv with
    schema := fun _ => stockSchema
    Parse := fun _ => .ok ⟨0, "stocks"⟩
    ScanCount := fun _ call =>
      match call.Vars with
      | [_, _, .Str "name"] => .ok 0
      | [_, _, .Str "price"] => .ok 0
      | _ => .ok 1 }

/-- A `Stock` value. -/
def stockValue : Value := ⟨0, 11⟩

/-! ### Slices that do not share spare capacity -/

/-- The slice lies within its backing array, capacity included. -/
def WellFormed (heap : Heap) (s : Slice) : Prop :=
  s.len ≤ s.cap ∧ s.off + s.cap ≤ (heap.getD s.array []).length

/-- The elements of the slice lie within its backing array. -/
def InBounds (heap : Heap) (t : Slice) : Prop :=
  t.off + t.len ≤ (heap.getD t.array []).length

/-- No element of `t` is a spare cell of `s`, a cell of the array of `s` between
its length and its capacity: `t` is empty, or lies in another array, or ends
before the spare cells, or starts after them. -/
def Apart (s t : Slice) : Prop :=
  t.len = 0 ∨ t.array ≠ s.array ∨ t.off + t.len ≤ s.off + s.len ∨ s.off + s.cap ≤ t.off

instance (heap : Heap) (s : Slice) : Decidable (WellFormed heap s) := by
  unfold WellFormed
  exact inferInstance

instance (heap : Heap) (t : Slice) : Decidable (InBounds heap t) := by
  unfold InBounds
  exact inferInstance

instance (s t : Slice) : Decidable (Apart s t) := by
  unfold Apart
  exact inferInstance

/-- What holds between the appends of `Clause.Build` when the slots of the
clause were apart from the spare cells of `BeforeExpressions` in `heap0`: the
slice `builders` is well formed and holds `acc`, and each slot holds what it
held in `heap0`, lies within its array and is apart from the spare cells of
`builders`. -/
def BuildInv (heap0 : Heap) (c : Clause) (heap : Heap) (builders : Slice)
    (acc : List (Option Expression)) : Prop :=
  WellFormed heap builders ∧ elems heap builders = acc ∧
    ∀ t, t = c.BeforeExpressions ∨ t = c.AfterNameExpressions ∨ t = c.AfterExpressions →
      elems heap t = elems heap0 t ∧ InBounds heap t ∧ Apart builders t

/-! # Theorems -/

/-! ## `ReorderModels`: the run of the closures -/

theorem ReorderExt.refl (rank : SchemaRef → Nat) (autoAdd : Bool) (r : Nat)
    (st : ReorderState) : ReorderExt rank autoAdd r st st :=
  ⟨⟨[], by simp, by simp⟩, fun _ _ h => h, fun _ => rfl⟩

theorem ReorderExt.trans {rank : SchemaRef → Nat} {autoAdd : Bool} {r : Nat}
    {a b c : ReorderState} (h1 : ReorderExt rank autoAdd r a b)
    (h2 : ReorderExt rank autoAdd r b c) : ReorderExt rank autoAdd r a c := by
  obtain ⟨l1, e1, p1⟩ := h1.grows
  obtain ⟨l2, e2, p2⟩ := h2.grows
  refine ⟨⟨l1 ++ l2, by rw [e2, e1, List.append_assoc], ?_⟩, ?_, ?_⟩
  · intro n hn
    rcases List.mem_append.mp hn with h | h
    · obtain ⟨dep, hd, hr⟩ := p1 n h
      exact ⟨dep, h2.keeps n dep hd, hr⟩
    · exact p2 n h
  · intro n dep h
    exact h2.keeps n dep (h1.keeps n dep h)
  · intro h
    rw [h2.fixed h, h1.fixed h]

theorem ReorderExt.mono {rank : SchemaRef → Nat} {autoAdd : Bool} {r r' : Nat}
    {a b : ReorderState} (hr : r ≤ r') (h : ReorderExt rank autoAdd r a b) :
    ReorderExt rank autoAdd r' a b := by
  obtain ⟨l, e, p⟩ := h.grows
  refine ⟨⟨l, e, ?_⟩, h.keeps, h.fixed⟩
  intro n hn
  obtain ⟨dep, hd, hlt⟩ := p n hn
  exact ⟨dep, hd, lt_of_lt_of_le hlt hr⟩

theorem ReorderExt.subset {rank : SchemaRef → Nat} {autoAdd : Bool} {r : Nat}
    {a b : ReorderState} (h : ReorderExt rank autoAdd r a b) {n : String}
    (hn : n ∈ a.orderedModelNames) : n ∈ b.orderedModelNames := by
  obtain ⟨l, e, _⟩ := h.grows
  rw [e]
  exact List.mem_append_left _ hn

theorem ReorderExt.known {rank : SchemaRef → Nat} {autoAdd : Bool} {r : Nat}
    {a b : ReorderState} (h : ReorderExt rank autoAdd r a b) {n : String}
    (hn : a.valuesMap n ≠ none) : b.valuesMap n ≠ none := by
  cases hv : a.valuesMap n with
  | none => exact absurd hv hn
  | some dep => rw [h.keeps n dep hv]; simp

theorem schemaOf_eq_some {env : Env} {v : Value} {s : SchemaRef}
    (h : schemaOf env v = some s) : ∃ stmt, env.Parse v = .ok stmt ∧ stmt.Schema = s := by
  unfold schemaOf at h
  cases hp : env.Parse v with
  | error e => rw [hp] at h; simp at h
  | ok stmt => rw [hp] at h; exact ⟨stmt, rfl, by simpa using h⟩

theorem parseDependence_ok {env : Env} {v : Value} {stmt : Stmt} (b : Bool)
    (st : ReorderState) (h : env.Parse v = .ok stmt) :
    parseDependence env v b st = .ok
      { st with
        valuesMap := fun k => if k = (env.schema stmt.Schema).Table then
          some ⟨v, stmt.Schema, dependsOf env stmt.Schema⟩ else st.valuesMap k
        modelNames := if b then st.modelNames ++ [(env.schema stmt.Schema).Table]
          else st.modelNames } := by
  simp [parseDependence, h]

/-- Registering a parsed value keeps the invariant, provided no placed name is
overwritten. -/
theorem ReorderInv.register {env : Env} {U : List SchemaRef} {autoAdd : Bool}
    {st : ReorderState} {v : Value} {stmt : Stmt} (names : List String)
    (hinv : ReorderInv env U autoAdd st) (hU : stmt.Schema ∈ U)
    (hp : env.Parse v = .ok stmt)
    (hfree : ∀ n ∈ st.orderedModelNames, n ≠ (env.schema stmt.Schema).Table)
    (hauto : autoAdd = true ∨ st.orderedModelNames = []) :
    ReorderInv env U autoAdd
      { st with
        valuesMap := fun k => if k = (env.schema stmt.Schema).Table then
          some ⟨v, stmt.Schema, dependsOf env stmt.Schema⟩ else st.valuesMap k
        modelNames := names } := by
  refine ⟨hinv.map_iff, hinv.nodup, ?_, ?_, ?_⟩
  · intro n hn
    have hne := hfree n hn
    simpa [hne] using hinv.placed_known n hn
  · intro n dep hd
    by_cases hn : n = (env.schema stmt.Schema).Table
    · simp only [hn, if_true, Option.some.injEq] at hd
      subst hd
      exact ⟨hU, hn.symm, rfl, by simp [schemaOf, hp]⟩
    · simp only [hn, if_false] at hd
      exact hinv.wf n dep hd
  · intro i n dep hi hd d hmem hprem
    have hn : n ∈ st.orderedModelNames := List.mem_iff_getElem?.mpr ⟨i, hi⟩
    have hne := hfree n hn
    simp only [hne, if_false] at hd
    rcases hauto with ha | ha
    · exact hinv.deps_first i n dep hi hd d hmem (Or.inl ha)
    · rw [ha] at hn
      simp at hn

/-- The loop over `dep.Depends` returns and places every dependency that is
registered or, with `autoAdd`, gets registered. -/
theorem insertDepends_spec {env : Env} {U : List SchemaRef} {rank : SchemaRef → Nat}
    {autoAdd : Bool} (hw : Acyclic env U rank autoAdd) {B : Nat}
    {ins : String → ReorderState → Except Fault ReorderState}
    (hins : InsertSpec env U rank autoAdd B ins) :
    ∀ ds st, ReorderInv env U autoAdd st → (∀ d ∈ ds, d ∈ U ∧ rank d < B) →
      ∃ st', insertDepends env autoAdd ins ds st = .ok st' ∧
        ReorderInv env U autoAdd st' ∧
        (∀ d ∈ ds, (autoAdd = true ∨ st.valuesMap (env.schema d).Table ≠ none) →
          (env.schema d).Table ∈ st'.orderedModelNames) ∧
        ReorderExt rank autoAdd B st st' := by
  intro ds
  induction ds with
  | nil =>
    intro st hinv _
    exact ⟨st, rfl, hinv, by simp, ReorderExt.refl rank autoAdd B st⟩
  | cons d ds ih =>
    intro st hinv hds
    obtain ⟨hdU, hdB⟩ := hds d (List.mem_cons_self d ds)
    have hrest : ∀ d' ∈ ds, d' ∈ U ∧ rank d' < B :=
      fun d' h => hds d' (List.mem_cons_of_mem d h)
    cases hv : st.valuesMap (env.schema d).Table with
    | some depd =>
      obtain ⟨hsU, htab, _, _⟩ := hinv.wf _ depd hv
      have hsd : depd.Schema = d := hw.distinct _ hsU _ hdU htab
      obtain ⟨st1, e1, inv1, mem1, ext1⟩ :=
        hins _ st depd hinv hv (by rw [hsd]; exact hdB)
      have ext1B : ReorderExt rank autoAdd B st st1 :=
        ext1.mono (by rw [hsd]; omega)
      obtain ⟨st2, e2, inv2, mem2, ext2⟩ := ih st1 inv1 hrest
      refine ⟨st2, ?_, inv2, ?_, ext1B.trans ext2⟩
      · simp only [insertDepends, hv, e1, e2]
      · intro d' hd' hprem
        rcases List.mem_cons.mp hd' with h | h
        · rw [h]
          exact ext2.subset mem1
        · refine mem2 d' h ?_
          rcases hprem with ha | hk
          · exact Or.inl ha
          · exact Or.inr (ext1.known hk)
    | none =>
      rcases Bool.eq_false_or_eq_true autoAdd with ha | ha
      · subst ha
        obtain ⟨stmt, hp, hs⟩ := schemaOf_eq_some (hw.fresh rfl d hdU)
        have hfree : ∀ n ∈ st.orderedModelNames, n ≠ (env.schema stmt.Schema).Table := by
          intro n hn heq
          rw [hs] at heq
          rw [heq] at hn
          exact hinv.placed_known _ hn hv
        have hpd := parseDependence_ok true st hp
        have inv0 := hinv.register (st.modelNames ++ [(env.schema stmt.Schema).Table])
          (hs ▸ hdU) hp hfree (Or.inl rfl)
        rw [hs] at hpd inv0
        simp only [if_true] at hpd
        have ext0 : ReorderExt rank true B st
            { st with
              valuesMap := fun k => if k = (env.schema d).Table then
                some ⟨reflectNew (env.schema d).ModelType, d, dependsOf env d⟩
                else st.valuesMap k
              modelNames := st.modelNames ++ [(env.schema d).Table] } := by
          refine ⟨⟨[], by simp, by simp⟩, ?_, ?_⟩
          · intro n dep h
            have hne : n ≠ (env.schema d).Table := by
              intro heq
              rw [heq, hv] at h
              simp at h
            simpa [hne] using h
          · intro hf
            simp at hf
        obtain ⟨st1, e1, inv1, mem1, ext1⟩ :=
          hins (env.schema d).Table _
            ⟨reflectNew (env.schema d).ModelType, d, dependsOf env d⟩ inv0 (by simp) hdB
        have ext1B : ReorderExt rank true B _ st1 := ext1.mono (by simp only; omega)
        obtain ⟨st2, e2, inv2, mem2, ext2⟩ := ih st1 inv1 hrest
        refine ⟨st2, ?_, inv2, ?_, ext0.trans (ext1B.trans ext2)⟩
        · simp only [insertDepends, hv, if_true, hpd, e1, e2]
        · intro d' hd' _
          rcases List.mem_cons.mp hd' with h | h
          · rw [h]
            exact ext2.subset mem1
          · exact mem2 d' h (Or.inl rfl)
      · subst ha
        obtain ⟨st2, e2, inv2, mem2, ext2⟩ := ih st hinv hrest
        refine ⟨st2, ?_, inv2, ?_, ext2⟩
        · simp only [insertDepends, hv, e2]
          simp
        · intro d' hd' hprem
          rcases List.mem_cons.mp hd' with h | h
          · rw [h] at hprem
            rcases hprem with h1 | h1
            · simp at h1
            · exact absurd hv h1
          · exact mem2 d' h hprem

/-- With fuel above the rank of the schema, `insertIntoOrderedList` returns
and places the name after all its dependencies. -/
theorem insertIntoOrderedList_spec {env : Env} {U : List SchemaRef}
    {rank : SchemaRef → Nat} {autoAdd : Bool} (hw : Acyclic env U rank autoAdd) :
    ∀ fuel, InsertSpec env U rank autoAdd fuel (insertIntoOrderedList env autoAdd fuel) := by
  intro fuel
  induction fuel with
  | zero =>
    intro name st dep _ _ h
    omega
  | succ fuel ih =>
    intro name st dep hinv hv hr
    cases hm : st.orderedModelNamesMap name with
    | some b =>
      refine ⟨st, ?_, hinv, (hinv.map_iff name).mp (by simp [hm]),
        ReorderExt.refl rank autoAdd _ st⟩
      simp only [insertIntoOrderedList, hm]
    | none =>
      have hnot : name ∉ st.orderedModelNames :=
        fun h => ((hinv.map_iff name).mpr h) hm
      obtain ⟨hsU, _, hdeps, _⟩ := hinv.wf name dep hv
      have hins : InsertSpec env U rank autoAdd (rank dep.Schema)
          (fun n s => insertIntoOrderedList env autoAdd fuel n s) :=
        fun n s d hi hvn hlt => ih n s d hi hvn (by omega)
      obtain ⟨st1, e1, inv1, mem1, ext1⟩ :=
        insertDepends_spec hw hins dep.Depends st hinv (by
          intro d hd
          rw [hdeps] at hd
          exact ⟨hw.closed _ hsU d hd, hw.falls _ hsU d hd⟩)
      have hv1 := ext1.keeps name dep hv
      obtain ⟨l, el, pl⟩ := ext1.grows
      have hnot1 : name ∉ st1.orderedModelNames := by
        rw [el]
        intro h
        rcases List.mem_append.mp h with h | h
        · exact hnot h
        · obtain ⟨dep', hd', hlt⟩ := pl name h
          rw [hv1] at hd'
          simp only [Option.some.injEq] at hd'
          rw [← hd'] at hlt
          omega
      refine ⟨{ st1 with
          orderedModelNames := st1.orderedModelNames ++ [name]
          orderedModelNamesMap :=
            fun k => if k = name then some true else st1.orderedModelNamesMap k },
        ?_, ⟨?_, ?_, ?_, inv1.wf, ?_⟩, by simp, ?_⟩
      · simp only [insertIntoOrderedList, hm, hv, e1]
      · intro n
        by_cases hn : n = name
        · simp [hn]
        · simpa [hn] using inv1.map_iff n
      · exact List.nodup_append.mpr ⟨inv1.nodup, by simp, by
          intro a ha hb
          simp only [List.mem_singleton] at hb
          exact hnot1 (hb ▸ ha)⟩
      · intro n hn
        rcases List.mem_append.mp hn with h | h
        · exact inv1.placed_known n h
        · simp only [List.mem_singleton] at h
          rw [h, hv1]
          simp
      · intro i n dep' hi hd' d hmem hprem
        by_cases hlt : i < st1.orderedModelNames.length
        · simp only [List.getElem?_append_left hlt] at hi
          obtain ⟨j, hj, hje⟩ := inv1.deps_first i n dep' hi hd' d hmem hprem
          refine ⟨j, hj, ?_⟩
          simp only [List.getElem?_append_left (lt_trans hj hlt)]
          exact hje
        · have hge : st1.orderedModelNames.length ≤ i := Nat.le_of_not_lt hlt
          simp only [List.getElem?_append_right hge] at hi
          have hn : n = name := by
            cases hk : i - st1.orderedModelNames.length with
            | zero => rw [hk] at hi; simpa using hi.symm
            | succ k => rw [hk] at hi; simp at hi
          subst hn
          simp only at hd'
          rw [hv1] at hd'
          simp only [Option.some.injEq] at hd'
          subst hd'
          have hold : autoAdd = true ∨ st.valuesMap (env.schema d).Table ≠ none := by
            rcases hprem with h | h
            · exact Or.inl h
            · rcases Bool.eq_false_or_eq_true autoAdd with ha | ha
              · exact Or.inl ha
              · simp only at h
                rw [ext1.fixed ha] at h
                exact Or.inr h
          obtain ⟨j, hj⟩ := List.mem_iff_getElem?.mp (mem1 d hmem hold)
          have hjl : j < st1.orderedModelNames.length := by
            by_contra hc
            rw [List.getElem?_eq_none (Nat.le_of_not_lt hc)] at hj
            simp at hj
          refine ⟨j, lt_of_lt_of_le hjl hge, ?_⟩
          simp only [List.getElem?_append_left hjl]
          exact hj
      · refine (ext1.mono (Nat.le_succ _)).trans ⟨⟨[name], rfl, ?_⟩, fun _ _ h => h, fun _ => rfl⟩
        intro n hn
        simp only [List.mem_singleton] at hn
        subst hn
        exact ⟨dep, hv1, Nat.lt_succ_self _⟩

theorem ReorderInv.init (env : Env) (U : List SchemaRef) (autoAdd : Bool) :
    ReorderInv env U autoAdd ReorderState.init := by
  refine ⟨?_, ?_, ?_, ?_, ?_⟩ <;> simp [ReorderState.init]

/-- The first loop registers every supplied value and places nothing. -/
theorem parseAll_spec {env : Env} {U : List SchemaRef} {autoAdd : Bool} :
    ∀ values st, ReorderInv env U autoAdd st → st.orderedModelNames = [] →
      (∀ n ∈ st.modelNames, st.valuesMap n ≠ none) →
      (∀ v ∈ values, ∃ s ∈ U, schemaOf env v = some s) →
      ∃ st', parseAll env values st = .ok st' ∧ ReorderInv env U autoAdd st' ∧
        st'.orderedModelNames = [] ∧ (∀ n ∈ st'.modelNames, st'.valuesMap n ≠ none) ∧
        (∀ n ∈ st.modelNames, n ∈ st'.modelNames) ∧
        (∀ v ∈ values, ∀ s, schemaOf env v = some s →
          (env.schema s).Table ∈ st'.modelNames) := by
  intro values
  induction values with
  | nil =>
    intro st hinv hnil hknown _
    exact ⟨st, rfl, hinv, hnil, hknown, fun _ h => h, by simp⟩
  | cons v vs ih =>
    intro st hinv hnil hknown hvals
    obtain ⟨s, hsU, hsv⟩ := hvals v (List.mem_cons_self v vs)
    obtain ⟨stmt, hp, hs⟩ := schemaOf_eq_some hsv
    have hpd := parseDependence_ok true st hp
    simp only [if_true] at hpd
    have inv0 := hinv.register (st.modelNames ++ [(env.schema stmt.Schema).Table])
      (hs ▸ hsU) hp (by rw [hnil]; simp) (Or.inr hnil)
    obtain ⟨st', e', inv', hnil', hknown', hsub', hmem'⟩ := ih _ inv0 hnil (by
      intro n hn
      by_cases hnt : n = (env.schema stmt.Schema).Table
      · simp [hnt]
      · simp only [hnt, if_false]
        rcases List.mem_append.mp hn with h | h
        · exact hknown n h
        · simp only [List.mem_singleton] at h
          exact absurd h hnt)
      (fun v' h => hvals v' (List.mem_cons_of_mem v h))
    refine ⟨st', ?_, inv', hnil', hknown', ?_, ?_⟩
    · simp only [parseAll, hpd, e']
    · intro n hn
      exact hsub' n (List.mem_append_left _ hn)
    · intro v' hv' s' hs'
      rcases List.mem_cons.mp hv' with h | h
      · rw [h, hsv] at hs'
        simp only [Option.some.injEq] at hs'
        rw [← hs', ← hs]
        exact hsub' _ (by simp)
      · exact hmem' v' h s' hs'

/-- The second loop returns and places every registered name it is given. -/
theorem insertAll_spec {env : Env} {U : List SchemaRef} {rank : SchemaRef → Nat}
    {autoAdd : Bool} (hw : Acyclic env U rank autoAdd) {fuel : Nat}
    (hfuel : ∀ s ∈ U, rank s < fuel) :
    ∀ names st, ReorderInv env U autoAdd st → (∀ n ∈ names, st.valuesMap n ≠ none) →
      ∃ st', insertAll env autoAdd fuel names st = .ok st' ∧ ReorderInv env U autoAdd st' ∧
        (∀ n ∈ names, n ∈ st'.orderedModelNames) ∧ ReorderExt rank autoAdd fuel st st' := by
  intro names
  induction names with
  | nil =>
    intro st hinv _
    exact ⟨st, rfl, hinv, by simp, ReorderExt.refl rank autoAdd fuel st⟩
  | cons n ns ih =>
    intro st hinv hknown
    cases hv : st.valuesMap n with
    | none => exact absurd hv (hknown n (List.mem_cons_self n ns))
    | some dep =>
      have hlt := hfuel _ (hinv.wf n dep hv).1
      obtain ⟨st1, e1, inv1, mem1, ext1⟩ :=
        insertIntoOrderedList_spec hw fuel n st dep hinv hv hlt
      have ext1B : ReorderExt rank autoAdd fuel st st1 := ext1.mono hlt
      obtain ⟨st2, e2, inv2, mem2, ext2⟩ := ih st1 inv1
        (fun m hm => ext1.known (hknown m (List.mem_cons_of_mem n hm)))
      refine ⟨st2, ?_, inv2, ?_, ext1B.trans ext2⟩
      · simp only [insertAll, e1, e2]
      · intro m hm
        rcases List.mem_cons.mp hm with h | h
        · rw [h]
          exact ext2.subset mem1
        · exact mem2 m h

/-- The last loop returns the `Dest` of every placed name, position by position. -/
theorem collectDest_spec (valuesMap : String → Option Dependency) :
    ∀ names, (∀ n ∈ names, valuesMap n ≠ none) →
      ∃ out, collectDest valuesMap names = .ok out ∧ out.length = names.length ∧
        ∀ (i : Nat) n, names[i]? = some n →
          ∃ dep, valuesMap n = some dep ∧ out[i]? = some dep.Dest := by
  intro names
  induction names with
  | nil =>
    intro _
    exact ⟨[], rfl, rfl, by simp⟩
  | cons n ns ih =>
    intro hknown
    obtain ⟨out, e, hlen, hidx⟩ := ih (fun m hm => hknown m (List.mem_cons_of_mem n hm))
    cases hv : valuesMap n with
    | none => exact absurd hv (hknown n (List.mem_cons_self n ns))
    | some dep =>
      refine ⟨dep.Dest :: out, ?_, by simp [hlen], ?_⟩
      · simp only [collectDest, hv, e]
      · intro i m hi
        cases i with
        | zero =>
          simp only [List.getElem?_cons_zero, Option.some.injEq] at hi
          exact ⟨dep, hi ▸ hv, by simp⟩
        | succ k =>
          simp only [List.getElem?_cons_succ] at hi
          simpa using hidx k m hi

theorem rank_bound (rank : SchemaRef → Nat) (U : List SchemaRef) :
    ∃ N, ∀ s ∈ U, rank s < N := by
  induction U with
  | nil => exact ⟨0, by simp⟩
  | cons a U ih =>
    obtain ⟨N, hN⟩ := ih
    refine ⟨max N (rank a + 1), ?_⟩
    intro s hs
    rcases List.mem_cons.mp hs with h | h
    · rw [h]
      exact lt_of_lt_of_le (Nat.lt_succ_self _) (le_max_right _ _)
    · exact lt_of_lt_of_le (hN s h) (le_max_left _ _)

/-- The run of `ReorderModels` on an acyclic set: with enough fuel it returns
the `Dest` values of a final state that satisfies the invariant and has placed
the table of every supplied value. -/
theorem ReorderModels_run {env : Env} {U : List SchemaRef} {rank : SchemaRef → Nat}
    {autoAdd : Bool} (hw : Acyclic env U rank autoAdd) (values : List Value)
    (hvals : ∀ v ∈ values, ∃ s ∈ U, schemaOf env v = some s) :
    ∃ N, ∀ fuel, N ≤ fuel → ∃ st out, ReorderInv env U autoAdd st ∧
      ReorderModels env fuel values autoAdd = .ok out ∧
      out.length = st.orderedModelNames.length ∧
      (∀ (i : Nat) n, st.orderedModelNames[i]? = some n →
        ∃ dep, st.valuesMap n = some dep ∧ out[i]? = some dep.Dest) ∧
      (∀ v ∈ values, ∀ s, schemaOf env v = some s →
        (env.schema s).Table ∈ st.orderedModelNames) := by
  obtain ⟨N, hN⟩ := rank_bound rank U
  refine ⟨N, fun fuel hfuel => ?_⟩
  obtain ⟨st1, e1, inv1, _, hknown1, _, hmem1⟩ :=
    parseAll_spec values ReorderState.init (ReorderInv.init env U autoAdd) rfl
      (by simp [ReorderState.init]) hvals
  obtain ⟨st2, e2, inv2, mem2, _⟩ :=
    insertAll_spec hw (fun s hs => lt_of_lt_of_le (hN s hs) hfuel) st1.modelNames st1
      inv1 hknown1
  obtain ⟨out, e3, hlen, hidx⟩ :=
    collectDest_spec st2.valuesMap st2.orderedModelNames inv2.placed_known
  refine ⟨st2, out, inv2, ?_, hlen, hidx, ?_⟩
  · simp only [ReorderModels, e1, e2, e3]
  · intro v hv s hs
    exact mem2 _ (hmem1 v hv s hs)

/-- The table names of the output are the placed names, position by position. -/
theorem output_tables {env : Env} {U : List SchemaRef} {autoAdd : Bool}
    {st : ReorderState} {out : List Value} (hinv : ReorderInv env U autoAdd st)
    (hlen : out.length = st.orderedModelNames.length)
    (hidx : ∀ (i : Nat) n, st.orderedModelNames[i]? = some n →
      ∃ dep, st.valuesMap n = some dep ∧ out[i]? = some dep.Dest) :
    out.map (tableOf env) = st.orderedModelNames.map some := by
  apply List.ext_getElem?
  intro i
  by_cases hi : i < st.orderedModelNames.length
  · obtain ⟨dep, hv, ho⟩ := hidx i _ (List.getElem?_eq_getElem hi)
    obtain ⟨_, htab, _, hs⟩ := hinv.wf _ dep hv
    simp only [List.getElem?_map, ho, List.getElem?_eq_getElem hi, Option.map_some',
      tableOf, hs, htab]
  · have h1 : st.orderedModelNames.length ≤ i := Nat.le_of_not_lt hi
    have h2 : out.length ≤ i := hlen ▸ h1
    simp [List.getElem?_eq_none h1, List.getElem?_eq_none h2]

theorem mem_dependsOfRelations {d : SchemaRef} :
    ∀ rels : List Relationship, d ∈ dependsOfRelations rels →
      ∃ rel ∈ rels, ∃ c, rel.ParseConstraint = some c ∧ c.Schema ≠ c.ReferenceSchema ∧
        c.ReferenceSchema = d := by
  intro rels
  induction rels with
  | nil => intro h; simp [dependsOfRelations] at h
  | cons rel rels ih =>
    intro h
    unfold dependsOfRelations at h
    cases hc : rel.ParseConstraint with
    | none =>
      rw [hc] at h
      obtain ⟨r, hr, c, h1, h2, h3⟩ := ih h
      exact ⟨r, List.mem_cons_of_mem _ hr, c, h1, h2, h3⟩
    | some c =>
      rw [hc] at h
      dsimp only at h
      by_cases hne : c.Schema ≠ c.ReferenceSchema
      · rw [if_pos hne] at h
        rcases List.mem_cons.mp h with h | h
        · exact ⟨rel, List.mem_cons_self _ _, c, hc, hne, h.symm⟩
        · obtain ⟨r, hr, c', h1, h2, h3⟩ := ih h
          exact ⟨r, List.mem_cons_of_mem _ hr, c', h1, h2, h3⟩
      · rw [if_neg hne] at h
        obtain ⟨r, hr, c', h1, h2, h3⟩ := ih h
        exact ⟨r, List.mem_cons_of_mem _ hr, c', h1, h2, h3⟩

/-! ## Claims on `ReorderModels` -/

/-- C1: for models with distinct table names whose foreign-key edges (the
constraints that reference a different schema) are acyclic, and for either
value of `autoAdd`, `ReorderModels` returns, and in the list it returns every
referenced model stands at a strictly smaller index than a model that
references it. For `Order` referencing `Customer`, supplied as
`[Order, Customer]`, the output is exactly `[Customer, Order]`. -/
theorem ReorderModels_referenced_first :
    (∀ (env : Env) (U : List SchemaRef) (rank : SchemaRef → Nat) (values : List Value)
      (autoAdd : Bool), Acyclic env U rank autoAdd →
      (∀ v ∈ values, ∃ s ∈ U, schemaOf env v = some s) →
      ∃ N, ∀ fuel, N ≤ fuel → ∃ out, ReorderModels env fuel values autoAdd = .ok out ∧
        ∀ (i j : Nat) (a b : Value) (sa sb : SchemaRef),
          out[i]? = some a → out[j]? = some b →
          schemaOf env a = some sa → schemaOf env b = some sb →
          sb ∈ dependsOf env sa → j < i) ∧
    (∀ (autoAdd : Bool) (fuel : Nat), 2 ≤ fuel →
      ReorderModels shopEnv fuel [orderValue, customerValue] autoAdd =
        .ok [customerValue, orderValue]) := by
  constructor
  · intro env U rank values autoAdd hw hvals
    obtain ⟨N, hrun⟩ := ReorderModels_run hw values hvals
    refine ⟨N, fun fuel hfuel => ?_⟩
    obtain ⟨st, out, inv, e, hlen, hidx, _⟩ := hrun fuel hfuel
    refine ⟨out, e, ?_⟩
    intro i j a b sa sb hi hj hsa hsb hedge
    have bound : ∀ (k : Nat) (x : Value), out[k]? = some x →
        k < st.orderedModelNames.length := by
      intro k x hk
      by_contra hc
      rw [List.getElem?_eq_none (hlen ▸ Nat.le_of_not_lt hc)] at hk
      simp at hk
    have hil := bound i a hi
    have hjl := bound j b hj
    obtain ⟨depa, hva, hoa⟩ := hidx i _ (List.getElem?_eq_getElem hil)
    obtain ⟨depb, hvb, hob⟩ := hidx j _ (List.getElem?_eq_getElem hjl)
    rw [hi] at hoa
    rw [hj] at hob
    simp only [Option.some.injEq] at hoa hob
    obtain ⟨_, _, hdepa, hpa⟩ := inv.wf _ depa hva
    obtain ⟨_, htb, _, hpb⟩ := inv.wf _ depb hvb
    rw [← hoa, hsa] at hpa
    rw [← hob, hsb] at hpb
    simp only [Option.some.injEq] at hpa hpb
    rw [← hpb] at htb
    have hknown : st.valuesMap (env.schema sb).Table ≠ none := by
      rw [htb, hvb]
      simp
    obtain ⟨j', hj', hje⟩ := inv.deps_first i _ depa (List.getElem?_eq_getElem hil) hva sb
      (by rw [hdepa, ← hpa]; exact hedge) (Or.inr hknown)
    rw [htb, ← List.getElem?_eq_getElem hjl] at hje
    have := List.getElem?_inj (lt_trans hj' hil) inv.nodup hje
    omega
  · intro autoAdd fuel hfuel
    obtain ⟨k, rfl⟩ : ∃ k, fuel = k + 2 := ⟨fuel - 2, by omega⟩
    cases autoAdd <;> rfl

/-- C1, at the shop: the hypotheses hold for `Order` referencing `Customer`, and
the referenced `Customer` comes first. -/
theorem ReorderModels_referenced_first_witness :
    Acyclic shopEnv [0, 1] (fun s => 1 - s) true ∧
    (∀ v ∈ [orderValue, customerValue], ∃ s ∈ [0, 1], schemaOf shopEnv v = some s) ∧
    ∃ N, ∀ fuel, N ≤ fuel → ∃ out,
      ReorderModels shopEnv fuel [orderValue, customerValue] true = .ok out ∧
      ∀ (i j : Nat) (a b : Value) (sa sb : SchemaRef),
        out[i]? = some a → out[j]? = some b →
        schemaOf shopEnv a = some sa → schemaOf shopEnv b = some sb →
        sb ∈ dependsOf shopEnv sa → j < i :=
  have hw : Acyclic shopEnv [0, 1] (fun s => 1 - s) true :=
    ⟨by decide, by decide, by decide, by decide⟩
  have hv : ∀ v ∈ [orderValue, customerValue], ∃ s ∈ [0, 1], schemaOf shopEnv v = some s := by
    decide
  ⟨hw, hv, ReorderModels_referenced_first.1 shopEnv [0, 1] (fun s => 1 - s)
    [orderValue, customerValue] true hw hv⟩

/-- On the mutual pair no call of the closure ever returns: the name is marked
as placed only after the loop over its dependencies, so `authors` calls
`books`, which calls `authors` again, whatever the fuel. -/
theorem mutual_never_placed (autoAdd : Bool) :
    ∀ fuel,
      insertIntoOrderedList mutualEnv autoAdd fuel "authors" mutualState =
          .error .outOfFuel ∧
        insertIntoOrderedList mutualEnv autoAdd fuel "books" mutualState =
          .error .outOfFuel := by
  intro fuel
  induction fuel with
  | zero => exact ⟨rfl, rfl⟩
  | succ fuel ih =>
    have hma : mutualState.orderedModelNamesMap "authors" = none := rfl
    have hmb : mutualState.orderedModelNamesMap "books" = none := rfl
    have hva : mutualState.valuesMap "authors" = some ⟨authorValue, 0, [1]⟩ := rfl
    have hvb : mutualState.valuesMap "books" = some ⟨bookValue, 1, [0]⟩ := rfl
    have hta : (mutualEnv.schema 0).Table = "authors" := rfl
    have htb : (mutualEnv.schema 1).Table = "books" := rfl
    constructor
    · simp only [insertIntoOrderedList, hma, hva, insertDepends, htb, hvb, ih.2]
    · simp only [insertIntoOrderedList, hmb, hvb, insertDepends, hta, hva, ih.1]

/-- C2 (the code at the failing input): for `Author` and `Book` referencing
each other, `ReorderModels` returns with no amount of fuel, for either value of
`autoAdd`: the recursion never ends. -/
theorem ReorderModels_mutual_diverges (fuel : Nat) (autoAdd : Bool) :
    ReorderModels mutualEnv fuel [authorValue, bookValue] autoAdd = .error .outOfFuel := by
  have hp : parseAll mutualEnv [authorValue, bookValue] ReorderState.init =
      .ok mutualState := rfl
  have hn : mutualState.modelNames = ["authors", "books"] := rfl
  have h := (mutual_never_placed autoAdd fuel).1
  unfold ReorderModels
  rw [hp]
  dsimp only
  rw [hn]
  simp only [insertAll, h]

/-- C3: when the only cycles are self-references (every constraint of a schema
belongs to that schema and either references the schema itself or a schema of
smaller rank), also when a model is supplied more than once, `ReorderModels` returns and each table name
appears exactly once among the table names of its output: a self-referencing
constraint adds no dependency edge, and no table name is appended twice. -/
theorem ReorderModels_self_reference_once (env : Env) (U : List SchemaRef)
    (rank : SchemaRef → Nat) (values : List Value) (autoAdd : Bool)
    (hrefs : ∀ s ∈ U, ∀ rel ∈ (env.schema s).Relations, ∀ c,
      rel.ParseConstraint = some c →
      c.Schema = s ∧ c.ReferenceSchema ∈ U ∧
        (c.ReferenceSchema ≠ s → rank c.ReferenceSchema < rank s))
    (hfresh : autoAdd = true → ∀ s ∈ U,
      schemaOf env (reflectNew (env.schema s).ModelType) = some s)
    (hdistinct : ∀ s ∈ U, ∀ t ∈ U, (env.schema s).Table = (env.schema t).Table → s = t)
    (hvals : ∀ v ∈ values, ∃ s ∈ U, schemaOf env v = some s) :
    (∀ s ∈ U, s ∉ dependsOf env s) ∧
    ∃ N, ∀ fuel, N ≤ fuel → ∃ (out : List Value) (names : List String),
      ReorderModels env fuel values autoAdd = .ok out ∧
      out.map (tableOf env) = names.map some ∧ names.Nodup ∧
      ∀ v ∈ values, ∃ n, tableOf env v = some n ∧ names.count n = 1 := by
  have hedge : ∀ s ∈ U, ∀ d ∈ dependsOf env s, d ∈ U ∧ d ≠ s ∧ rank d < rank s := by
    intro s hs d hd
    obtain ⟨rel, hrel, c, hc, hne, hcd⟩ := mem_dependsOfRelations _ hd
    obtain ⟨h1, h2, h3⟩ := hrefs s hs rel hrel c hc
    have hds : d ≠ s := by
      rw [← hcd, ← h1]
      exact fun h => hne h.symm
    exact ⟨hcd ▸ h2, hds, hcd ▸ h3 (hcd ▸ hds)⟩
  have hw : Acyclic env U rank autoAdd :=
    ⟨fun s hs d hd => (hedge s hs d hd).1, hfresh, hdistinct,
      fun s hs d hd => (hedge s hs d hd).2.2⟩
  refine ⟨fun s hs h => (hedge s hs s h).2.1 rfl, ?_⟩
  obtain ⟨N, hrun⟩ := ReorderModels_run hw values hvals
  refine ⟨N, fun fuel hfuel => ?_⟩
  obtain ⟨st, out, inv, e, hlen, hidx, hmem⟩ := hrun fuel hfuel
  refine ⟨out, st.orderedModelNames, e, output_tables inv hlen hidx, inv.nodup, ?_⟩
  intro v hv
  obtain ⟨s, _, hs⟩ := hvals v hv
  exact ⟨(env.schema s).Table, by simp only [tableOf, hs, Option.map_some'],
    List.count_eq_one_of_mem inv.nodup (hmem v hv s hs)⟩

/-- C3, at the self-referencing `Employee` supplied twice: the hypotheses hold
and the table `employees` appears once. -/
theorem ReorderModels_self_reference_once_witness :
    (∀ s ∈ [0], s ∉ dependsOf staffEnv s) ∧
    ∃ N, ∀ fuel, N ≤ fuel → ∃ (out : List Value) (names : List String),
      ReorderModels staffEnv fuel [employeeValue, employeeValue] false = .ok out ∧
      out.map (tableOf staffEnv) = names.map some ∧ names.Nodup ∧
      ∀ v ∈ [employeeValue, employeeValue],
        ∃ n, tableOf staffEnv v = some n ∧ names.count n = 1 :=
  ReorderModels_self_reference_once staffEnv [0] (fun _ => 0)
    [employeeValue, employeeValue] false (by decide) (by decide) (by decide) (by decide)

/-! ## Claims on `Limit.MergeClause` -/

/-- The result of `MergeClause` on a clause that holds a `Limit`. -/
theorem MergeClause_of_limit (incoming v : Limit) (existing : Clause)
    (h : existing.Expression = some (.limit v)) :
    incoming.MergeClause existing =
      { existing with
        Name := ""
        Expression := some (.limit
          ⟨if incoming.Limit = 0 ∧ v.Limit > 0 then v.Limit else incoming.Limit,
           if incoming.Offset = 0 ∧ v.Offset > 0 then v.Offset else incoming.Offset⟩) } := by
  unfold Limit.MergeClause
  simp only [h]
  by_cases h1 : incoming.Limit = 0 ∧ v.Limit > 0 <;>
    by_cases h2 : incoming.Offset = 0 ∧ v.Offset > 0
  · rw [if_pos h1, if_pos h1, if_pos h2, if_pos h2]
  · rw [if_pos h1, if_pos h1, if_neg h2, if_neg h2]
  · rw [if_neg h1, if_neg h1, if_pos h2, if_pos h2]
  · rw [if_neg h1, if_neg h1, if_neg h2, if_neg h2]

/-- The result of `MergeClause` on a clause that holds no `Limit`. -/
theorem MergeClause_of_other (incoming : Limit) (existing : Clause)
    (h : ∀ v, existing.Expression ≠ some (.limit v)) :
    incoming.MergeClause existing =
      { existing with Name := "", Expression := some (.limit incoming) } := by
  unfold Limit.MergeClause
  cases he : existing.Expression with
  | none => rfl
  | some e =>
    cases e with
    | limit v => exact absurd he (h v)
    | expr sql => rfl
    | other tag => rfl

/-- C4: after `incoming.MergeClause(existing)` the expression of the clause is a
`Limit` in which each field that was non-zero in the incoming value equals the
incoming value, whatever the existing clause held. On a fresh `LIMIT` clause,
merging `{Limit:10, Offset:0}` and then `{Limit:0, Offset:5}` gives
`{Limit:10, Offset:5}`; merging `{Limit:10}` and then `{Limit:20}` gives
`{Limit:20}`. -/
theorem MergeClause_nonzero_wins :
    (∀ (incoming : Limit) (existing : Clause),
      ∃ res : Limit, (incoming.MergeClause existing).Expression = some (.limit res) ∧
        (incoming.Limit ≠ 0 → res.Limit = incoming.Limit) ∧
        (incoming.Offset ≠ 0 → res.Offset = incoming.Offset)) ∧
    ((⟨0, 5⟩ : Limit).MergeClause
        ((⟨10, 0⟩ : Limit).MergeClause (plainClause "LIMIT" none))).Expression =
      some (.limit ⟨10, 5⟩) ∧
    ((⟨20, 0⟩ : Limit).MergeClause
        ((⟨10, 0⟩ : Limit).MergeClause (plainClause "LIMIT" none))).Expression =
      some (.limit ⟨20, 0⟩) := by
  refine ⟨?_, ?_, ?_⟩
  · intro incoming existing
    by_cases h : ∃ v, existing.Expression = some (.limit v)
    · obtain ⟨v, hv⟩ := h
      rw [MergeClause_of_limit incoming v existing hv]
      refine ⟨_, rfl, ?_, ?_⟩
      · intro h0
        simp only [h0, false_and, if_false]
      · intro h0
        simp only [h0, false_and, if_false]
    · rw [MergeClause_of_other incoming existing (fun v hv => h ⟨v, hv⟩)]
      exact ⟨incoming, rfl, fun _ => rfl, fun _ => rfl⟩
  · rw [MergeClause_of_limit ⟨0, 5⟩ ⟨10, 0⟩ _ rfl]
    simp
  · rw [MergeClause_of_limit ⟨20, 0⟩ ⟨10, 0⟩ _ rfl]
    simp

/-- C5 fails as stated: the incoming `Limit` field is zero and the existing
clause holds `Limit{Limit: -1}`, yet the merged `Limit` field is not `-1`. -/
theorem MergeClause_zero_field_not_filled :
    ¬ ∀ res : Limit,
      ((⟨0, 5⟩ : Limit).MergeClause cancelClause).Expression = some (.limit res) →
        res.Limit = -1 := by
  intro h
  have hres : ((⟨0, 5⟩ : Limit).MergeClause cancelClause).Expression =
      some (.limit ⟨0, 5⟩) := by
    rw [MergeClause_of_limit ⟨0, 5⟩ ⟨-1, 0⟩ cancelClause rfl]
    simp
  have := h ⟨0, 5⟩ hres
  simp at this

/-- C5, amended: when the existing clause holds a `Limit`, each field that is
zero in the incoming value takes the existing field value when that value is
greater than zero and stays zero otherwise; when the existing clause holds no
`Limit`, the resulting expression is the incoming value unchanged. -/
theorem MergeClause_fills_zero_fields (incoming : Limit) (existing : Clause) :
    (∀ v : Limit, existing.Expression = some (.limit v) →
      ∃ res : Limit, (incoming.MergeClause existing).Expression = some (.limit res) ∧
        (incoming.Limit = 0 → 0 < v.Limit → res.Limit = v.Limit) ∧
        (incoming.Limit = 0 → v.Limit ≤ 0 → res.Limit = 0) ∧
        (incoming.Offset = 0 → 0 < v.Offset → res.Offset = v.Offset) ∧
        (incoming.Offset = 0 → v.Offset ≤ 0 → res.Offset = 0)) ∧
    ((∀ v : Limit, existing.Expression ≠ some (.limit v)) →
      (incoming.MergeClause existing).Expression = some (.limit incoming)) := by
  constructor
  · intro v hv
    rw [MergeClause_of_limit incoming v existing hv]
    refine ⟨_, rfl, ?_, ?_, ?_, ?_⟩
    · intro h0 hpos
      simp only [h0, hpos, gt_iff_lt, and_self, if_true]
    · intro h0 hle
      have : ¬ (v.Limit > 0) := not_lt.mpr hle
      simp only [h0, this, and_false, if_false]
    · intro h0 hpos
      simp only [h0, hpos, gt_iff_lt, and_self, if_true]
    · intro h0 hle
      have : ¬ (v.Offset > 0) := not_lt.mpr hle
      simp only [h0, this, and_false, if_false]
  · intro h
    rw [MergeClause_of_other incoming existing h]

/-- C6: `Limit.MergeClause` leaves the clause with an empty `Name` and a `Limit`
as its `Expression`, and changes no other field: `Priority`,
`BeforeExpressions`, `AfterNameExpressions`, `AfterExpressions` and `Builder`
are as before. -/
theorem MergeClause_frame (limit : Limit) (clause : Clause) :
    (limit.MergeClause clause).Name = "" ∧
    (∃ res : Limit, (limit.MergeClause clause).Expression = some (.limit res)) ∧
    (limit.MergeClause clause).Priority = clause.Priority ∧
    (limit.MergeClause clause).BeforeExpressions = clause.BeforeExpressions ∧
    (limit.MergeClause clause).AfterNameExpressions = clause.AfterNameExpressions ∧
    (limit.MergeClause clause).AfterExpressions = clause.AfterExpressions ∧
    (limit.MergeClause clause).Builder = clause.Builder :=
  ⟨rfl, ⟨_, rfl⟩, rfl, rfl, rfl, rfl, rfl⟩

/-- C5, amended, at a clause that holds `Limit{10, 3}`: an incoming zero value
takes both fields. -/
theorem MergeClause_fills_zero_fields_witness :
    ∃ res : Limit, ((⟨0, 0⟩ : Limit).MergeClause pageClause).Expression =
        some (.limit res) ∧
      ((0 : Int) = 0 → (0 : Int) < 10 → res.Limit = 10) ∧
      ((0 : Int) = 0 → (10 : Int) ≤ 0 → res.Limit = 0) ∧
      ((0 : Int) = 0 → (0 : Int) < 3 → res.Offset = 3) ∧
      ((0 : Int) = 0 → (3 : Int) ≤ 0 → res.Offset = 0) :=
  (MergeClause_fills_zero_fields ⟨0, 0⟩ pageClause).1 ⟨10, 3⟩ rfl

/-! ## Claims on the probes and the column and index operations -/

/-- A probe is true exactly when the value parses and the scan gives a count
above zero. -/
theorem probeCount_pos (env : Env) (log : List SQLCall) (value : Value)
    (query : Stmt → SQLCall) :
    decide (probeCount env log value query > 0) = true ↔
      ∃ stmt count, env.Parse value = .ok stmt ∧
        env.ScanCount log (query stmt) = .ok count ∧ 0 < count := by
  unfold probeCount
  cases hp : env.Parse value with
  | error e => simp
  | ok stmt =>
    cases hs : env.ScanCount log (query stmt) with
    | error e => simp [hs]
    | ok count => simp [hs]

/-- C8: each existence probe returns true if and only if the value parsed and
its count query produced a count greater than zero; when the value fails to
parse, or the scan fails, the probe returns false. The probes return a `Bool`:
no error comes out of them. -/
theorem probes_true_iff_count_pos (env : Env) (log : List SQLCall) (value : Value)
    (name : String) :
    (HasTable env log value = true ↔
      ∃ stmt count, env.Parse value = .ok stmt ∧
        env.ScanCount log (HasTableQuery env log stmt) = .ok count ∧ 0 < count) ∧
    (HasColumn env log value name = true ↔
      ∃ stmt count, env.Parse value = .ok stmt ∧
        env.ScanCount log (HasColumnQuery env log name stmt) = .ok count ∧ 0 < count) ∧
    (HasConstraint env log value name = true ↔
      ∃ stmt count, env.Parse value = .ok stmt ∧
        env.ScanCount log (HasConstraintQuery env log name stmt) = .ok count ∧ 0 < count) ∧
    (HasIndex env log value name = true ↔
      ∃ stmt count, env.Parse value = .ok stmt ∧
        env.ScanCount log (HasIndexQuery env log name stmt) = .ok count ∧ 0 < count) ∧
    (∀ e, env.Parse value = .error e →
      HasTable env log value = false ∧ HasColumn env log value name = false ∧
      HasConstraint env log value name = false ∧ HasIndex env log value name = false) ∧
    (∀ stmt, env.Parse value = .ok stmt →
      ((∃ e, env.ScanCount log (HasTableQuery env log stmt) = .error e) →
        HasTable env log value = false) ∧
      ((∃ e, env.ScanCount log (HasColumnQuery env log name stmt) = .error e) →
        HasColumn env log value name = false) ∧
      ((∃ e, env.ScanCount log (HasConstraintQuery env log name stmt) = .error e) →
        HasConstraint env log value name = false) ∧
      ((∃ e, env.ScanCount log (HasIndexQuery env log name stmt) = .error e) →
        HasIndex env log value name = false)) := by
  refine ⟨probeCount_pos env log value _, probeCount_pos env log value _,
    probeCount_pos env log value _, probeCount_pos env log value _, ?_, ?_⟩
  · intro e he
    simp [HasTable, HasColumn, HasConstraint, HasIndex, probeCount, he]
  · intro stmt hs
    refine ⟨?_, ?_, ?_, ?_⟩ <;>
    · rintro ⟨e, he⟩
      simp [HasTable, HasColumn, HasConstraint, HasIndex, probeCount, hs, he]

/-- C9: on a value that parses, `AddColumn`, `DropColumn`, `AlterColumn` and
`RenameColumn` return the error `failed to look up field` and execute nothing
when the field name does not resolve; when it resolves to a field, each
executes exactly one `ALTER TABLE` statement whose column argument is the
`DBName` of the field, and returns the error of that statement. -/
theorem column_operations (env : Env) (log : List SQLCall) (value : Value)
    (oldName field : String) (stmt : Stmt) (hparse : env.Parse value = .ok stmt) :
    ((env.schema stmt.Schema).LookUpField field = none →
      AddColumn env log value field = (log, some (lookUpError field)) ∧
      DropColumn env log value field = (log, some (lookUpError field)) ∧
      AlterColumn env log value field = (log, some (lookUpError field)) ∧
      RenameColumn env log value oldName field = (log, some (lookUpError field))) ∧
    (∀ f, (env.schema stmt.Schema).LookUpField field = some f →
      AddColumn env log value field =
        (log ++ [⟨"ALTER TABLE ? ADD ? ?",
            [.Table stmt.Table, .Column f.DBName, .Expr (DataTypeOf env f)]⟩],
          env.Exec log ⟨"ALTER TABLE ? ADD ? ?",
            [.Table stmt.Table, .Column f.DBName, .Expr (DataTypeOf env f)]⟩) ∧
      DropColumn env log value field =
        (log ++ [⟨"ALTER TABLE ? DROP COLUMN ?", [.Table stmt.Table, .Column f.DBName]⟩],
          env.Exec log
            ⟨"ALTER TABLE ? DROP COLUMN ?", [.Table stmt.Table, .Column f.DBName]⟩) ∧
      AlterColumn env log value field =
        (log ++ [⟨"ALTER TABLE ? ALTER COLUMN ? TYPE ?",
            [.Table stmt.Table, .Column f.DBName, .Expr (DataTypeOf env f)]⟩],
          env.Exec log ⟨"ALTER TABLE ? ALTER COLUMN ? TYPE ?",
            [.Table stmt.Table, .Column f.DBName, .Expr (DataTypeOf env f)]⟩) ∧
      RenameColumn env log value oldName field =
        (log ++ [⟨"ALTER TABLE ? RENAME COLUMN ? TO ?",
            [.Table stmt.Table, .Column (env.ColumnName stmt.Table oldName),
              .Column f.DBName]⟩],
          env.Exec log ⟨"ALTER TABLE ? RENAME COLUMN ? TO ?",
            [.Table stmt.Table, .Column (env.ColumnName stmt.Table oldName),
              .Column f.DBName]⟩)) := by
  constructor
  · intro hnone
    simp only [AddColumn, DropColumn, AlterColumn, RenameColumn, RunWithValue, hparse,
      hnone, and_self]
  · intro f hf
    simp only [AddColumn, DropColumn, AlterColumn, RenameColumn, RunWithValue, hparse,
      hf, Exec, and_self]

/-- C9, at `Item`: the name `Name` resolves to the column `name`, the name
`Price` does not resolve. -/
theorem column_operations_witness :
    itemEnv.Parse itemValue = .ok ⟨0, "items"⟩ ∧
    AddColumn itemEnv [] itemValue "Name" =
      ([⟨"ALTER TABLE ? ADD ? ?", [.Table "items", .Column "name", .Expr "varchar"]⟩],
        none) ∧
    AddColumn itemEnv [] itemValue "Price" =
      ([], some "failed to look up field with name: Price") :=
  ⟨rfl,
    ((column_operations itemEnv [] itemValue "title" "Name" ⟨0, "items"⟩ rfl).2
      itemName rfl).1.trans rfl,
    ((column_operations itemEnv [] itemValue "title" "Price" ⟨0, "items"⟩ rfl).1
      rfl).1.trans rfl⟩

/-- C10 fails as stated: `Item` has no index and no constraint, yet `DropIndex`,
`RenameIndex` and `DropConstraint` on the unknown name `idx_missing` each
execute a statement and return no error. -/
theorem DropIndex_unknown_name_executes :
    (itemEnv.schema 0).ParseIndexes = [] ∧
    (itemEnv.schema 0).ParseCheckConstraints = [] ∧
    (itemEnv.schema 0).Relations = [] ∧
    DropIndex itemEnv [] itemValue "idx_missing" =
      ([⟨"DROP INDEX ? ON ?", [.Column "idx_missing", .Table "items"]⟩], none) ∧
    RenameIndex itemEnv [] itemValue "idx_missing" "idx_new" =
      ([⟨"ALTER TABLE ? RENAME INDEX ? TO ?",
        [.Table "items", .Column "idx_missing", .Column "idx_new"]⟩], none) ∧
    DropConstraint itemEnv [] itemValue "idx_missing" =
      ([⟨"ALTER TABLE ? DROP CONSTRAINT ?", [.Table "items", .Column "idx_missing"]⟩],
        none) :=
  ⟨rfl, rfl, rfl, rfl, rfl, rfl⟩

/-- C10, amended: `DropIndex`, `RenameIndex` and `DropConstraint` do not look
the name up. On a value that parses each executes exactly one statement with
the supplied name as its column argument and returns the error of that
statement; on a value that does not parse each returns the parse error and
executes nothing. -/
theorem index_operations_pass_name (env : Env) (log : List SQLCall) (value : Value)
    (name newName : String) :
    (∀ stmt, env.Parse value = .ok stmt →
      DropIndex env log value name =
        (log ++ [⟨"DROP INDEX ? ON ?", [.Column name, .Table stmt.Table]⟩],
          env.Exec log ⟨"DROP INDEX ? ON ?", [.Column name, .Table stmt.Table]⟩) ∧
      RenameIndex env log value name newName =
        (log ++ [⟨"ALTER TABLE ? RENAME INDEX ? TO ?",
            [.Table stmt.Table, .Column name, .Column newName]⟩],
          env.Exec log ⟨"ALTER TABLE ? RENAME INDEX ? TO ?",
            [.Table stmt.Table, .Column name, .Column newName]⟩) ∧
      DropConstraint env log value name =
        (log ++ [⟨"ALTER TABLE ? DROP CONSTRAINT ?", [.Table stmt.Table, .Column name]⟩],
          env.Exec log
            ⟨"ALTER TABLE ? DROP CONSTRAINT ?", [.Table stmt.Table, .Column name]⟩)) ∧
    (∀ e, env.Parse value = .error e →
      DropIndex env log value name = (log, some e) ∧
      RenameIndex env log value name newName = (log, some e) ∧
      DropConstraint env log value name = (log, some e)) := by
  constructor
  · intro stmt hs
    simp only [DropIndex, RenameIndex, DropConstraint, RunWithValue, hs, Exec, and_self]
  · intro e he
    simp only [DropIndex, RenameIndex, DropConstraint, RunWithValue, he, and_self]

/-- C10, amended, at `Item`: the unknown index name is passed on as it is. -/
theorem index_operations_pass_name_witness :
    itemEnv.Parse itemValue = .ok ⟨0, "items"⟩ ∧
    DropIndex itemEnv [] itemValue "idx_missing" =
      ([] ++ [⟨"DROP INDEX ? ON ?", [.Column "idx_missing", .Table "items"]⟩],
        itemEnv.Exec [] ⟨"DROP INDEX ? ON ?", [.Column "idx_missing", .Table "items"]⟩) :=
  ⟨rfl, ((index_operations_pass_name itemEnv [] itemValue "idx_missing" "idx_new").1
    ⟨0, "items"⟩ rfl).1⟩

/-! ## `CreateTable`: the template and its values -/

theorem TrimSuffix_comma (s : String) : TrimSuffix (s ++ ",") "," = s := by
  unfold TrimSuffix
  have h : (",".data).isSuffixOf (s ++ ",").data = true := by
    rw [List.isSuffixOf_iff_suffix]
    exact ⟨s.data, rfl⟩
  rw [if_pos h]
  apply String.ext
  show List.take ((s.data ++ [',']).length - 1) (s.data ++ [',']) = s.data
  simp

/-- The column loop, when every name has its field: one segment and the values
of each field, in order. -/
theorem addColumns_eq (env : Env) (lib : Library) (sch : Schema) :
    ∀ (names : List String) (t : TableSQL),
      (∀ n ∈ names, ∃ f, sch.FieldsByDBName.lookup n = some f) →
      addColumns env lib sch names t = .ok
        ⟨t.createTableSQL ++ joinAll ((fieldsOf sch names).map fun p => columnSegment p.2),
          t.values ++ (fieldsOf sch names).flatMap (fun p => columnValues env p.1 p.2),
          t.hasPrimaryKeyInDataType ||
            (fieldsOf sch names).any fun p =>
              Contains (lib.ToUpper p.2.DBDataType) "PRIMARY KEY"⟩ := by
  intro names
  induction names with
  | nil =>
    intro t _
    simp [addColumns, fieldsOf, joinAll]
  | cons n rest ih =>
    intro t h
    obtain ⟨f, hf⟩ := h n (List.mem_cons_self n rest)
    have hrest : ∀ m ∈ rest, ∃ f, sch.FieldsByDBName.lookup m = some f :=
      fun m hm => h m (List.mem_cons_of_mem n hm)
    simp only [addColumns, fieldsOf, hf]
    rw [ih _ hrest]
    simp only [List.map_cons, List.flatMap_cons, List.any_cons, joinAll, columnSegment,
      columnValues, Bool.or_assoc, List.append_assoc]
    cases f.AutoIncrement <;> cases f.NotNull <;> cases f.Unique <;>
      by_cases hd : f.DefaultValue = "" <;>
      simp [hd, String.append_assoc]

/-- C11 (the code at the failing input): the dialect gives the key column of
`Item` the data type `integer PRIMARY KEY AUTOINCREMENT`, a data type string
that declares a primary key, and the template of `CreateTable` still has the
`PRIMARY KEY ?` segment: the loop reads `field.DBDataType`, which is empty, and
not the data type it binds. -/
theorem CreateTable_primary_key_twice :
    DataTypeOf keyedItemEnv itemID = "integer PRIMARY KEY AUTOINCREMENT" ∧
    Contains (plainLibrary.ToUpper (DataTypeOf keyedItemEnv itemID)) "PRIMARY KEY" = true ∧
    CreateTable keyedItemEnv plainConfig plainLibrary 1 [] [itemValue] =
      .ok ([⟨"CREATE TABLE ? (? ?,? ?,PRIMARY KEY ?)",
        [.Table "items", .Column "id", .Expr "integer PRIMARY KEY AUTOINCREMENT",
          .Column "name", .Expr "text", .List [.Column "id"]]⟩], none) :=
  ⟨rfl, by decide, rfl⟩

/-- A single value whose schema has no relationship is returned as it is. -/
theorem ReorderModels_single (env : Env) (fuel : Nat) (value : Value) (stmt : Stmt)
    (autoAdd : Bool) (hp : env.Parse value = .ok stmt)
    (hrel : (env.schema stmt.Schema).Relations = []) :
    ReorderModels env (fuel + 1) [value] autoAdd = .ok [value] := by
  simp [ReorderModels, parseAll, parseDependence, hp, dependsOf, hrel, dependsOfRelations,
    ReorderState.init, insertAll, insertIntoOrderedList, insertDepends, collectDest]

/-- The loop of `CreateTable` over one value. -/
theorem createTables_single (one : List SQLCall → Value → Outcome) (log log1 : List SQLCall)
    (value : Value) (err : Option Error) (h : one log value = .ok (log1, err)) :
    createTables one [value] log = .ok (log1, err) := by
  cases err with
  | none => simp only [createTables, h]
  | some e => simp only [createTables, h]

/-- On a value that parses, `AddColumn` of a name that resolves executes the
`ADD COLUMN` of the field. -/
theorem AddColumn_resolved (env : Env) (log : List SQLCall) (value : Value) (stmt : Stmt)
    (name : String) (f : Field) (hparse : env.Parse value = .ok stmt)
    (hf : (env.schema stmt.Schema).LookUpField name = some f) :
    AddColumn env log value name =
      (log ++ [addColumnCall env stmt f], env.Exec log (addColumnCall env stmt f)) := by
  simp only [AddColumn, RunWithValue, hparse, hf, Exec, addColumnCall]

/-- C14 (the code at the failing input): the table of `Product` exists, the
model declares the check constraint `chk_price`, whose probe is false, and has
no relationship; `AutoMigrate` executes nothing. The loop over the check
constraints stands inside the loop over the relationships. -/
theorem AutoMigrate_skips_check_constraint (fuel : Nat) :
    HasTable productEnv [] productValue = true ∧
    (productEnv.schema 0).ParseCheckConstraints = [⟨"chk_price", "price > 0"⟩] ∧
    HasConstraint productEnv [] productValue "chk_price" = false ∧
    (productEnv.schema 0).Relations = [] ∧
    AutoMigrate productEnv plainConfig plainLibrary (fuel + 1) [] [productValue] =
      .ok ([], none) := by
  refine ⟨rfl, rfl, rfl, rfl, ?_⟩
  unfold AutoMigrate
  rw [ReorderModels_single productEnv fuel productValue ⟨0, "products"⟩ true rfl rfl]
  rfl

/-- The recursion on the mutual pair never ends in any environment with the
heap and the parser of the pair. -/
theorem mutual_diverges_of (env : Env) (hs : env.schema = mutualHeap)
    (hp : env.Parse = mutualParse) (fuel : Nat) (autoAdd : Bool) :
    ReorderModels env fuel [authorValue, bookValue] autoAdd = .error .outOfFuel := by
  obtain ⟨schema, parse, a, b, c, d, e⟩ := env
  simp only at hs hp
  subst hs hp
  have hparse : ∃ st : ReorderState,
      parseAll ⟨mutualHeap, mutualParse, a, b, c, d, e⟩ [authorValue, bookValue]
        ReorderState.init = .ok st ∧
      st.modelNames = ["authors", "books"] ∧
      st.orderedModelNamesMap "authors" = none ∧ st.orderedModelNamesMap "books" = none ∧
      st.valuesMap "authors" = some ⟨authorValue, 0, [1]⟩ ∧
      st.valuesMap "books" = some ⟨bookValue, 1, [0]⟩ :=
    ⟨_, rfl, rfl, rfl, rfl, rfl, rfl⟩
  obtain ⟨st, hst, hn, hma, hmb, hva, hvb⟩ := hparse
  have hta : (mutualHeap 0).Table = "authors" := rfl
  have htb : (mutualHeap 1).Table = "books" := rfl
  have never : ∀ k,
      insertIntoOrderedList ⟨mutualHeap, mutualParse, a, b, c, d, e⟩ autoAdd k "authors" st =
          .error .outOfFuel ∧
        insertIntoOrderedList ⟨mutualHeap, mutualParse, a, b, c, d, e⟩ autoAdd k "books" st =
          .error .outOfFuel := by
    intro k
    induction k with
    | zero => exact ⟨rfl, rfl⟩
    | succ k ih =>
      constructor
      · simp only [insertIntoOrderedList, hma, hva, insertDepends, htb, hvb, ih.2]
      · simp only [insertIntoOrderedList, hmb, hvb, insertDepends, hta, hva, ih.1]
  unfold ReorderModels
  rw [hst]
  dsimp only
  rw [hn]
  simp only [insertAll, (never fuel).1]

/-- C15 (the code at the failing input): every existence probe is true for
`Author` and `Book`, which reference each other, and `AutoMigrate` returns
with no amount of fuel: the recursion of `ReorderModels` never ends. -/
theorem AutoMigrate_mutual_diverges (fuel : Nat) :
    (∀ (log : List SQLCall) (v : Value) (name : String),
      HasTable settledMutualEnv log v = true ∧
      HasColumn settledMutualEnv log v name = true ∧
      HasConstraint settledMutualEnv log v name = true) ∧
    AutoMigrate settledMutualEnv plainConfig plainLibrary fuel [] [authorValue, bookValue] =
      .error .outOfFuel := by
  constructor
  · intro log v name
    have hp : ∀ v : Value, ∃ stmt, settledMutualEnv.Parse v = .ok stmt := by
      intro v
      show ∃ stmt, mutualParse v = .ok stmt
      unfold mutualParse
      split <;> exact ⟨_, rfl⟩
    obtain ⟨stmt, hs⟩ := hp v
    have hc : ∀ l q, settledMutualEnv.ScanCount l q = .ok 1 := fun _ _ => rfl
    simp [HasTable, HasColumn, HasConstraint, probeCount, hs, hc]
  · unfold AutoMigrate
    rw [mutual_diverges_of settledMutualEnv rfl rfl fuel true]

/-- C16 (the code at the failing input): with `CreateIndexAfterCreateTable` set
and a driver that fails `CREATE INDEX`, the batch `CreateTable(Note, Tag)` goes
on after the failed index creation: it executes both `CREATE TABLE` statements
and returns no error. The result of `CreateIndex` is dropped. -/
theorem CreateTable_ignores_index_failure (fuel : Nat) :
    brokenIndexEnv.Exec []
      ⟨"CREATE INDEX ? ON ??",
        [.Column "idx_notes_title", .Table "notes", .List [.Expr "\"title\""]]⟩ =
      some "index creation failed" ∧
    CreateTable brokenIndexEnv indexAfterConfig plainLibrary (fuel + 1) []
        [noteValue, tagValue] =
      .ok ([⟨"CREATE INDEX ? ON ??",
          [.Column "idx_notes_title", .Table "notes", .List [.Expr "\"title\""]]⟩,
        ⟨"CREATE TABLE ? (? ?,PRIMARY KEY ?)",
          [.Table "notes", .Column "title", .Expr "text", .List []]⟩,
        ⟨"CREATE TABLE ? (? ?,PRIMARY KEY ?)",
          [.Table "tags", .Column "label", .Expr "text", .List []]⟩], none) := by
  refine ⟨rfl, ?_⟩
  rfl

/-- C19 (the code at the failing input): with `CreateIndexAfterCreateTable` set,
`CreateTable(Note)` executes the `CREATE INDEX` of the declared index first and
the `CREATE TABLE` after it; with the flag off the index is an inline
`INDEX ? ?` segment and no `CREATE INDEX` is executed. -/
theorem CreateTable_index_before_table (fuel : Nat) :
    CreateTable noteEnv indexAfterConfig plainLibrary (fuel + 1) [] [noteValue] =
      .ok ([⟨"CREATE INDEX ? ON ??",
          [.Column "idx_notes_title", .Table "notes", .List [.Expr "\"title\""]]⟩,
        ⟨"CREATE TABLE ? (? ?,PRIMARY KEY ?)",
          [.Table "notes", .Column "title", .Expr "text", .List []]⟩], none) ∧
    CreateTable noteEnv plainConfig plainLibrary (fuel + 1) [] [noteValue] =
      .ok ([⟨"CREATE TABLE ? (? ?,PRIMARY KEY ?,INDEX ? ?)",
          [.Table "notes", .Column "title", .Expr "text", .List [],
            .Expr "idx_notes_title", .List [.Expr "\"title\""]]⟩], none) := by
  constructor <;> rfl

/-- A true `HasTable` probe means the value parsed. -/
theorem HasTable_parses {env : Env} {log : List SQLCall} {value : Value}
    (h : HasTable env log value = true) : ∃ stmt, env.Parse value = .ok stmt := by
  cases hp : env.Parse value with
  | ok stmt => exact ⟨stmt, rfl⟩
  | error e => simp [HasTable, probeCount, hp] at h

/-- The column loop executes nothing when every column is present. -/
theorem migrateColumns_present (env : Env) (value : Value) :
    ∀ (fields : List Field) (log : List SQLCall),
      (∀ g ∈ fields, HasColumn env log value g.DBName = true) →
      migrateColumns env value fields log = (log, none) := by
  intro fields
  induction fields with
  | nil => intro log _; rfl
  | cons g rest ih =>
    intro log h
    simp only [migrateColumns, h g (List.mem_cons_self g rest), Bool.not_true,
      Bool.false_eq_true, if_false]
    exact ih log fun g' hg' => h g' (List.mem_cons_of_mem g hg')

/-- The check loop executes nothing when every check constraint is present. -/
theorem migrateChecks_present (env : Env) (lib : Library) (fuel : Nat) (value : Value)
    (log : List SQLCall) (hK : ∀ n, HasConstraint env log value n = true) :
    ∀ checks : List Check, migrateChecks env lib fuel value checks log = .ok (log, none) := by
  intro checks
  induction checks with
  | nil => rfl
  | cons chk rest ih =>
    simp only [migrateChecks, hK chk.Name, Bool.not_true, Bool.false_eq_true, if_false]
    exact ih

/-- The relationship loop executes and defers nothing when every constraint and
every join table is present. -/
theorem migrateRelations_present (env : Env) (lib : Library) (fuel : Nat) (value : Value)
    (checks : List Check) (log : List SQLCall)
    (hT : ∀ v, HasTable env log v = true)
    (hK : ∀ n, HasConstraint env log value n = true) :
    ∀ (rels : List Relationship) (deferred : List Value),
      migrateRelations env lib fuel value checks rels log deferred =
        .ok (log, none, deferred) := by
  intro rels
  induction rels with
  | nil => intro deferred; rfl
  | cons rel rest ih =>
    intro deferred
    have hc : migrateConstraint env lib fuel value rel log = .ok (log, none) := by
      unfold migrateConstraint
      cases rel.ParseConstraint with
      | none => rfl
      | some c => simp only [hK c.Name, Bool.not_true, Bool.false_eq_true, if_false]
    simp only [migrateRelations, hc, migrateChecks_present env lib fuel value log hK checks]
    cases rel.JoinTable with
    | none => exact ih deferred
    | some jt =>
      simp only [hT, Bool.not_true, Bool.false_eq_true, if_false]
      exact ih deferred

/-- The loop of `AutoMigrate` executes nothing when every probe is true. -/
theorem autoMigrate_settled (env : Env) (cfg : Config) (lib : Library) (fuel : Nat)
    (log : List SQLCall)
    (hT : ∀ l v, HasTable env l v = true)
    (hC : ∀ l v n, HasColumn env l v n = true)
    (hK : ∀ l v n, HasConstraint env l v n = true) :
    ∀ ordered : List Value,
      createTables (autoMigrateOne env cfg lib fuel) ordered log = .ok (log, none) := by
  intro ordered
  induction ordered with
  | nil => rfl
  | cons v rest ih =>
    obtain ⟨stmt, hp⟩ := HasTable_parses (hT log v)
    have hone : autoMigrateOne env cfg lib fuel log v = .ok (log, none) := by
      simp only [autoMigrateOne, hT log v, Bool.not_true, Bool.false_eq_true, if_false,
        migrateValue, hp,
        migrateColumns_present env v _ log (fun g _ => hC log v g.DBName),
        migrateRelations_present env lib fuel v _ log (hT log) (hK log v),
        List.reverse_nil, runDeferred]
    simp only [createTables, hone]
    exact ih

/-- For an acyclic set of models in a catalog where every existence probe is
true, `AutoMigrate` returns no error and executes nothing. -/
theorem AutoMigrate_settled_acyclic {env : Env} {U : List SchemaRef}
    {rank : SchemaRef → Nat} (cfg : Config) (lib : Library)
    (hw : Acyclic env U rank true) (values : List Value)
    (hvals : ∀ v ∈ values, ∃ s ∈ U, schemaOf env v = some s) (log : List SQLCall)
    (hT : ∀ l v, HasTable env l v = true)
    (hC : ∀ l v n, HasColumn env l v n = true)
    (hK : ∀ l v n, HasConstraint env l v n = true) :
    ∃ N, ∀ fuel, N ≤ fuel → AutoMigrate env cfg lib fuel log values = .ok (log, none) := by
  obtain ⟨N, hrun⟩ := ReorderModels_run hw values hvals
  refine ⟨N, fun fuel hfuel => ?_⟩
  obtain ⟨_, out, _, e, _⟩ := hrun fuel hfuel
  unfold AutoMigrate
  rw [e]
  exact autoMigrate_settled env cfg lib fuel log hT hC hK out

/-! ## Claims on `DropTable` and on the output of `ReorderModels` -/

/-- In the output of a run every referenced model stands before the model that
references it. -/
theorem run_referenced_first {env : Env} {U : List SchemaRef} {autoAdd : Bool}
    {st : ReorderState} {out : List Value} (inv : ReorderInv env U autoAdd st)
    (hlen : out.length = st.orderedModelNames.length)
    (hidx : ∀ (i : Nat) n, st.orderedModelNames[i]? = some n →
      ∃ dep, st.valuesMap n = some dep ∧ out[i]? = some dep.Dest) :
    ∀ (i j : Nat) (a b : Value), out[i]? = some a → out[j]? = some b →
      References env a b → j < i := by
  intro i j a b hi hj href
  obtain ⟨sa, sb, hsa, hsb, hedge⟩ := href
  have bound : ∀ (k : Nat) (x : Value), out[k]? = some x →
      k < st.orderedModelNames.length := by
    intro k x hk
    by_contra hc
    rw [List.getElem?_eq_none (hlen ▸ Nat.le_of_not_lt hc)] at hk
    simp at hk
  have hil := bound i a hi
  have hjl := bound j b hj
  obtain ⟨depa, hva, hoa⟩ := hidx i _ (List.getElem?_eq_getElem hil)
  obtain ⟨depb, hvb, hob⟩ := hidx j _ (List.getElem?_eq_getElem hjl)
  rw [hi] at hoa
  rw [hj] at hob
  simp only [Option.some.injEq] at hoa hob
  obtain ⟨_, _, hdepa, hpa⟩ := inv.wf _ depa hva
  obtain ⟨_, htb, _, hpb⟩ := inv.wf _ depb hvb
  rw [← hoa, hsa] at hpa
  rw [← hob, hsb] at hpb
  simp only [Option.some.injEq] at hpa hpb
  rw [← hpb] at htb
  have hknown : st.valuesMap (env.schema sb).Table ≠ none := by
    rw [htb, hvb]
    simp
  obtain ⟨j', hj', hje⟩ := inv.deps_first i _ depa (List.getElem?_eq_getElem hil) hva sb
    (by rw [hdepa, ← hpa]; exact hedge) (Or.inr hknown)
  rw [htb, ← List.getElem?_eq_getElem hjl] at hje
  have := List.getElem?_inj (lt_trans hj' hil) inv.nodup hje
  omega

/-- The dropped models are among the models walked, in the same order. -/
theorem droppedOf_sublist (env : Env) :
    ∀ (values : List Value) (log : List SQLCall), (droppedOf env values log).Sublist values := by
  intro values
  induction values with
  | nil => intro log; exact List.Sublist.slnil
  | cons v rest ih =>
    intro log
    unfold droppedOf
    split
    · exact (ih _).cons₂ v
    · exact (ih _).cons v

/-- While every statement succeeds the loop of `DropTable` executes the drop of
each model whose probe is true, in the order walked. -/
theorem dropTables_eq (env : Env) (hexec : ∀ l c, env.Exec l c = none) :
    ∀ (values : List Value) (log : List SQLCall),
      dropTables env values log =
        (log ++ (droppedOf env values log).map (dropTableCall env), none) := by
  intro values
  induction values with
  | nil => intro log; simp [dropTables, droppedOf]
  | cons v rest ih =>
    intro log
    cases hprobe : HasTable env log v with
    | false =>
      simp only [dropTables, droppedOf, hprobe, Bool.false_eq_true, if_false]
      exact ih log
    | true =>
      obtain ⟨stmt, hp⟩ := HasTable_parses hprobe
      have hcall : dropTableCall env v = ⟨"DROP TABLE ?", [.Table stmt.Table]⟩ := by
        simp only [dropTableCall, hp]
      simp only [dropTables, droppedOf, hprobe, if_true, RunWithValue, hp, Exec, hexec,
        ← hcall]
      rw [ih]
      simp

/-- The loop of `DropTable` hands to the driver the drop of each model whose
probe is true, in the order walked, until one fails. -/
theorem dropTables_until_failure (env : Env) :
    ∀ (values : List Value) (log : List SQLCall),
      dropTables env values log =
        execUntilFailure env ((droppedOf env values log).map (dropTableCall env)) log := by
  intro values
  induction values with
  | nil => intro log; rfl
  | cons v rest ih =>
    intro log
    cases hprobe : HasTable env log v with
    | false =>
      simp only [dropTables, droppedOf, hprobe, Bool.false_eq_true, if_false]
      exact ih log
    | true =>
      obtain ⟨stmt, hp⟩ := HasTable_parses hprobe
      have hcall : dropTableCall env v = ⟨"DROP TABLE ?", [.Table stmt.Table]⟩ := by
        simp only [dropTableCall, hp]
      simp only [dropTables, droppedOf, hprobe, if_true, RunWithValue, hp, Exec, ← hcall,
        List.map_cons, execUntilFailure]
      cases env.Exec log (dropTableCall env v) with
      | some e => rfl
      | none => exact ih _

/-- What `execUntilFailure` leaves in the log: the statements up to some
position, all of them when no error is returned, and at least one when an
error is returned, which is then the error of the last statement executed. -/
theorem execUntilFailure_log (env : Env) :
    ∀ (calls log : List SQLCall),
      ∃ k, k ≤ calls.length ∧
        (execUntilFailure env calls log).1 = log ++ calls.take k ∧
        ((execUntilFailure env calls log).2 = none → k = calls.length) ∧
        (∀ i, i + 1 < k → ∀ c, calls[i]? = some c →
          env.Exec (log ++ calls.take i) c = none) ∧
        (∀ e, (execUntilFailure env calls log).2 = some e →
          ∃ i c, k = i + 1 ∧ calls[i]? = some c ∧
            env.Exec (log ++ calls.take i) c = some e) := by
  intro calls
  induction calls with
  | nil =>
    intro log
    exact ⟨0, le_refl _, by simp [execUntilFailure], fun _ => rfl,
      fun i hi => absurd hi (Nat.not_lt_zero _), fun e h => by simp [execUntilFailure] at h⟩
  | cons c rest ih =>
    intro log
    cases hexec : env.Exec log c with
    | some e =>
      refine ⟨1, by simp, by simp [execUntilFailure, hexec], ?_, ?_, ?_⟩
      · intro h
        simp [execUntilFailure, hexec] at h
      · intro i hi
        omega
      · intro e' h
        simp only [execUntilFailure, hexec, Option.some.injEq] at h
        exact ⟨0, c, rfl, by simp, by simpa [h] using hexec⟩
    | none =>
      obtain ⟨k, hk, hlog, hall, hbefore, hfail⟩ := ih (log ++ [c])
      refine ⟨k + 1, by simpa using hk, ?_, ?_, ?_, ?_⟩
      · simp only [execUntilFailure, hexec, hlog, List.take_succ_cons, List.append_assoc,
          List.singleton_append]
      · intro h
        simp only [execUntilFailure, hexec] at h
        simp [hall h]
      · intro i hi d hd
        cases i with
        | zero =>
          simp only [List.getElem?_cons_zero, Option.some.injEq] at hd
          subst hd
          simpa using hexec
        | succ i =>
          simp only [List.getElem?_cons_succ] at hd
          have := hbefore i (by omega) d hd
          simpa [List.take_succ_cons, List.append_assoc] using this
      · intro e h
        simp only [execUntilFailure, hexec] at h
        obtain ⟨i, d, hki, hd, hex⟩ := hfail e h
        exact ⟨i + 1, d, by omega, by simpa using hd,
          by simpa [List.take_succ_cons, List.append_assoc] using hex⟩

/-- C17 fails as stated: the driver fails the first `DROP TABLE`, `DropTable`
returns its error, and no statement is issued for `Customer` although its
`HasTable` probe is true. -/
theorem DropTable_stops_at_failure :
    ReorderModels failingShopEnv 2 [orderValue, customerValue] false =
      .ok [customerValue, orderValue] ∧
    DropTable failingShopEnv 2 [] [orderValue, customerValue] =
      .ok ([⟨"DROP TABLE ?", [.Table "orders"]⟩], some "drop failed") ∧
    HasTable failingShopEnv [] customerValue = true ∧
    HasTable failingShopEnv [⟨"DROP TABLE ?", [.Table "orders"]⟩] customerValue = true ∧
    dropTableCall failingShopEnv customerValue = ⟨"DROP TABLE ?", [.Table "customers"]⟩ ∧
    ¬ ∃ (log : List SQLCall) (err : Option Error),
      DropTable failingShopEnv 2 [] [orderValue, customerValue] = .ok (log, err) ∧
        ∃ c ∈ log, c.Vars = [.Table "customers"] := by
  refine ⟨rfl, rfl, rfl, rfl, rfl, ?_⟩
  rintro ⟨log, err, h, c, hc, hvars⟩
  have hrun : DropTable failingShopEnv 2 [] [orderValue, customerValue] =
      .ok ([⟨"DROP TABLE ?", [.Table "orders"]⟩], some "drop failed") := rfl
  rw [hrun] at h
  simp only [Except.ok.injEq, Prod.mk.injEq] at h
  rw [← h.1] at hc
  rw [List.mem_singleton.mp hc] at hvars
  simp at hvars

/-- C17, amended: for an acyclic set of models `DropTable` walks the reverse of
the list `ReorderModels(values, false)` returns and issues one `DROP TABLE` for
each model whose `HasTable` probe is true and none for a model whose probe is
false, until a statement fails: the failing statement is the last one issued
and `DropTable` returns its error. When no error is returned every such
statement has been issued. A model that references another comes before the
model it references in the order of the drops. -/
theorem DropTable_reverse_order (env : Env) (U : List SchemaRef) (rank : SchemaRef → Nat)
    (values : List Value) (log : List SQLCall)
    (hw : Acyclic env U rank false)
    (hvals : ∀ v ∈ values, ∃ s ∈ U, schemaOf env v = some s) :
    ∃ N, ∀ fuel, N ≤ fuel → ∃ (out : List Value) (issued : List SQLCall)
        (err : Option Error) (k : Nat),
      ReorderModels env fuel values false = .ok out ∧
      DropTable env fuel log values = .ok (log ++ issued, err) ∧
      issued = ((droppedOf env out.reverse log).take k).map (dropTableCall env) ∧
      (err = none → issued = (droppedOf env out.reverse log).map (dropTableCall env)) ∧
      (∀ i, i + 1 < k → ∀ c, issued[i]? = some c → env.Exec (log ++ issued.take i) c = none) ∧
      (∀ e, err = some e → ∃ i c, k = i + 1 ∧ issued[i]? = some c ∧
        issued.length = i + 1 ∧ env.Exec (log ++ issued.take i) c = some e) ∧
      (droppedOf env out.reverse log).Sublist out.reverse ∧
      ∀ (i j : Nat) (a b : Value),
        (droppedOf env out.reverse log)[i]? = some a →
        (droppedOf env out.reverse log)[j]? = some b →
        References env a b → i < j := by
  obtain ⟨N, hrun⟩ := ReorderModels_run hw values hvals
  refine ⟨N, fun fuel hfuel => ?_⟩
  obtain ⟨st, out, inv, e, hlen, hidx, _⟩ := hrun fuel hfuel
  have horder := run_referenced_first inv hlen hidx
  have hsub := droppedOf_sublist env out.reverse log
  obtain ⟨k, hk, hlog, hall, hbefore, hfail⟩ :=
    execUntilFailure_log env ((droppedOf env out.reverse log).map (dropTableCall env)) log
  have htake : ((droppedOf env out.reverse log).map (dropTableCall env)).take k =
      ((droppedOf env out.reverse log).take k).map (dropTableCall env) :=
    (List.map_take _ _ _).symm
  have hfront : ∀ i, i < k → ∀ c,
      (((droppedOf env out.reverse log).take k).map (dropTableCall env))[i]? = some c →
      ((droppedOf env out.reverse log).map (dropTableCall env))[i]? = some c ∧
      (((droppedOf env out.reverse log).take k).map (dropTableCall env)).take i =
        ((droppedOf env out.reverse log).map (dropTableCall env)).take i := by
    intro i hi c hc
    rw [← htake] at hc ⊢
    rw [List.getElem?_take_of_lt hi] at hc
    refine ⟨hc, ?_⟩
    rw [List.take_take, Nat.min_eq_left (le_of_lt hi)]
  refine ⟨out, ((droppedOf env out.reverse log).take k).map (dropTableCall env),
    (execUntilFailure env ((droppedOf env out.reverse log).map (dropTableCall env)) log).2,
    k, e, ?_, rfl, ?_, ?_, ?_, hsub, ?_⟩
  · unfold DropTable
    rw [e]
    simp only [dropTables_until_failure]
    rw [← htake, ← hlog]
  · intro hnone
    rw [← htake, hall hnone, List.take_length]
  · intro i hi c hc
    obtain ⟨hc', ht⟩ := hfront i (by omega) c hc
    rw [ht]
    exact hbefore i hi c hc'
  · intro e' he'
    obtain ⟨i, c, hki, hc, hex⟩ := hfail e' he'
    have hci : (((droppedOf env out.reverse log).take k).map (dropTableCall env))[i]? =
        some c := by
      rw [← htake, List.getElem?_take_of_lt (by omega)]
      exact hc
    refine ⟨i, c, hki, hci, ?_, ?_⟩
    · rw [← htake, List.length_take, Nat.min_eq_left hk, hki]
    · rw [(hfront i (by omega) c hci).2]
      exact hex
  · have hpair : out.Pairwise fun x y => ¬ References env x y := by
      rw [List.pairwise_iff_getElem]
      intro p q hp hq hpq href
      have := horder p q out[p] out[q] (List.getElem?_eq_getElem hp)
        (List.getElem?_eq_getElem hq) href
      omega
    have hrev : (droppedOf env out.reverse log).Pairwise fun x y => ¬ References env y x :=
      List.Pairwise.sublist hsub (List.pairwise_reverse.mpr hpair)
    intro i j a b hi hj href
    obtain ⟨hil, hia⟩ := List.getElem?_eq_some.mp hi
    obtain ⟨hjl, hjb⟩ := List.getElem?_eq_some.mp hj
    rcases Nat.lt_trichotomy i j with h | h | h
    · exact h
    · exfalso
      subst h
      rw [hia] at hjb
      subst hjb
      have hmem : a ∈ out := by
        have : a ∈ out.reverse := hsub.subset (List.mem_iff_getElem?.mpr ⟨i, hi⟩)
        simpa using this
      obtain ⟨k', hk'⟩ := List.mem_iff_getElem?.mp hmem
      have := horder k' k' a a hk' hk' href
      omega
    · exfalso
      have := (List.pairwise_iff_getElem.mp hrev) j i hjl hil h
      rw [hia, hjb] at this
      exact this href

/-- C17, amended, at the shop with both tables present, `Order` supplied before
`Customer`: `ReorderModels` puts `Customer` first, and `orders`, which
references `customers`, is dropped first. -/
theorem DropTable_reverse_order_witness :
    Acyclic settledShopEnv [0, 1] (fun s => 1 - s) false ∧
    References settledShopEnv orderValue customerValue ∧
    ReorderModels settledShopEnv 2 [orderValue, customerValue] false =
      .ok [customerValue, orderValue] ∧
    DropTable settledShopEnv 2 [] [orderValue, customerValue] =
      .ok ([⟨"DROP TABLE ?", [.Table "orders"]⟩, ⟨"DROP TABLE ?", [.Table "customers"]⟩],
        none) ∧
    ∃ N, ∀ fuel, N ≤ fuel → ∃ (out : List Value) (issued : List SQLCall)
        (err : Option Error) (k : Nat),
      ReorderModels settledShopEnv fuel [orderValue, customerValue] false = .ok out ∧
      DropTable settledShopEnv fuel [] [orderValue, customerValue] = .ok ([] ++ issued, err) ∧
      issued = ((droppedOf settledShopEnv out.reverse []).take k).map
        (dropTableCall settledShopEnv) ∧
      (err = none → issued = (droppedOf settledShopEnv out.reverse []).map
        (dropTableCall settledShopEnv)) ∧
      (∀ i, i + 1 < k → ∀ c, issued[i]? = some c →
        settledShopEnv.Exec ([] ++ issued.take i) c = none) ∧
      (∀ e, err = some e → ∃ i c, k = i + 1 ∧ issued[i]? = some c ∧
        issued.length = i + 1 ∧ settledShopEnv.Exec ([] ++ issued.take i) c = some e) ∧
      (droppedOf settledShopEnv out.reverse []).Sublist out.reverse ∧
      ∀ (i j : Nat) (a b : Value),
        (droppedOf settledShopEnv out.reverse [])[i]? = some a →
        (droppedOf settledShopEnv out.reverse [])[j]? = some b →
        References settledShopEnv a b → i < j :=
  have hw : Acyclic settledShopEnv [0, 1] (fun s => 1 - s) false :=
    ⟨by decide, by decide, by decide, by decide⟩
  ⟨hw, ⟨0, 1, rfl, rfl, by decide⟩, rfl, rfl,
    DropTable_reverse_order settledShopEnv [0, 1] (fun s => 1 - s)
      [orderValue, customerValue] [] hw (by decide)⟩

/-- What the first loop leaves in `valuesMap`: an entry is old or holds a
supplied value with its schema; a name that is no table of a supplied value
keeps its entry; and when the supplied tables are distinct, the entry of each
supplied value holds that value. -/
theorem parseAll_trace (env : Env) :
    ∀ (values : List Value) (st st' : ReorderState), parseAll env values st = .ok st' →
      (∀ n dep, st'.valuesMap n = some dep →
        st.valuesMap n = some dep ∨
          (dep.Dest ∈ values ∧ schemaOf env dep.Dest = some dep.Schema ∧
            dep.Depends = dependsOf env dep.Schema)) ∧
      (∀ n, (∀ v ∈ values, tableOf env v ≠ some n) → st'.valuesMap n = st.valuesMap n) ∧
      ((values.map (tableOf env)).Nodup →
        ∀ v ∈ values, ∃ s dep, schemaOf env v = some s ∧
          st'.valuesMap (env.schema s).Table = some dep ∧ dep.Dest = v) := by
  intro values
  induction values with
  | nil =>
    intro st st' h
    simp only [parseAll, Except.ok.injEq] at h
    subst h
    exact ⟨fun n dep hd => Or.inl hd, fun n _ => rfl, fun _ v hv => by simp at hv⟩
  | cons v vs ih =>
    intro st st' h
    unfold parseAll at h
    cases hp : env.Parse v with
    | error e =>
      simp [parseDependence, hp] at h
    | ok stmt =>
      rw [parseDependence_ok true st hp] at h
      simp only [if_true] at h
      obtain ⟨h1, h2, h3⟩ := ih _ st' h
      have hsv : schemaOf env v = some stmt.Schema := by simp [schemaOf, hp]
      have htv : tableOf env v = some (env.schema stmt.Schema).Table := by
        simp [tableOf, hsv]
      refine ⟨?_, ?_, ?_⟩
      · intro n dep hd
        rcases h1 n dep hd with h0 | ⟨hm, hs, hdep⟩
        · by_cases hn : n = (env.schema stmt.Schema).Table
          · simp only [hn, if_true, Option.some.injEq] at h0
            subst h0
            exact Or.inr ⟨List.mem_cons_self _ _, hsv, rfl⟩
          · simp only [hn, if_false] at h0
            exact Or.inl h0
        · exact Or.inr ⟨List.mem_cons_of_mem _ hm, hs, hdep⟩
      · intro n hn
        rw [h2 n fun w hw => hn w (List.mem_cons_of_mem _ hw)]
        have hne : n ≠ (env.schema stmt.Schema).Table := by
          intro heq
          exact hn v (List.mem_cons_self _ _) (by rw [htv, heq])
        simp only [hne, if_false]
      · intro hnd w hw
        rw [List.map_cons, List.nodup_cons] at hnd
        rcases List.mem_cons.mp hw with hwv | hwvs
        · subst hwv
          refine ⟨stmt.Schema, ⟨w, stmt.Schema, dependsOf env stmt.Schema⟩, hsv, ?_, rfl⟩
          rw [h2 _ fun x hx hxt => hnd.1 (by
            rw [htv, ← hxt]
            exact List.mem_map_of_mem _ hx)]
          simp
        · exact h3 hnd.2 w hwvs

/-- Registering a fresh instance of a reachable schema keeps the provenance. -/
theorem ReorderProv.fresh_entry {env : Env} {U : List SchemaRef} {values : List Value}
    {st : ReorderState} (names : List String) (d : SchemaRef)
    (hprov : ReorderProv env U values st) (hU : d ∈ U) (hr : Reachable env values d) :
    ReorderProv env U values
      { st with
        valuesMap := fun k => if k = (env.schema d).Table then
          some ⟨reflectNew (env.schema d).ModelType, d, dependsOf env d⟩ else st.valuesMap k
        modelNames := names } := by
  intro n dep hd
  by_cases hn : n = (env.schema d).Table
  · simp only [hn, if_true, Option.some.injEq] at hd
    subst hd
    exact ⟨hU, hr, rfl, Or.inr rfl⟩
  · simp only [hn, if_false] at hd
    exact hprov n dep hd

/-- The loop over the dependencies keeps the provenance, when the closure it
calls does. -/
theorem insertDepends_prov {env : Env} {U : List SchemaRef} {rank : SchemaRef → Nat}
    {autoAdd : Bool} (hw : Acyclic env U rank autoAdd) (values : List Value)
    {ins : String → ReorderState → Except Fault ReorderState}
    (hins : ∀ n s s', ReorderProv env U values s → ins n s = .ok s' →
      ReorderProv env U values s') :
    ∀ (ds : List SchemaRef) (st st' : ReorderState),
      (∀ d ∈ ds, d ∈ U ∧ Reachable env values d) →
      ReorderProv env U values st → insertDepends env autoAdd ins ds st = .ok st' →
      ReorderProv env U values st' := by
  intro ds
  induction ds with
  | nil =>
    intro st st' _ hprov h
    simp only [insertDepends, Except.ok.injEq] at h
    exact h ▸ hprov
  | cons d ds ih =>
    intro st st' hds hprov h
    obtain ⟨hdU, hdr⟩ := hds d (List.mem_cons_self d ds)
    have hrest : ∀ d' ∈ ds, d' ∈ U ∧ Reachable env values d' :=
      fun d' h' => hds d' (List.mem_cons_of_mem d h')
    unfold insertDepends at h
    cases hv : st.valuesMap (env.schema d).Table with
    | some depd =>
      rw [hv] at h
      dsimp only at h
      cases hi : ins (env.schema d).Table st with
      | error f => rw [hi] at h; simp at h
      | ok st1 =>
        rw [hi] at h
        exact ih st1 st' hrest (hins _ _ _ hprov hi) h
    | none =>
      rw [hv] at h
      dsimp only at h
      rcases Bool.eq_false_or_eq_true autoAdd with ha | ha
      · subst ha
        simp only [if_true] at h
        obtain ⟨stmt, hp, hs⟩ := schemaOf_eq_some (hw.fresh rfl d hdU)
        rw [parseDependence_ok true st hp, hs] at h
        simp only [if_true] at h
        have hprov0 := hprov.fresh_entry (st.modelNames ++ [(env.schema d).Table]) d hdU hdr
        cases hi : ins (env.schema d).Table
            { st with
              valuesMap := fun k => if k = (env.schema d).Table then
                some ⟨reflectNew (env.schema d).ModelType, d, dependsOf env d⟩
                else st.valuesMap k
              modelNames := st.modelNames ++ [(env.schema d).Table] } with
        | error f => rw [hi] at h; simp at h
        | ok st1 =>
          rw [hi] at h
          exact ih st1 st' hrest (hins _ _ _ hprov0 hi) h
      · subst ha
        simp only [Bool.false_eq_true, if_false] at h
        exact ih st st' hrest hprov h

/-- The closure `insertIntoOrderedList` keeps the provenance. -/
theorem insertIntoOrderedList_prov {env : Env} {U : List SchemaRef}
    {rank : SchemaRef → Nat} {autoAdd : Bool} (hw : Acyclic env U rank autoAdd)
    (values : List Value) :
    ∀ (fuel : Nat) (name : String) (st st' : ReorderState),
      ReorderProv env U values st →
      insertIntoOrderedList env autoAdd fuel name st = .ok st' →
      ReorderProv env U values st' := by
  intro fuel
  induction fuel with
  | zero =>
    intro name st st' _ h
    simp [insertIntoOrderedList] at h
  | succ fuel ih =>
    intro name st st' hprov h
    unfold insertIntoOrderedList at h
    cases hm : st.orderedModelNamesMap name with
    | some b =>
      rw [hm] at h
      simp only [Except.ok.injEq] at h
      exact h ▸ hprov
    | none =>
      rw [hm] at h
      dsimp only at h
      cases hd : insertDepends env autoAdd
          (fun n s => insertIntoOrderedList env autoAdd fuel n s)
          (match st.valuesMap name with
            | some dep => dep.Depends
            | none => []) st with
      | error f => rw [hd] at h; simp at h
      | ok st1 =>
        rw [hd] at h
        simp only [Except.ok.injEq] at h
        have hds : ∀ d ∈ (match st.valuesMap name with
            | some dep => dep.Depends
            | none => []), d ∈ U ∧ Reachable env values d := by
          intro d hmem
          cases hv : st.valuesMap name with
          | none => rw [hv] at hmem; simp at hmem
          | some dep =>
            rw [hv] at hmem
            dsimp only at hmem
            obtain ⟨hsU, hsr, hdeps, _⟩ := hprov name dep hv
            rw [hdeps] at hmem
            exact ⟨hw.closed _ hsU d hmem, Reachable.referenced hsr hmem⟩
        have hprov1 := insertDepends_prov hw values
          (fun n s s' hp hi => ih n s s' hp hi) _ st st1 hds hprov hd
        intro n dep hn
        rw [← h] at hn
        exact hprov1 n dep hn

/-- The second loop keeps the provenance. -/
theorem insertAll_prov {env : Env} {U : List SchemaRef} {rank : SchemaRef → Nat}
    {autoAdd : Bool} (hw : Acyclic env U rank autoAdd) (values : List Value) (fuel : Nat) :
    ∀ (names : List String) (st st' : ReorderState),
      ReorderProv env U values st → insertAll env autoAdd fuel names st = .ok st' →
      ReorderProv env U values st' := by
  intro names
  induction names with
  | nil =>
    intro st st' hprov h
    simp only [insertAll, Except.ok.injEq] at h
    exact h ▸ hprov
  | cons n ns ih =>
    intro st st' hprov h
    unfold insertAll at h
    cases hi : insertIntoOrderedList env autoAdd fuel n st with
    | error f => rw [hi] at h; simp at h
    | ok st1 =>
      rw [hi] at h
      exact ih st1 st' (insertIntoOrderedList_prov hw values fuel n st st1 hprov hi) h

/-- The run of `ReorderModels` on an acyclic set, with the state between its
two loops. -/
theorem ReorderModels_trace {env : Env} {U : List SchemaRef} {rank : SchemaRef → Nat}
    {autoAdd : Bool} (hw : Acyclic env U rank autoAdd) (values : List Value)
    (hvals : ∀ v ∈ values, ∃ s ∈ U, schemaOf env v = some s) :
    ∃ N, ∀ fuel, N ≤ fuel → ∃ st1 st2 out,
      parseAll env values ReorderState.init = .ok st1 ∧
      insertAll env autoAdd fuel st1.modelNames st1 = .ok st2 ∧
      ReorderInv env U autoAdd st2 ∧ ReorderExt rank autoAdd fuel st1 st2 ∧
      ReorderModels env fuel values autoAdd = .ok out ∧
      out.length = st2.orderedModelNames.length ∧
      (∀ (i : Nat) n, st2.orderedModelNames[i]? = some n →
        ∃ dep, st2.valuesMap n = some dep ∧ out[i]? = some dep.Dest) ∧
      (∀ v ∈ values, ∀ s, schemaOf env v = some s →
        (env.schema s).Table ∈ st2.orderedModelNames) := by
  obtain ⟨N, hN⟩ := rank_bound rank U
  refine ⟨N, fun fuel hfuel => ?_⟩
  obtain ⟨st1, e1, inv1, _, hknown1, _, hmem1⟩ :=
    parseAll_spec values ReorderState.init (ReorderInv.init env U autoAdd) rfl
      (by simp [ReorderState.init]) hvals
  obtain ⟨st2, e2, inv2, mem2, ext2⟩ :=
    insertAll_spec hw (fun s hs => lt_of_lt_of_le (hN s hs) hfuel) st1.modelNames st1
      inv1 hknown1
  obtain ⟨out, e3, hlen, hidx⟩ :=
    collectDest_spec st2.valuesMap st2.orderedModelNames inv2.placed_known
  refine ⟨st1, st2, out, e1, e2, inv2, ext2, ?_, hlen, hidx, ?_⟩
  · simp only [ReorderModels, e1, e2, e3]
  · intro v hv s hs
    exact mem2 _ (hmem1 v hv s hs)

/-- Every value of the output is the `Dest` of a placed entry. -/
theorem out_entry {st : ReorderState} {out : List Value}
    (hlen : out.length = st.orderedModelNames.length)
    (hidx : ∀ (i : Nat) n, st.orderedModelNames[i]? = some n →
      ∃ dep, st.valuesMap n = some dep ∧ out[i]? = some dep.Dest) :
    ∀ x ∈ out, ∃ (i : Nat) (n : String) (dep : Dependency),
      st.orderedModelNames[i]? = some n ∧ st.valuesMap n = some dep ∧ dep.Dest = x := by
  intro x hx
  obtain ⟨i, hi⟩ := List.mem_iff_getElem?.mp hx
  obtain ⟨hil, _⟩ := List.getElem?_eq_some.mp hi
  have hil' : i < st.orderedModelNames.length := hlen ▸ hil
  obtain ⟨dep, hv, ho⟩ := hidx i _ (List.getElem?_eq_getElem hil')
  rw [hi] at ho
  simp only [Option.some.injEq] at ho
  exact ⟨i, _, dep, List.getElem?_eq_getElem hil', hv, ho.symm⟩

/-- A placed name whose entry holds the value puts the value in the output. -/
theorem mem_out_of_placed {st : ReorderState} {out : List Value}
    (hidx : ∀ (i : Nat) n, st.orderedModelNames[i]? = some n →
      ∃ dep, st.valuesMap n = some dep ∧ out[i]? = some dep.Dest)
    {n : String} {dep : Dependency} (hn : n ∈ st.orderedModelNames)
    (hv : st.valuesMap n = some dep) : dep.Dest ∈ out := by
  obtain ⟨i, hi⟩ := List.mem_iff_getElem?.mp hn
  obtain ⟨dep', hv', ho⟩ := hidx i n hi
  rw [hv] at hv'
  simp only [Option.some.injEq] at hv'
  rw [← hv'] at ho
  exact List.mem_iff_getElem?.mpr ⟨i, ho⟩

/-- C18: for an acyclic list of models with distinct table names, with
`autoAdd` false the output of `ReorderModels` is a permutation of the supplied
models; with `autoAdd` true the output holds every supplied model and a model
of every schema reachable from one through foreign-key references, each
exactly once, the models that were not supplied being fresh zero-valued
instances of a referenced model type. -/
theorem ReorderModels_output_models (env : Env) (U : List SchemaRef)
    (rank : SchemaRef → Nat) (values : List Value)
    (hvals : ∀ v ∈ values, ∃ s ∈ U, schemaOf env v = some s)
    (hdistinct : (values.map (tableOf env)).Nodup) :
    (Acyclic env U rank false →
      ∃ N, ∀ fuel, N ≤ fuel → ∃ out : List Value,
        ReorderModels env fuel values false = .ok out ∧ out.Perm values) ∧
    (Acyclic env U rank true →
      ∃ N, ∀ fuel, N ≤ fuel → ∃ out : List Value,
        ReorderModels env fuel values true = .ok out ∧
        out.Nodup ∧ (out.map (tableOf env)).Nodup ∧
        (∀ v ∈ values, v ∈ out) ∧
        (∀ s, Reachable env values s → ∃ v ∈ out, schemaOf env v = some s) ∧
        (∀ v ∈ out, v ∈ values ∨
          ∃ s, Reachable env values s ∧ schemaOf env v = some s ∧
            v = reflectNew (env.schema s).ModelType)) := by
  have common : ∀ autoAdd, Acyclic env U rank autoAdd →
      ∃ N, ∀ fuel, N ≤ fuel → ∃ (st : ReorderState) (out : List Value),
        ReorderModels env fuel values autoAdd = .ok out ∧
        ReorderInv env U autoAdd st ∧ ReorderProv env U values st ∧
        out.length = st.orderedModelNames.length ∧
        (∀ (i : Nat) n, st.orderedModelNames[i]? = some n →
          ∃ dep, st.valuesMap n = some dep ∧ out[i]? = some dep.Dest) ∧
        (∀ v ∈ values, v ∈ out) ∧
        (autoAdd = false → ∀ n dep, st.valuesMap n = some dep → dep.Dest ∈ values) := by
    intro autoAdd hw
    obtain ⟨N, htrace⟩ := ReorderModels_trace hw values hvals
    refine ⟨N, fun fuel hfuel => ?_⟩
    obtain ⟨st1, st2, out, e1, e2, inv2, ext2, e, hlen, hidx, hmem⟩ := htrace fuel hfuel
    obtain ⟨t1, _, t3⟩ := parseAll_trace env values _ st1 e1
    have hentry : ∀ n dep, st1.valuesMap n = some dep →
        dep.Dest ∈ values ∧ schemaOf env dep.Dest = some dep.Schema ∧
          dep.Depends = dependsOf env dep.Schema := by
      intro n dep hd
      rcases t1 n dep hd with h0 | h0
      · simp [ReorderState.init] at h0
      · exact h0
    have hprov1 : ReorderProv env U values st1 := by
      intro n dep hd
      obtain ⟨hm, hs, hdep⟩ := hentry n dep hd
      obtain ⟨s, hsU, hsv⟩ := hvals _ hm
      rw [hs] at hsv
      simp only [Option.some.injEq] at hsv
      exact ⟨hsv ▸ hsU, Reachable.supplied hm hs, hdep, Or.inl hm⟩
    have hprov2 := insertAll_prov hw values fuel _ st1 st2 hprov1 e2
    refine ⟨st2, out, e, inv2, hprov2, hlen, hidx, ?_, ?_⟩
    · intro v hv
      obtain ⟨s, dep, hs, hd, hdest⟩ := t3 hdistinct v hv
      have := mem_out_of_placed hidx (hmem v hv s hs) (ext2.keeps _ dep hd)
      rwa [hdest] at this
    · intro ha n dep hd
      rw [ext2.fixed ha] at hd
      exact (hentry n dep hd).1
  have nodup : ∀ {autoAdd : Bool} {st : ReorderState} {out : List Value},
      ReorderInv env U autoAdd st → out.length = st.orderedModelNames.length →
      (∀ (i : Nat) n, st.orderedModelNames[i]? = some n →
        ∃ dep, st.valuesMap n = some dep ∧ out[i]? = some dep.Dest) →
      (out.map (tableOf env)).Nodup := by
    intro autoAdd st out inv hlen hidx
    rw [output_tables inv hlen hidx]
    exact inv.nodup.map (Option.some_injective _)
  constructor
  · intro hw
    obtain ⟨N, h⟩ := common false hw
    refine ⟨N, fun fuel hfuel => ?_⟩
    obtain ⟨st, out, e, inv, _, hlen, hidx, hin, hfrom⟩ := h fuel hfuel
    refine ⟨out, e, ?_⟩
    apply (List.perm_ext_iff_of_nodup (nodup inv hlen hidx).of_map hdistinct.of_map).mpr
    intro x
    constructor
    · intro hx
      obtain ⟨i, n, dep, _, hv, hd⟩ := out_entry hlen hidx x hx
      exact hd ▸ hfrom rfl n dep hv
    · exact hin x
  · intro hw
    obtain ⟨N, h⟩ := common true hw
    refine ⟨N, fun fuel hfuel => ?_⟩
    obtain ⟨st, out, e, inv, hprov, hlen, hidx, hin, _⟩ := h fuel hfuel
    refine ⟨out, e, (nodup inv hlen hidx).of_map, nodup inv hlen hidx, hin, ?_, ?_⟩
    · intro s hs
      induction hs with
      | supplied hv hsv => exact ⟨_, hin _ hv, hsv⟩
      | referenced hr hd ih =>
        rename_i s d
        obtain ⟨v, hvout, hvs⟩ := ih
        obtain ⟨i, n, dep, hi, hv, hdest⟩ := out_entry hlen hidx v hvout
        obtain ⟨hsU, _, hdeps, hps⟩ := inv.wf n dep hv
        rw [hdest, hvs] at hps
        simp only [Option.some.injEq] at hps
        have hdmem : d ∈ dep.Depends := by rw [hdeps, ← hps]; exact hd
        obtain ⟨j, _, hj⟩ := inv.deps_first i n dep hi hv d hdmem (Or.inl rfl)
        have hplaced : (env.schema d).Table ∈ st.orderedModelNames :=
          List.mem_iff_getElem?.mpr ⟨j, hj⟩
        cases hvd : st.valuesMap (env.schema d).Table with
        | none => exact absurd hvd (inv.placed_known _ hplaced)
        | some depd =>
          obtain ⟨hdU, htab, _, hpd⟩ := inv.wf _ depd hvd
          have hdU' : d ∈ U := hw.closed _ (hps ▸ hsU) d hd
          have heq : depd.Schema = d := hw.distinct _ hdU _ hdU' htab
          exact ⟨depd.Dest, mem_out_of_placed hidx hplaced hvd, heq ▸ hpd⟩
    · intro x hx
      obtain ⟨i, n, dep, _, hv, hdest⟩ := out_entry hlen hidx x hx
      obtain ⟨_, hr, _, hfrom⟩ := hprov n dep hv
      obtain ⟨_, _, _, hps⟩ := inv.wf n dep hv
      rcases hfrom with h | h
      · exact Or.inl (hdest ▸ h)
      · exact Or.inr ⟨dep.Schema, hr, hdest ▸ hps, hdest ▸ h⟩

/-- C18, at the shop with only `Order` supplied: without `autoAdd` the output is
`[Order]`, with `autoAdd` a fresh `Customer` comes first. -/
theorem ReorderModels_output_models_witness :
    (∀ v ∈ [orderValue], ∃ s ∈ [0, 1], schemaOf shopEnv v = some s) ∧
    ([orderValue].map (tableOf shopEnv)).Nodup ∧
    ReorderModels shopEnv 2 [orderValue] false = .ok [orderValue] ∧
    ReorderModels shopEnv 2 [orderValue] true = .ok [reflectNew 1, orderValue] ∧
    (∃ N, ∀ fuel, N ≤ fuel → ∃ out : List Value,
      ReorderModels shopEnv fuel [orderValue] false = .ok out ∧ out.Perm [orderValue]) ∧
    (∃ N, ∀ fuel, N ≤ fuel → ∃ out : List Value,
      ReorderModels shopEnv fuel [orderValue] true = .ok out ∧
      out.Nodup ∧ (out.map (tableOf shopEnv)).Nodup ∧
      (∀ v ∈ [orderValue], v ∈ out) ∧
      (∀ s, Reachable shopEnv [orderValue] s → ∃ v ∈ out, schemaOf shopEnv v = some s) ∧
      (∀ v ∈ out, v ∈ [orderValue] ∨
        ∃ s, Reachable shopEnv [orderValue] s ∧ schemaOf shopEnv v = some s ∧
          v = reflectNew (shopEnv.schema s).ModelType)) :=
  have hv : ∀ v ∈ [orderValue], ∃ s ∈ [0, 1], schemaOf shopEnv v = some s := by decide
  have hd : ([orderValue].map (tableOf shopEnv)).Nodup := by decide
  ⟨hv, hd, rfl, rfl,
    (ReorderModels_output_models shopEnv [0, 1] (fun s => 1 - s) [orderValue] hv hd).1
      ⟨by decide, by decide, by decide, by decide⟩,
    (ReorderModels_output_models shopEnv [0, 1] (fun s => 1 - s) [orderValue] hv hd).2
      ⟨by decide, by decide, by decide, by decide⟩⟩

/-! ## The pairing of markers and values in `CreateTable` -/

theorem markers_append (a b : String) : markers (a ++ b) = markers a + markers b := by
  simp [markers, List.count_append]

theorem GoodLast.prepend {b : String} (a : String) (h : GoodLast b) :
    GoodLast (a ++ b) := by
  obtain ⟨c, hc, hne⟩ := h
  exact ⟨c, by simp [hc], hne⟩

theorem GoodLast.append_empty_or {a b : String} (ha : GoodLast a)
    (hb : b = "" ∨ GoodLast b) : GoodLast (a ++ b) := by
  rcases hb with h | h
  · rw [h, String.append_empty]
    exact ha
  · exact h.prepend a

theorem EndsWell.prepended {p : String} (s : String) (h : EndsWell p) :
    EndsWell (s ++ p) := by
  obtain ⟨x, hx, hg⟩ := h
  exact ⟨s ++ x, by rw [hx, String.append_assoc], hg.prepend s⟩

theorem EndsWell.of_good {x : String} (h : GoodLast x) : EndsWell (x ++ ",") :=
  ⟨x, rfl, h⟩

/-- Adding a piece with as many markers as values keeps the pairing. -/
theorem Paired.add {t : TableSQL} (h : Paired t) (p : String) (vs : List Arg) (b : Bool)
    (hp : markers p = vs.length) : Paired ⟨t.createTableSQL ++ p, t.values ++ vs, b⟩ := by
  unfold Paired at *
  simp [markers_append, h, hp]

theorem markers_columnSegment (env : Env) (n : String) (f : Field) :
    markers (columnSegment f) = (columnValues env n f).length := by
  unfold columnSegment columnValues
  cases f.AutoIncrement <;> cases f.NotNull <;> cases f.Unique <;>
    by_cases hd : f.DefaultValue = "" <;> simp [hd, markers_append] <;> decide

theorem EndsWell_columnSegment (f : Field) : EndsWell (columnSegment f) := by
  have h0 : GoodLast "? ?" := ⟨'?', rfl, by decide⟩
  have h1 : GoodLast ("? ?" ++ if f.AutoIncrement then " AUTO_INCREMENT" else "") :=
    h0.append_empty_or (by
      cases f.AutoIncrement
      · exact Or.inl rfl
      · exact Or.inr ⟨'T', rfl, by decide⟩)
  have h2 : GoodLast (("? ?" ++ if f.AutoIncrement then " AUTO_INCREMENT" else "") ++
      if f.NotNull then " NOT NULL" else "") :=
    h1.append_empty_or (by
      cases f.NotNull
      · exact Or.inl rfl
      · exact Or.inr ⟨'L', rfl, by decide⟩)
  have h3 : GoodLast ((("? ?" ++ if f.AutoIncrement then " AUTO_INCREMENT" else "") ++
      if f.NotNull then " NOT NULL" else "") ++ if f.Unique then " UNIQUE" else "") :=
    h2.append_empty_or (by
      cases f.Unique
      · exact Or.inl rfl
      · exact Or.inr ⟨'E', rfl, by decide⟩)
  have h4 : GoodLast (((("? ?" ++ if f.AutoIncrement then " AUTO_INCREMENT" else "") ++
      if f.NotNull then " NOT NULL" else "") ++ if f.Unique then " UNIQUE" else "") ++
      if f.DefaultValue ≠ "" then " DEFAULT ?" else "") :=
    h3.append_empty_or (by
      by_cases hd : f.DefaultValue = ""
      · exact Or.inl (by simp [hd])
      · exact Or.inr (by simp only [ne_eq, hd, not_false_eq_true, if_true]
                         exact ⟨'?', rfl, by decide⟩))
  have := EndsWell.of_good h4
  unfold columnSegment
  simpa only [String.append_assoc] using this

theorem markers_joinAll_columns (env : Env) :
    ∀ cols : List (String × Field),
      markers (joinAll (cols.map fun p => columnSegment p.2)) =
        (cols.flatMap fun p => columnValues env p.1 p.2).length := by
  intro cols
  induction cols with
  | nil => rfl
  | cons p rest ih =>
    simp only [List.map_cons, joinAll, markers_append, List.flatMap_cons, List.length_append,
      ih, markers_columnSegment env p.1 p.2]

theorem EndsWell_joinAll (pre : String) :
    ∀ pieces : List String, pieces ≠ [] → (∀ p ∈ pieces, EndsWell p) →
      EndsWell (pre ++ joinAll pieces) := by
  intro pieces
  induction pieces generalizing pre with
  | nil => intro h; exact absurd rfl h
  | cons p rest ih =>
    intro _ hall
    by_cases hr : rest = []
    · subst hr
      simp only [joinAll, String.append_empty]
      exact (hall p (List.mem_cons_self _ _)).prepended pre
    · have := ih (pre ++ p) hr fun q hq => hall q (List.mem_cons_of_mem _ hq)
      simpa only [joinAll, String.append_assoc] using this

theorem addPrimaryKey_ok (sch : Schema) (t : TableSQL) (hp : Paired t)
    (he : t.hasPrimaryKeyInDataType = true → EndsWell t.createTableSQL) :
    Paired (addPrimaryKey sch t) ∧ EndsWell (addPrimaryKey sch t).createTableSQL := by
  unfold addPrimaryKey
  cases h : t.hasPrimaryKeyInDataType with
  | true => simp only [if_true]; exact ⟨hp, he h⟩
  | false =>
    simp only [Bool.false_eq_true, if_false]
    exact ⟨hp.add _ _ _ (show markers "PRIMARY KEY ?," = 1 by decide),
      EndsWell.prepended _ ⟨"PRIMARY KEY ?", rfl, '?', rfl, by decide⟩⟩

theorem addIndexes_ok (cfg : Config) (lib : Library) (stmt : Stmt) :
    ∀ (indexes : List Index) (t : TableSQL), Paired t → EndsWell t.createTableSQL →
      Paired (addIndexes cfg lib stmt indexes t) ∧
        EndsWell (addIndexes cfg lib stmt indexes t).createTableSQL := by
  intro indexes
  induction indexes with
  | nil => intro t hp he; exact ⟨hp, he⟩
  | cons idx rest ih =>
    intro t hp he
    unfold addIndexes
    cases cfg.CreateIndexAfterCreateTable with
    | true => simp only [if_true]; exact ih t hp he
    | false =>
      simp only [Bool.false_eq_true, if_false]
      exact ih _ (hp.add _ _ _ (show markers "INDEX ? ?," = 2 by decide))
        (EndsWell.prepended _ ⟨"INDEX ? ?", rfl, '?', rfl, by decide⟩)

theorem addChecks_ok :
    ∀ (checks : List Check) (t : TableSQL), Paired t → EndsWell t.createTableSQL →
      Paired (addChecks checks t) ∧ EndsWell (addChecks checks t).createTableSQL := by
  intro checks
  induction checks with
  | nil => intro t hp he; exact ⟨hp, he⟩
  | cons chk rest ih =>
    intro t hp he
    unfold addChecks
    exact ih _ (hp.add _ _ _ (show markers "CONSTRAINT ? CHECK ?," = 2 by decide))
      (EndsWell.prepended _ ⟨"CONSTRAINT ? CHECK ?", rfl, '?', rfl, by decide⟩)

/-- With no `?` in the action strings `buildConstraint` returns four markers
and four values. -/
theorem buildConstraint_paired (env : Env) (c : Constraint)
    (hd : '?' ∉ c.OnDelete.data) (hu : '?' ∉ c.OnUpdate.data) :
    markers (buildConstraint env c).1 = 4 ∧ (buildConstraint env c).2.length = 4 := by
  have h1 : markers c.OnDelete = 0 := List.count_eq_zero.mpr hd
  have h2 : markers c.OnUpdate = 0 := List.count_eq_zero.mpr hu
  have h3 : markers "CONSTRAINT ? FOREIGN KEY ? REFERENCES ??" = 4 := by decide
  have h4 : markers " ON DELETE " = 0 := by decide
  have h5 : markers " ON UPDATE  " = 0 := by decide
  refine ⟨?_, rfl⟩
  unfold buildConstraint
  by_cases e1 : c.OnDelete = "" <;> by_cases e2 : c.OnUpdate = "" <;>
    simp [e1, e2, markers_append, h1, h2, h3, h4, h5]

/-- With no comma at the end of the action strings the text of
`buildConstraint` does not end with a comma. -/
theorem buildConstraint_good (env : Env) (c : Constraint)
    (hd : c.OnDelete.data.getLast? ≠ some ',') (hu : c.OnUpdate.data.getLast? ≠ some ',') :
    GoodLast (buildConstraint env c).1 := by
  have action : ∀ (lit s : String), lit.data.getLast? = some ' ' →
      s.data.getLast? ≠ some ',' → GoodLast (lit ++ s) := by
    intro lit s hl hs
    cases hlast : s.data.getLast? with
    | none => exact ⟨' ', by simp [hlast, hl], by decide⟩
    | some ch => exact ⟨ch, by simp [hlast], fun h => hs (by rw [hlast, h])⟩
  have h0 : GoodLast "CONSTRAINT ? FOREIGN KEY ? REFERENCES ??" := ⟨'?', rfl, by decide⟩
  unfold buildConstraint
  by_cases e1 : c.OnDelete = "" <;> by_cases e2 : c.OnUpdate = ""
  · simpa [e1, e2] using h0
  · simp only [e1, ne_eq, not_true_eq_false, if_false, e2, not_false_eq_true, if_true]
    exact (action " ON UPDATE  " c.OnUpdate rfl hu).prepend _
  · simp only [e1, ne_eq, not_false_eq_true, if_true, e2, not_true_eq_false, if_false]
    exact (action " ON DELETE " c.OnDelete rfl hd).prepend _
  · simp only [e1, ne_eq, not_false_eq_true, if_true, e2]
    exact (action " ON UPDATE  " c.OnUpdate rfl hu).prepend _

theorem addConstraints_ok (env : Env) :
    ∀ (rels : List Relationship) (t : TableSQL),
      (∀ rel ∈ rels, ∀ c, rel.ParseConstraint = some c →
        '?' ∉ c.OnDelete.data ∧ '?' ∉ c.OnUpdate.data ∧
          c.OnDelete.data.getLast? ≠ some ',' ∧ c.OnUpdate.data.getLast? ≠ some ',') →
      Paired t → EndsWell t.createTableSQL →
      Paired (addConstraints env rels t) ∧
        EndsWell (addConstraints env rels t).createTableSQL := by
  intro rels
  induction rels with
  | nil => intro t _ hp he; exact ⟨hp, he⟩
  | cons rel rest ih =>
    intro t hact hp he
    have hrest := fun r hr => hact r (List.mem_cons_of_mem rel hr)
    unfold addConstraints
    cases hc : rel.ParseConstraint with
    | none => exact ih t hrest hp he
    | some c =>
      obtain ⟨a1, a2, a3, a4⟩ := hact rel (List.mem_cons_self rel rest) c hc
      obtain ⟨m1, m2⟩ := buildConstraint_paired env c a1 a2
      refine ih _ hrest (hp.add _ _ _ ?_)
        (EndsWell.prepended _ (EndsWell.of_good (buildConstraint_good env c a3 a4)))
      have hcomma : markers "," = 0 := by decide
      rw [markers_append, m1, m2, hcomma]

/-- C20 fails as stated: the action strings of `Order` contain no `?`, but
`OnUpdate` ends with a comma, and the template `CreateTable` executes has a
comma directly before the closing parenthesis. -/
theorem createTableCall_comma_before_paren :
    (∀ c ∈ cascadeSchema.Relations.filterMap (fun rel => rel.ParseConstraint),
      '?' ∉ c.OnDelete.data ∧ '?' ∉ c.OnUpdate.data) ∧
    CreateTable cascadeEnv plainConfig plainLibrary 1 [] [orderValue] =
      .ok ([⟨"CREATE TABLE ? (? ?,PRIMARY KEY ?,CONSTRAINT ? FOREIGN KEY ? REFERENCES ?? ON UPDATE  CASCADE,)",
        [.Table "orders", .Column "id", .Expr "text", .List [.Column "id"],
          .Table "fk_orders_customer", .List [], .Table "customers", .List []]⟩], none) ∧
    ¬ ∃ body : String,
      "CREATE TABLE ? (? ?,PRIMARY KEY ?,CONSTRAINT ? FOREIGN KEY ? REFERENCES ?? ON UPDATE  CASCADE,)" =
        body ++ ")" ∧ body.data.getLast? ≠ some ',' := by
  refine ⟨by decide, rfl, ?_⟩
  rintro ⟨body, h, hne⟩
  have hd := congrArg String.data h
  have hb : body.data =
      ("CREATE TABLE ? (? ?,PRIMARY KEY ?,CONSTRAINT ? FOREIGN KEY ? REFERENCES ?? ON UPDATE  CASCADE," :
        String).data := by
    have hsplit : ("CREATE TABLE ? (? ?,PRIMARY KEY ?,CONSTRAINT ? FOREIGN KEY ? REFERENCES ?? ON UPDATE  CASCADE,)" :
        String).data =
        ("CREATE TABLE ? (? ?,PRIMARY KEY ?,CONSTRAINT ? FOREIGN KEY ? REFERENCES ?? ON UPDATE  CASCADE," :
          String).data ++ [')'] := rfl
    rw [hsplit, String.data_append] at hd
    exact (List.append_cancel_right hd).symm
  apply hne
  rw [hb]
  rfl

/-- C20, amended: when every name of `DBNames` has its field and the action
strings contain no `?` and do not end with a comma, `CreateTable` builds a
statement with as many `?` markers as values, whose template ends with `)` with
no comma directly before it; and `buildConstraint` alone returns four markers
and four values when the action strings contain no `?`. -/
theorem createTableCall_well_paired (env : Env) (cfg : Config) (lib : Library) (stmt : Stmt)
    (hcols : ∀ n ∈ (env.schema stmt.Schema).DBNames,
      ∃ f, (env.schema stmt.Schema).FieldsByDBName.lookup n = some f)
    (hact : ∀ c ∈ (env.schema stmt.Schema).Relations.filterMap
        (fun rel => rel.ParseConstraint),
      '?' ∉ c.OnDelete.data ∧ '?' ∉ c.OnUpdate.data ∧
        c.OnDelete.data.getLast? ≠ some ',' ∧ c.OnUpdate.data.getLast? ≠ some ',') :
    (∃ call : SQLCall, createTableCall env cfg lib stmt = .ok call ∧
      markers call.SQL = call.Vars.length ∧
      ∃ body : String, call.SQL = body ++ ")" ∧ body.data.getLast? ≠ some ',') ∧
    (∀ c : Constraint, '?' ∉ c.OnDelete.data → '?' ∉ c.OnUpdate.data →
      markers (buildConstraint env c).1 = 4 ∧ (buildConstraint env c).2.length = 4) := by
  refine ⟨?_, fun c hd hu => buildConstraint_paired env c hd hu⟩
  have hact' : ∀ rel ∈ (env.schema stmt.Schema).Relations, ∀ c,
      rel.ParseConstraint = some c →
      '?' ∉ c.OnDelete.data ∧ '?' ∉ c.OnUpdate.data ∧
        c.OnDelete.data.getLast? ≠ some ',' ∧ c.OnUpdate.data.getLast? ≠ some ',' :=
    fun rel hrel c hc => hact c (List.mem_filterMap.mpr ⟨rel, hrel, hc⟩)
  have hinit : Paired ⟨"CREATE TABLE ? (", [.Table stmt.Table], false⟩ := by
    show markers "CREATE TABLE ? (" = 1
    decide
  have hp0 := hinit.add
    (joinAll ((fieldsOf (env.schema stmt.Schema) (env.schema stmt.Schema).DBNames).map
      fun p => columnSegment p.2))
    ((fieldsOf (env.schema stmt.Schema) (env.schema stmt.Schema).DBNames).flatMap
      fun p => columnValues env p.1 p.2)
    (false || (fieldsOf (env.schema stmt.Schema) (env.schema stmt.Schema).DBNames).any
      fun p => Contains (lib.ToUpper p.2.DBDataType) "PRIMARY KEY")
    (markers_joinAll_columns env _)
  have he0 : (false || (fieldsOf (env.schema stmt.Schema) (env.schema stmt.Schema).DBNames).any
      fun p => Contains (lib.ToUpper p.2.DBDataType) "PRIMARY KEY") = true →
      EndsWell ("CREATE TABLE ? (" ++
        joinAll ((fieldsOf (env.schema stmt.Schema) (env.schema stmt.Schema).DBNames).map
          fun p => columnSegment p.2)) := by
    intro hany
    apply EndsWell_joinAll
    · intro hnil
      rw [List.map_eq_nil_iff] at hnil
      rw [hnil] at hany
      simp at hany
    · intro p hp
      obtain ⟨q, _, rfl⟩ := List.mem_map.mp hp
      exact EndsWell_columnSegment q.2
  obtain ⟨hp1, he1⟩ := addPrimaryKey_ok (env.schema stmt.Schema) _ hp0 he0
  obtain ⟨hp2, he2⟩ := addIndexes_ok cfg lib stmt (env.schema stmt.Schema).ParseIndexes _ hp1 he1
  obtain ⟨hp3, he3⟩ := addConstraints_ok env (env.schema stmt.Schema).Relations _ hact' hp2 he2
  obtain ⟨hp4, he4⟩ := addChecks_ok (env.schema stmt.Schema).ParseCheckConstraints _ hp3 he3
  obtain ⟨t4, ht4, hp4, he4⟩ : ∃ t4 : TableSQL,
      createTableCall env cfg lib stmt =
        .ok ⟨TrimSuffix t4.createTableSQL "," ++ ")", t4.values⟩ ∧
      Paired t4 ∧ EndsWell t4.createTableSQL :=
    ⟨_, by unfold createTableCall; simp only [addColumns_eq env lib _ _ _ hcols],
      hp4, he4⟩
  obtain ⟨x, hx, c, hc, hne⟩ := he4
  have hparen : markers ")" = 0 := by decide
  have hcomma : markers "," = 0 := by decide
  unfold Paired at hp4
  rw [hx, markers_append, hcomma] at hp4
  rw [hx, TrimSuffix_comma] at ht4
  refine ⟨_, ht4, ?_, x, rfl, ?_⟩
  · simp only [markers_append, hparen]
    exact hp4
  · rw [hc]
    exact fun h => hne (Option.some.inj h)

/-- C20, amended, at `Order` with the actions `SET NULL` and `CASCADE`: the
hypotheses hold and the statement is paired. -/
theorem createTableCall_well_paired_witness :
    createTableCall linkedEnv plainConfig plainLibrary ⟨0, "orders"⟩ =
      .ok ⟨"CREATE TABLE ? (? ?,PRIMARY KEY ?,CONSTRAINT ? FOREIGN KEY ? REFERENCES ?? ON DELETE SET NULL ON UPDATE  CASCADE)",
        [.Table "orders", .Column "id", .Expr "text", .List [.Column "id"],
          .Table "fk_orders_customer", .List [], .Table "customers", .List []]⟩ ∧
    ∃ call : SQLCall, createTableCall linkedEnv plainConfig plainLibrary ⟨0, "orders"⟩ =
        .ok call ∧
      markers call.SQL = call.Vars.length ∧
      ∃ body : String, call.SQL = body ++ ")" ∧ body.data.getLast? ≠ some ',' :=
  ⟨rfl, (createTableCall_well_paired linkedEnv plainConfig plainLibrary ⟨0, "orders"⟩
    (fun n hn => by
      have hid : n = "id" := List.mem_singleton.mp hn
      subst hid
      exact ⟨itemID, rfl⟩)
    (by decide)).1⟩

/-! ## What the code does where a claim fails -/

/-- The rule `CreateTable` follows for the primary key: the flag
`hasPrimaryKeyInDataType` is true exactly when the `DBDataType` of some column,
upper-cased, contains `PRIMARY KEY`; the data type the dialect gives is not
looked at. -/
theorem addColumns_primary_key_flag (env : Env) (lib : Library) (sch : Schema)
    (names : List String) (sql : String) (values : List Arg)
    (hcols : ∀ n ∈ names, ∃ f, sch.FieldsByDBName.lookup n = some f) :
    ∃ t : TableSQL, addColumns env lib sch names ⟨sql, values, false⟩ = .ok t ∧
      (t.hasPrimaryKeyInDataType = true ↔
        ∃ p ∈ fieldsOf sch names,
          Contains (lib.ToUpper p.2.DBDataType) "PRIMARY KEY" = true) := by
  refine ⟨_, addColumns_eq env lib sch names _ hcols, ?_⟩
  simp only [Bool.false_or, List.any_eq_true]

/-- With `CreateIndexAfterCreateTable` set the indexes add nothing to the
template. -/
theorem addIndexes_flag_set (cfg : Config) (lib : Library) (stmt : Stmt)
    (h : cfg.CreateIndexAfterCreateTable = true) :
    ∀ (indexes : List Index) (t : TableSQL), addIndexes cfg lib stmt indexes t = t := by
  intro indexes
  induction indexes with
  | nil => intro t; rfl
  | cons idx rest ih =>
    intro t
    simp only [addIndexes, h, if_true]
    exact ih t

/-- With `CreateIndexAfterCreateTable` off each index adds one `INDEX ? ?,`
segment with its name and its options. -/
theorem addIndexes_flag_off (cfg : Config) (lib : Library) (stmt : Stmt)
    (h : cfg.CreateIndexAfterCreateTable = false) :
    ∀ (indexes : List Index) (t : TableSQL),
      addIndexes cfg lib stmt indexes t =
        { t with
          createTableSQL := t.createTableSQL ++ joinAll (indexes.map fun _ => "INDEX ? ?,")
          values := t.values ++ indexes.flatMap fun idx =>
            [.Expr idx.Name, .List (BuildIndexOptions lib idx.Fields stmt)] } := by
  intro indexes
  induction indexes with
  | nil => intro t; simp [addIndexes, joinAll]
  | cons idx rest ih =>
    intro t
    simp only [addIndexes, h, Bool.false_eq_true, if_false, ih, List.map_cons, joinAll,
      List.flatMap_cons, String.append_assoc, List.append_assoc]

/-- The loop over the models ends at the first error. -/
theorem createTables_stops (one : List SQLCall → Value → Outcome) (log log1 : List SQLCall)
    (value : Value) (rest : List Value) (e : Error) (h : one log value = .ok (log1, some e)) :
    createTables one (value :: rest) log = .ok (log1, some e) := by
  simp only [createTables, h]

/-- The diff step of a model without relationships never reaches its check
constraints: once the columns are present it executes nothing. -/
theorem migrateValue_no_relationship (env : Env) (cfg : Config) (lib : Library) (fuel : Nat)
    (log : List SQLCall) (value : Value) (stmt : Stmt)
    (hparse : env.Parse value = .ok stmt)
    (hrel : (env.schema stmt.Schema).Relations = [])
    (hcols : ∀ p ∈ (env.schema stmt.Schema).FieldsByDBName,
      HasColumn env log value p.2.DBName = true) :
    migrateValue env cfg lib fuel log value = .ok (log, none) := by
  have hpresent := migrateColumns_present env value
    ((env.schema stmt.Schema).FieldsByDBName.map fun p => p.2) log (by
      intro g hg
      obtain ⟨p, hp, rfl⟩ := List.mem_map.mp hg
      exact hcols p hp)
  simp only [migrateValue, hparse, hpresent, hrel, migrateRelations, List.reverse_nil,
    runDeferred]

/-! ## Claims on `Limit.Build` -/

/-- The digit character of a number below ten is a digit with that value. -/
theorem digitChar_decimal (k : Nat) (hk : k < 10) :
    (Nat.digitChar k).isDigit = true ∧ digitValue (Nat.digitChar k) = k ∧
      (0 < k → Nat.digitChar k ≠ '0') := by
  interval_cases k <;> decide

/-- The number denoted after one more digit. -/
theorem decimalValue_snoc (ds : List Char) (d : Char) :
    decimalValue (ds ++ [d]) = 10 * decimalValue ds + digitValue d := by
  simp [decimalValue, List.foldl_append]

/-- The digit loop of the standard library, given enough fuel, puts before the
accumulator the decimal digits of `n`: a non-empty list of digits that denotes
`n` and that, for a positive `n`, does not start with a zero. -/
theorem toDigitsCore_decimal : ∀ (fuel n : Nat) (acc : List Char), n < fuel →
    ∃ ds : List Char, Nat.toDigitsCore 10 fuel n acc = ds ++ acc ∧ ds ≠ [] ∧
      (∀ c ∈ ds, c.isDigit = true) ∧ decimalValue ds = n ∧
      (0 < n → ds.head? ≠ some '0') := by
  intro fuel
  induction fuel with
  | zero => intro n acc h; exact absurd h (Nat.not_lt_zero n)
  | succ fuel ih =>
    intro n acc hn
    have hmod : n % 10 < 10 := Nat.mod_lt n (by decide)
    obtain ⟨hdig, hval, hnz⟩ := digitChar_decimal (n % 10) hmod
    rw [Nat.toDigitsCore]
    by_cases hq : n / 10 = 0
    · have hlt : n < 10 := by omega
      have hmodn : n % 10 = n := Nat.mod_eq_of_lt hlt
      refine ⟨[Nat.digitChar (n % 10)], by simp [hq], by simp, ?_, ?_, ?_⟩
      · intro c hc
        rw [List.mem_singleton.mp hc]
        exact hdig
      · rw [hmodn] at hval ⊢
        simp [decimalValue, hval]
      · intro hpos
        have hne := hnz (by omega)
        simpa using hne
    · have hlt : n / 10 < fuel := by omega
      obtain ⟨ds, hrun, hne, hall, hden, hhead⟩ :=
        ih (n / 10) (Nat.digitChar (n % 10) :: acc) hlt
      refine ⟨ds ++ [Nat.digitChar (n % 10)], by simp [hq, hrun], by simp, ?_, ?_, ?_⟩
      · intro c hc
        rcases List.mem_append.mp hc with h | h
        · exact hall c h
        · rw [List.mem_singleton.mp h]
          exact hdig
      · rw [decimalValue_snoc, hden, hval]
        omega
      · intro _
        have hfirst := hhead (Nat.pos_of_ne_zero hq)
        cases ds with
        | nil => exact absurd rfl hne
        | cons d rest => simpa using hfirst

/-- On a positive number `Itoa` gives its decimal numeral. -/
theorem Itoa_decimal (n : Int) (h : 0 < n) : IsDecimal (Itoa n) n := by
  cases n with
  | negSucc m => exact absurd h (by simp [Int.negSucc_lt_zero])
  | ofNat m =>
    have hm : 0 < m := Int.ofNat_lt.mp h
    obtain ⟨ds, hrun, hne, hall, hden, hhead⟩ := toDigitsCore_decimal (m + 1) m [] (by omega)
    have hdata : (Itoa (Int.ofNat m)).data = ds := by
      show (Nat.toDigits 10 m).asString.data = ds
      simp only [List.asString, Nat.toDigits, hrun, List.append_nil]
    unfold IsDecimal
    rw [hdata]
    exact ⟨hne, hall, hhead hm, by simp [hden]⟩

/-- C21: for every `Limit` value and every builder, `Limit.Build` with a
positive `Limit` writes `LIMIT ` and then the decimal numeral of `Limit`; it
goes on to write ` OFFSET ` and the decimal numeral of `Offset` when `Offset`
is positive too, and writes no more when it is not; with `Limit` at most zero
it makes no call on the builder at all, whatever the `Offset`. -/
theorem Limit_Build_renders (limit : Limit) (builder : Builder) :
    (0 < limit.Limit →
      IsDecimal (Itoa limit.Limit) limit.Limit ∧
      (0 < limit.Offset →
        IsDecimal (Itoa limit.Offset) limit.Offset ∧
        limit.Build builder =
          builder ++ [.Write ["LIMIT "], .Write [Itoa limit.Limit],
            .Write [" OFFSET "], .Write [Itoa limit.Offset]]) ∧
      (limit.Offset ≤ 0 →
        limit.Build builder =
          builder ++ [.Write ["LIMIT "], .Write [Itoa limit.Limit]])) ∧
    (limit.Limit ≤ 0 → limit.Build builder = builder) := by
  refine ⟨fun hl => ⟨Itoa_decimal _ hl, fun ho => ⟨Itoa_decimal _ ho, ?_⟩, fun ho => ?_⟩,
    fun hl => ?_⟩
  · simp [Limit.Build, hl, ho]
  · have hno : ¬ limit.Offset > 0 := not_lt.mpr ho
    simp [Limit.Build, hl, hno]
  · have hno : ¬ limit.Limit > 0 := not_lt.mpr hl
    simp [Limit.Build, hno]

/-- C21 at `Limit{10, 5}`, `Limit{10, 0}`, `Limit{10, -3}`, `Limit{0, 5}` and
`Limit{-1, 5}` on an empty builder: the numerals written are `10` and `5`, and
the last two values write nothing. -/
theorem Limit_Build_renders_witness :
    ((⟨10, 5⟩ : Limit).Build [] =
        [.Write ["LIMIT "], .Write ["10"], .Write [" OFFSET "], .Write ["5"]]) ∧
    ((⟨10, 0⟩ : Limit).Build [] = [.Write ["LIMIT "], .Write ["10"]]) ∧
    ((⟨10, -3⟩ : Limit).Build [] = [.Write ["LIMIT "], .Write ["10"]]) ∧
    ((⟨0, 5⟩ : Limit).Build [] = []) ∧
    ((⟨-1, 5⟩ : Limit).Build [] = []) ∧
    IsDecimal "10" 10 ∧ IsDecimal "5" 5 :=
  ⟨((Limit_Build_renders ⟨10, 5⟩ []).1 (by decide)).2.1 (by decide) |>.2,
    ((Limit_Build_renders ⟨10, 0⟩ []).1 (by decide)).2.2 (by decide),
    ((Limit_Build_renders ⟨10, -3⟩ []).1 (by decide)).2.2 (by decide),
    (Limit_Build_renders ⟨0, 5⟩ []).2 (by decide),
    (Limit_Build_renders ⟨-1, 5⟩ []).2 (by decide),
    ((Limit_Build_renders ⟨10, 5⟩ []).1 (by decide)).1,
    (((Limit_Build_renders ⟨10, 5⟩ []).1 (by decide)).2.1 (by decide)).1⟩

/-! ## Claims that fail as stated: the counterexamples -/

theorem noColumnAdded_same (log : List SQLCall) : NoColumnAdded log log :=
  ⟨[], by simp, by simp⟩

theorem noColumnAdded_chain {a b c : List SQLCall} (h1 : NoColumnAdded a b)
    (h2 : NoColumnAdded b c) : NoColumnAdded a c := by
  obtain ⟨r1, e1, n1⟩ := h1
  obtain ⟨r2, e2, n2⟩ := h2
  refine ⟨r1 ++ r2, by rw [e2, e1, List.append_assoc], ?_⟩
  intro x hx
  rcases List.mem_append.mp hx with h | h
  · exact n1 x h
  · exact n2 x h

theorem noColumnAdded_exec (env : Env) (log : List SQLCall) (call : SQLCall)
    (h : call.SQL ≠ "ALTER TABLE ? ADD ? ?") : NoColumnAdded log (Exec env log call).1 :=
  ⟨[call], rfl, fun c hc => by rw [List.mem_singleton.mp hc]; exact h⟩

/-- A template that starts with `CREATE ` is not that of `AddColumn`. -/
theorem create_ne_addColumn (s : String) : "CREATE " ++ s ≠ "ALTER TABLE ? ADD ? ?" := by
  intro h
  have h1 : ("CREATE " ++ s).data.head? = some 'C' := by
    rw [String.data_append]
    rfl
  rw [h] at h1
  exact absurd h1 (by decide)

/-- A template that ends with `)` is not that of `AddColumn`. -/
theorem paren_ne_addColumn (s : String) : s ++ ")" ≠ "ALTER TABLE ? ADD ? ?" := by
  intro h
  have h1 : (s ++ ")").data.getLast? = some ')' := by
    rw [String.data_append]
    simp
  rw [h] at h1
  exact absurd h1 (by decide)

/-- A template that adds a constraint is not that of `AddColumn`. -/
theorem constraint_ne_addColumn (s : String) :
    "ALTER TABLE ? ADD " ++ ("CONSTRAINT ? FOREIGN KEY ? REFERENCES ??" ++ s) ≠
      "ALTER TABLE ? ADD ? ?" := by
  intro h
  have h1 : ("ALTER TABLE ? ADD " ++
      ("CONSTRAINT ? FOREIGN KEY ? REFERENCES ??" ++ s)).data[18]? = some 'C' := by
    rw [String.data_append, String.data_append]
    rfl
  rw [h] at h1
  exact absurd h1 (by decide)

theorem createIndexCall_sql (lib : Library) (stmt : Stmt) (idx : Index) :
    (createIndexCall lib stmt idx).SQL ≠ "ALTER TABLE ? ADD ? ?" := by
  have hs : ∃ s, (createIndexCall lib stmt idx).SQL = "CREATE " ++ s := by
    unfold createIndexCall
    by_cases h1 : idx.Class = "" <;> by_cases h2 : idx.Comment = "" <;>
      by_cases h3 : idx.Type_ = "" <;>
      simp only [h1, h2, h3, ne_eq, not_true_eq_false, not_false_eq_true, if_true, if_false,
        String.append_assoc] <;>
      exact ⟨_, rfl⟩
  obtain ⟨s, hs⟩ := hs
  rw [hs]
  exact create_ne_addColumn s

theorem buildConstraint_sql (env : Env) (c : Constraint) :
    ∃ s, (buildConstraint env c).1 = "CONSTRAINT ? FOREIGN KEY ? REFERENCES ??" ++ s := by
  unfold buildConstraint
  by_cases h1 : c.OnDelete = "" <;> by_cases h2 : c.OnUpdate = "" <;>
    simp only [h1, h2, ne_eq, not_true_eq_false, not_false_eq_true, if_true, if_false,
      String.append_assoc]
  · exact ⟨"", by simp⟩
  all_goals exact ⟨_, rfl⟩

theorem createTableCall_sql (env : Env) (cfg : Config) (lib : Library) (stmt : Stmt)
    (call : SQLCall) (h : createTableCall env cfg lib stmt = .ok call) :
    call.SQL ≠ "ALTER TABLE ? ADD ? ?" := by
  unfold createTableCall at h
  simp only at h
  split at h
  · exact absurd h (by simp)
  · simp only [Except.ok.injEq] at h
    rw [← h]
    exact paren_ne_addColumn _

theorem createEach_noColumnAdded (create : List SQLCall → String → Outcome)
    (hcreate : ∀ l n out err, create l n = .ok (out, err) → NoColumnAdded l out) :
    ∀ (names : List String) (log : List SQLCall) (err0 : Option Error)
      (out : List SQLCall) (err : Option Error),
      createEach create names log err0 = .ok (out, err) → NoColumnAdded log out := by
  intro names
  induction names with
  | nil =>
    intro log err0 out err h
    simp only [createEach, Except.ok.injEq, Prod.mk.injEq] at h
    rw [← h.1]
    exact noColumnAdded_same _
  | cons n rest ih =>
    intro log err0 out err h
    unfold createEach at h
    split at h
    · exact absurd h (by simp)
    · rename_i log1 e hc
      simp only [Except.ok.injEq, Prod.mk.injEq] at h
      rw [← h.1]
      exact hcreate _ _ _ _ hc
    · rename_i log1 hc
      exact noColumnAdded_chain (hcreate _ _ _ _ hc) (ih _ _ _ _ h)

theorem CreateIndex_noColumnAdded (env : Env) (lib : Library) :
    ∀ (fuel : Nat) (log : List SQLCall) (value : Value) (name : String)
      (out : List SQLCall) (err : Option Error),
      CreateIndex env lib fuel log value name = .ok (out, err) → NoColumnAdded log out := by
  intro fuel
  induction fuel with
  | zero =>
    intro log value name out err h
    exact absurd h (by simp [CreateIndex])
  | succ fuel ih =>
    intro log value name out err h
    unfold CreateIndex at h
    split at h
    · simp only [Except.ok.injEq, Prod.mk.injEq] at h
      rw [← h.1]
      exact noColumnAdded_same _
    · rename_i stmt hp
      simp only at h
      split at h
      · rename_i idx hfind
        simp only [Except.ok.injEq] at h
        have := noColumnAdded_exec env log (createIndexCall lib stmt idx)
          (createIndexCall_sql lib stmt idx)
        rw [h] at this
        exact this
      · split at h
        · exact createEach_noColumnAdded _ (fun l n o e hc => ih l value n o e hc) _ _ _ _ _ h
        · simp only [Except.ok.injEq, Prod.mk.injEq] at h
          rw [← h.1]
          exact noColumnAdded_same _

theorem CreateConstraint_noColumnAdded (env : Env) (lib : Library) (fuel : Nat)
    (log : List SQLCall) (value : Value) (name : String) (out : List SQLCall)
    (err : Option Error) (h : CreateConstraint env lib fuel log value name = .ok (out, err)) :
    NoColumnAdded log out := by
  unfold CreateConstraint at h
  split at h
  · simp only [Except.ok.injEq, Prod.mk.injEq] at h
    rw [← h.1]
    exact noColumnAdded_same _
  · rename_i stmt hp
    simp only at h
    split at h
    · rename_i chk hfind
      simp only [Except.ok.injEq] at h
      have := noColumnAdded_exec env log
        ⟨"ALTER TABLE ? ADD CONSTRAINT ? CHECK ?",
          [.Table stmt.Table, .Column chk.Name, .Expr chk.Constraint]⟩
        (show "ALTER TABLE ? ADD CONSTRAINT ? CHECK ?" ≠ "ALTER TABLE ? ADD ? ?" by decide)
      rw [h] at this
      exact this
    · split at h
      · rename_i constraint hfind
        simp only [Except.ok.injEq] at h
        obtain ⟨s, hs⟩ := buildConstraint_sql env constraint
        have := noColumnAdded_exec env log
          ⟨"ALTER TABLE ? ADD " ++ (buildConstraint env constraint).1,
            .Table stmt.Table :: (buildConstraint env constraint).2⟩
          (by rw [hs]; exact constraint_ne_addColumn s)
        rw [h] at this
        exact this
      · split at h
        · exact createEach_noColumnAdded _
            (fun l n o e hc => CreateIndex_noColumnAdded env lib fuel l value n o e hc)
            _ _ _ _ _ h
        · simp only [Except.ok.injEq, Prod.mk.injEq] at h
          rw [← h.1]
          exact noColumnAdded_same _

theorem migrateChecks_noColumnAdded (env : Env) (lib : Library) (fuel : Nat) (value : Value) :
    ∀ (checks : List Check) (log out : List SQLCall) (err : Option Error),
      migrateChecks env lib fuel value checks log = .ok (out, err) →
        NoColumnAdded log out := by
  intro checks
  induction checks with
  | nil =>
    intro log out err h
    simp only [migrateChecks, Except.ok.injEq, Prod.mk.injEq] at h
    rw [← h.1]
    exact noColumnAdded_same _
  | cons chk rest ih =>
    intro log out err h
    unfold migrateChecks at h
    split at h
    · split at h
      · exact absurd h (by simp)
      · rename_i log1 e hc
        simp only [Except.ok.injEq, Prod.mk.injEq] at h
        rw [← h.1]
        exact CreateConstraint_noColumnAdded env lib fuel log value _ _ _ hc
      · rename_i log1 hc
        exact noColumnAdded_chain
          (CreateConstraint_noColumnAdded env lib fuel log value _ _ _ hc) (ih _ _ _ h)
    · exact ih _ _ _ h

theorem migrateConstraint_noColumnAdded (env : Env) (lib : Library) (fuel : Nat)
    (value : Value) (rel : Relationship) (log out : List SQLCall) (err : Option Error)
    (h : migrateConstraint env lib fuel value rel log = .ok (out, err)) :
    NoColumnAdded log out := by
  unfold migrateConstraint at h
  split at h
  · split at h
    · exact CreateConstraint_noColumnAdded env lib fuel log value _ _ _ h
    · simp only [Except.ok.injEq, Prod.mk.injEq] at h
      rw [← h.1]
      exact noColumnAdded_same _
  · simp only [Except.ok.injEq, Prod.mk.injEq] at h
    rw [← h.1]
    exact noColumnAdded_same _

theorem migrateRelations_noColumnAdded (env : Env) (lib : Library) (fuel : Nat)
    (value : Value) (checks : List Check) :
    ∀ (rels : List Relationship) (log : List SQLCall) (deferred : List Value)
      (out : List SQLCall) (err : Option Error) (left : List Value),
      migrateRelations env lib fuel value checks rels log deferred = .ok (out, err, left) →
        NoColumnAdded log out := by
  intro rels
  induction rels with
  | nil =>
    intro log deferred out err left h
    simp only [migrateRelations, Except.ok.injEq, Prod.mk.injEq] at h
    rw [← h.1]
    exact noColumnAdded_same _
  | cons rel rest ih =>
    intro log deferred out err left h
    unfold migrateRelations at h
    split at h
    · exact absurd h (by simp)
    · rename_i log1 e hc
      simp only [Except.ok.injEq, Prod.mk.injEq] at h
      rw [← h.1]
      exact migrateConstraint_noColumnAdded env lib fuel value rel log _ _ hc
    · rename_i log1 hc
      have h1 := migrateConstraint_noColumnAdded env lib fuel value rel log _ _ hc
      split at h
      · exact absurd h (by simp)
      · rename_i log2 e hk
        simp only [Except.ok.injEq, Prod.mk.injEq] at h
        rw [← h.1]
        exact noColumnAdded_chain h1 (migrateChecks_noColumnAdded env lib fuel value _ _ _ _ hk)
      · rename_i log2 hk
        exact noColumnAdded_chain h1
          (noColumnAdded_chain (migrateChecks_noColumnAdded env lib fuel value _ _ _ _ hk)
            (ih _ _ _ _ _ h))

theorem createIndexes_noColumnAdded (env : Env) (lib : Library) (fuel : Nat) (value : Value) :
    ∀ (indexes : List Index) (log out : List SQLCall),
      createIndexes env lib fuel value indexes log = .ok out → NoColumnAdded log out := by
  intro indexes
  induction indexes with
  | nil =>
    intro log out h
    simp only [createIndexes, Except.ok.injEq] at h
    rw [← h]
    exact noColumnAdded_same _
  | cons idx rest ih =>
    intro log out h
    unfold createIndexes at h
    split at h
    · exact absurd h (by simp)
    · rename_i log1 e hc
      exact noColumnAdded_chain (CreateIndex_noColumnAdded env lib fuel log value _ _ _ hc)
        (ih _ _ h)

theorem runDeferred_noColumnAdded (create : List SQLCall → List Value → Outcome)
    (hcreate : ∀ l vs out err, create l vs = .ok (out, err) → NoColumnAdded l out) :
    ∀ (joinValues : List Value) (log out : List SQLCall),
      runDeferred create joinValues log = .ok out → NoColumnAdded log out := by
  intro joinValues
  induction joinValues with
  | nil =>
    intro log out h
    simp only [runDeferred, Except.ok.injEq] at h
    rw [← h]
    exact noColumnAdded_same _
  | cons v rest ih =>
    intro log out h
    unfold runDeferred at h
    split at h
    · exact absurd h (by simp)
    · rename_i log1 e hc
      exact noColumnAdded_chain (hcreate _ _ _ _ hc) (ih _ _ h)

theorem createTableOf_noColumnAdded (env : Env) (cfg : Config) (lib : Library) (fuel : Nat)
    (create : List SQLCall → List Value → Outcome)
    (hcreate : ∀ l vs out err, create l vs = .ok (out, err) → NoColumnAdded l out)
    (log : List SQLCall) (value : Value) (out : List SQLCall) (err : Option Error)
    (h : createTableOf env cfg lib fuel create log value = .ok (out, err)) :
    NoColumnAdded log out := by
  unfold createTableOf at h
  split at h
  · simp only [Except.ok.injEq, Prod.mk.injEq] at h
    rw [← h.1]
    exact noColumnAdded_same _
  · rename_i stmt hp
    split at h
    · exact absurd h (by simp)
    · rename_i call hcall
      simp only at h
      split at h
      · exact absurd h (by simp)
      · rename_i log1 hidx
        split at h
        · exact absurd h (by simp)
        · rename_i log2 hdef
          simp only [Except.ok.injEq, Prod.mk.injEq] at h
          rw [← h.1]
          exact noColumnAdded_chain (createIndexes_noColumnAdded env lib fuel value _ _ _ hidx)
            (noColumnAdded_chain
              (noColumnAdded_exec env log1 call (createTableCall_sql env cfg lib stmt call hcall))
              (runDeferred_noColumnAdded create hcreate _ _ _ hdef))

theorem createTables_noColumnAdded (one : List SQLCall → Value → Outcome)
    (hone : ∀ l v out err, one l v = .ok (out, err) → NoColumnAdded l out) :
    ∀ (values : List Value) (log out : List SQLCall) (err : Option Error),
      createTables one values log = .ok (out, err) → NoColumnAdded log out := by
  intro values
  induction values with
  | nil =>
    intro log out err h
    simp only [createTables, Except.ok.injEq, Prod.mk.injEq] at h
    rw [← h.1]
    exact noColumnAdded_same _
  | cons v rest ih =>
    intro log out err h
    unfold createTables at h
    split at h
    · exact absurd h (by simp)
    · rename_i log1 e hc
      simp only [Except.ok.injEq, Prod.mk.injEq] at h
      rw [← h.1]
      exact hone _ _ _ _ hc
    · rename_i log1 hc
      exact noColumnAdded_chain (hone _ _ _ _ hc) (ih _ _ _ h)

/-- No statement of `CreateTable` is an `ADD COLUMN`. -/
theorem CreateTable_noColumnAdded (env : Env) (cfg : Config) (lib : Library) :
    ∀ (fuel : Nat) (log : List SQLCall) (values : List Value) (out : List SQLCall)
      (err : Option Error),
      CreateTable env cfg lib fuel log values = .ok (out, err) → NoColumnAdded log out := by
  intro fuel
  induction fuel with
  | zero =>
    intro log values out err h
    exact absurd h (by simp [CreateTable])
  | succ fuel ih =>
    intro log values out err h
    unfold CreateTable at h
    split at h
    · exact absurd h (by simp)
    · exact createTables_noColumnAdded _
        (fun l v o e hc => createTableOf_noColumnAdded env cfg lib (fuel + 1) _
          (fun l' vs o' e' hc' => ih l' vs o' e' hc') l v o e hc) _ _ _ _ h

/-! ## Claims on the column loop of `AutoMigrate` -/

/-- On a parsed value whose declared columns resolve, the column loop hands to
the driver the `ADD COLUMN` of each column whose probe is false, in the order
walked, until one fails. -/
theorem migrateColumns_until_failure (env : Env) (value : Value) (stmt : Stmt)
    (hparse : env.Parse value = .ok stmt) :
    ∀ (fields : List Field) (log : List SQLCall),
      (∀ f ∈ fields, (env.schema stmt.Schema).LookUpField f.DBName = some f) →
      migrateColumns env value fields log =
        execUntilFailure env (missingColumns env value stmt fields log) log := by
  intro fields
  induction fields with
  | nil => intro log _; rfl
  | cons f rest ih =>
    intro log hres
    have hrest : ∀ g ∈ rest, (env.schema stmt.Schema).LookUpField g.DBName = some g :=
      fun g hg => hres g (List.mem_cons_of_mem f hg)
    cases hprobe : HasColumn env log value f.DBName with
    | true =>
      simp only [migrateColumns, missingColumns, hprobe, Bool.not_true, Bool.false_eq_true,
        if_false, if_true]
      exact ih log hrest
    | false =>
      simp only [migrateColumns, missingColumns, hprobe, Bool.not_false, if_true,
        Bool.false_eq_true, if_false, execUntilFailure,
        AddColumn_resolved env log value stmt f.DBName f hparse
          (hres f (List.mem_cons_self f rest))]
      cases env.Exec log (addColumnCall env stmt f) with
      | some e => rfl
      | none => exact ih _ hrest

/-- With exactly one declared column missing the specification's list of
additions is the one `ADD COLUMN` of that column. -/
theorem missingColumns_single (env : Env) (value : Value) (stmt : Stmt) :
    ∀ (before after : List Field) (f : Field) (log : List SQLCall),
      (∀ g ∈ before, HasColumn env log value g.DBName = true) →
      HasColumn env log value f.DBName = false →
      (∀ g ∈ after,
        HasColumn env (log ++ [addColumnCall env stmt f]) value g.DBName = true) →
      missingColumns env value stmt (before ++ f :: after) log = [addColumnCall env stmt f] := by
  have present : ∀ (fields : List Field) (log : List SQLCall),
      (∀ g ∈ fields, HasColumn env log value g.DBName = true) →
      missingColumns env value stmt fields log = [] := by
    intro fields
    induction fields with
    | nil => intro log _; rfl
    | cons g rest ih =>
      intro log h
      simp only [missingColumns, h g (List.mem_cons_self g rest), if_true]
      exact ih log fun g' hg' => h g' (List.mem_cons_of_mem g hg')
  intro before
  induction before with
  | nil =>
    intro after f log _ hmiss hafter
    simp only [List.nil_append, missingColumns, hmiss, Bool.false_eq_true, if_false,
      present after _ hafter]
  | cons g rest ih =>
    intro after f log hbefore hmiss hafter
    simp only [List.cons_append, missingColumns, hbefore g (List.mem_cons_self g rest), if_true]
    exact ih after f log (fun g' hg' => hbefore g' (List.mem_cons_of_mem g hg')) hmiss hafter

/-- C13 fails as stated: the table of `Item` exists, both declared columns are
missing, and the driver fails the first `ADD COLUMN`; `AutoMigrate` returns its
error and issues no `ADD COLUMN` for `name`, whose probe is false. -/
theorem AutoMigrate_stops_adding_columns :
    HasTable bareItemEnv [] itemValue = true ∧
    HasColumn bareItemEnv [] itemValue "id" = false ∧
    HasColumn bareItemEnv [] itemValue "name" = false ∧
    AutoMigrate bareItemEnv plainConfig plainLibrary 1 [] [itemValue] =
      .ok ([⟨"ALTER TABLE ? ADD ? ?", [.Table "items", .Column "id", .Expr "int"]⟩],
        some "add failed") ∧
    HasColumn bareItemEnv
      [⟨"ALTER TABLE ? ADD ? ?", [.Table "items", .Column "id", .Expr "int"]⟩]
      itemValue "name" = false ∧
    ¬ ∃ (log : List SQLCall) (err : Option Error),
      AutoMigrate bareItemEnv plainConfig plainLibrary 1 [] [itemValue] = .ok (log, err) ∧
        ∃ c ∈ log, c.Vars = [.Table "items", .Column "name", .Expr "varchar"] := by
  refine ⟨rfl, rfl, rfl, rfl, rfl, ?_⟩
  rintro ⟨log, err, h, c, hc, hvars⟩
  have hrun : AutoMigrate bareItemEnv plainConfig plainLibrary 1 [] [itemValue] =
      .ok ([⟨"ALTER TABLE ? ADD ? ?", [.Table "items", .Column "id", .Expr "int"]⟩],
        some "add failed") := rfl
  rw [hrun] at h
  simp only [Except.ok.injEq, Prod.mk.injEq] at h
  rw [← h.1] at hc
  rw [List.mem_singleton.mp hc] at hvars
  simp at hvars

/-- C13, amended: for a parsed model whose table exists and whose declared
columns resolve, the diff step of `AutoMigrate` walks `FieldsByDBName` and issues
one `ADD COLUMN` for each declared column whose `HasColumn` probe is false and
none for a column that is present, until an `ADD COLUMN` fails: the failing
statement is the last one issued and the step returns its error. This is what
the column loop of the step leaves, whatever follows it. When none
fails, all of them are issued and the rest of the step issues no `ADD COLUMN`;
for a model without relationships the step and `AutoMigrate` then return nil
with exactly these statements. With exactly one declared column missing
exactly one `ADD COLUMN` is issued, that of the missing column. -/
theorem AutoMigrate_adds_missing_columns (env : Env) (cfg : Config) (lib : Library)
    (fuel : Nat) (log : List SQLCall) (value : Value) (stmt : Stmt)
    (hparse : env.Parse value = .ok stmt)
    (htable : HasTable env log value = true)
    (hwf : ∀ p ∈ (env.schema stmt.Schema).FieldsByDBName,
      (env.schema stmt.Schema).LookUpField p.2.DBName = some p.2) :
    ∃ (issued : List SQLCall) (err : Option Error) (k : Nat),
      migrateColumns env value ((env.schema stmt.Schema).FieldsByDBName.map fun p => p.2) log =
        (log ++ issued, err) ∧
      (log ++ issued, err) =
        execUntilFailure env (missingColumns env value stmt
          ((env.schema stmt.Schema).FieldsByDBName.map fun p => p.2) log) log ∧
      issued = (missingColumns env value stmt
        ((env.schema stmt.Schema).FieldsByDBName.map fun p => p.2) log).take k ∧
      (err = none → issued = missingColumns env value stmt
        ((env.schema stmt.Schema).FieldsByDBName.map fun p => p.2) log) ∧
      (∀ i, i + 1 < k → ∀ c, issued[i]? = some c →
        env.Exec (log ++ issued.take i) c = none) ∧
      (∀ e, err = some e →
        (∃ i c, k = i + 1 ∧ issued[i]? = some c ∧ issued.length = i + 1 ∧
          env.Exec (log ++ issued.take i) c = some e) ∧
        autoMigrateOne env cfg lib fuel log value = .ok (log ++ issued, some e)) ∧
      (err = none → ∀ out err', autoMigrateOne env cfg lib fuel log value = .ok (out, err') →
        NoColumnAdded (log ++ issued) out) ∧
      (err = none → (env.schema stmt.Schema).Relations = [] →
        autoMigrateOne env cfg lib fuel log value = .ok (log ++ issued, none) ∧
        AutoMigrate env cfg lib (fuel + 1) log [value] = .ok (log ++ issued, none)) ∧
      (∀ (before after : List Field) (f : Field),
        ((env.schema stmt.Schema).FieldsByDBName.map fun p => p.2) = before ++ f :: after →
        (∀ g ∈ before, HasColumn env log value g.DBName = true) →
        HasColumn env log value f.DBName = false →
        (∀ g ∈ after,
          HasColumn env (log ++ [addColumnCall env stmt f]) value g.DBName = true) →
        issued = [addColumnCall env stmt f] ∧ err = env.Exec log (addColumnCall env stmt f)) := by
  have hres : ∀ f ∈ (env.schema stmt.Schema).FieldsByDBName.map (fun p => p.2),
      (env.schema stmt.Schema).LookUpField f.DBName = some f := by
    intro f hf
    obtain ⟨p, hp, rfl⟩ := List.mem_map.mp hf
    exact hwf p hp
  have hcol := migrateColumns_until_failure env value stmt hparse _ log hres
  obtain ⟨k, hk, hlog, hall, hbefore, hfail⟩ := execUntilFailure_log env
    (missingColumns env value stmt
      ((env.schema stmt.Schema).FieldsByDBName.map fun p => p.2) log) log
  generalize hadds : missingColumns env value stmt
    ((env.schema stmt.Schema).FieldsByDBName.map fun p => p.2) log = adds at *
  generalize hrun : execUntilFailure env adds log = run at *
  obtain ⟨log1, err⟩ := run
  simp only at hlog hall hfail
  subst hlog
  have hstep : ∀ fuel', autoMigrateOne env cfg lib fuel' log value =
      migrateValue env cfg lib fuel' log value := by
    intro fuel'
    simp only [autoMigrateOne, htable, Bool.not_true, Bool.false_eq_true, if_false]
  have hfront : ∀ i, i < k → (adds.take k).take i = adds.take i := by
    intro i hi
    rw [List.take_take, Nat.min_eq_left (le_of_lt hi)]
  refine ⟨adds.take k, err, k, hcol, rfl, rfl, ?_, ?_, ?_, ?_, ?_, ?_⟩
  · intro hnone
    rw [hall hnone, List.take_length]
  · intro i hi c hc
    rw [List.getElem?_take_of_lt (by omega)] at hc
    rw [hfront i (by omega)]
    exact hbefore i hi c hc
  · intro e he
    obtain ⟨i, c, hki, hc, hex⟩ := hfail e he
    refine ⟨⟨i, c, hki, ?_, ?_, ?_⟩, ?_⟩
    · rw [List.getElem?_take_of_lt (by omega)]
      exact hc
    · rw [List.length_take, Nat.min_eq_left hk, hki]
    · rw [hfront i (by omega)]
      exact hex
    · rw [hstep]
      simp only [migrateValue, hparse, hadds, hcol, he]
  · intro hnone out err' hout
    rw [hstep] at hout
    subst hnone
    simp only [migrateValue, hparse, hadds, hcol] at hout
    split at hout
    · exact absurd hout (by simp)
    · rename_i log2 err2 deferred hrel
      split at hout
      · exact absurd hout (by simp)
      · rename_i log3 hdef
        simp only [Except.ok.injEq, Prod.mk.injEq] at hout
        rw [← hout.1]
        exact noColumnAdded_chain
          (migrateRelations_noColumnAdded env lib fuel value _ _ _ _ _ _ _ hrel)
          (runDeferred_noColumnAdded _
            (fun l vs o e hc => CreateTable_noColumnAdded env cfg lib fuel l vs o e hc) _ _ _
            hdef)
  · intro hnone hrel
    subst hnone
    have hone : ∀ fuel', autoMigrateOne env cfg lib fuel' log value =
        .ok (log ++ adds.take k, none) := by
      intro fuel'
      rw [hstep]
      simp only [migrateValue, hparse, hadds, hcol, hrel, migrateRelations, List.reverse_nil,
        runDeferred]
    refine ⟨hone fuel, ?_⟩
    unfold AutoMigrate
    rw [ReorderModels_single env fuel value stmt true hparse hrel]
    exact createTables_single _ _ _ _ _ (hone (fuel + 1))
  · intro before after f hsplit hb hmiss ha
    rw [hsplit] at hadds
    rw [missingColumns_single env value stmt before after f log hb hmiss ha] at hadds
    subst hadds
    have hdirect : execUntilFailure env [addColumnCall env stmt f] log =
        (log ++ [addColumnCall env stmt f], env.Exec log (addColumnCall env stmt f)) := by
      simp only [execUntilFailure]
      cases env.Exec log (addColumnCall env stmt f) <;> rfl
    rw [hdirect] at hrun
    simp only [Prod.mk.injEq] at hrun
    exact ⟨(List.append_cancel_left hrun.1).symm, hrun.2.symm⟩

/-- C13, amended, at `Stock` with the columns `name` and `price` missing from an
existing table, and at `Item` with the one column `name` missing: `AutoMigrate`
issues the two `ADD COLUMN` statements in the first case and the one in the
second. -/
theorem AutoMigrate_adds_missing_columns_witness :
    stockEnv.Parse stockValue = .ok ⟨0, "stocks"⟩ ∧
    HasTable stockEnv [] stockValue = true ∧
    AutoMigrate stockEnv plainConfig plainLibrary 1 [] [stockValue] =
      .ok ([⟨"ALTER TABLE ? ADD ? ?", [.Table "stocks", .Column "name", .Expr "varchar"]⟩,
        ⟨"ALTER TABLE ? ADD ? ?", [.Table "stocks", .Column "price", .Expr "varchar"]⟩],
        none) ∧
    AutoMigrate staleItemEnv plainConfig plainLibrary 1 [] [itemValue] =
      .ok ([⟨"ALTER TABLE ? ADD ? ?", [.Table "items", .Column "name", .Expr "varchar"]⟩],
        none) := by
  obtain ⟨issued, err, k, _, hrun, _, _, _, _, _, hnil, _⟩ :=
    AutoMigrate_adds_missing_columns stockEnv plainConfig plainLibrary 0 [] stockValue
      ⟨0, "stocks"⟩ rfl rfl (by decide)
  obtain ⟨issued', err', k', _, hrun', _, _, _, _, _, hnil', hsingle⟩ :=
    AutoMigrate_adds_missing_columns staleItemEnv plainConfig plainLibrary 0 [] itemValue
      ⟨0, "items"⟩ rfl rfl (by decide)
  have hvalue : execUntilFailure stockEnv (missingColumns stockEnv stockValue ⟨0, "stocks"⟩
      ((stockEnv.schema 0).FieldsByDBName.map fun p => p.2) []) [] =
      ([⟨"ALTER TABLE ? ADD ? ?", [.Table "stocks", .Column "name", .Expr "varchar"]⟩,
        ⟨"ALTER TABLE ? ADD ? ?", [.Table "stocks", .Column "price", .Expr "varchar"]⟩],
        none) := rfl
  rw [hvalue] at hrun
  simp only [List.nil_append, Prod.mk.injEq] at hrun
  obtain ⟨hissued, herr⟩ := hrun
  obtain ⟨hone, herr'⟩ := hsingle [itemID] [] itemName rfl (by decide) rfl (by decide)
  have hnone : err' = none := herr'
  refine ⟨rfl, rfl, ?_, ?_⟩
  · have := (hnil herr rfl).2
    rw [hissued] at this
    exact this
  · have := (hnil' hnone rfl).2
    rw [hone] at this
    exact this

/-! ## Claims on `Clause.Build` -/

/-- C7 (the code at the failing input): `BeforeExpressions` is `base[:1]` and
`AfterNameExpressions` is `base[1:2]` of one array `[a, b]`. The slots are `a`,
the name `N` and `b`, but `Build` appends the name in place, over the cell of
`b`, and renders `a`, `N`, `N`; the after-name-expression `b` is not rendered
and the caller's array holds `N` in its place afterwards. -/
theorem Clause_Build_overwrites_shared_cell (rt : Runtime) :
    sharedClause.Builder = none ∧
    sharedClause.slots sharedHeap =
      [some (.expr "a"), some (.expr "N"), some (.expr "b")] ∧
    renderSpaced plainRenderers [.expr "a", .expr "N", .expr "b"] [] =
      [.Write ["a"], .WriteByte ' ', .Write ["N"], .WriteByte ' ', .Write ["b"]] ∧
    ∃ heap : Heap,
      sharedClause.Build plainRenderers rt sharedHeap [] =
        .ok (heap,
          [.Write ["a"], .WriteByte ' ', .Write ["N"], .WriteByte ' ', .Write ["N"]]) ∧
      elems heap sharedClause.AfterNameExpressions = [some (.expr "N")] := by
  refine ⟨rfl, rfl, rfl, ?_⟩
  have hfit : 3 ≤ max 3 (rt.growslice 2 3) := Nat.le_max_left _ _
  simp [Clause.Build, sharedClause, sharedHeap, append, store, elems, nilSlice,
    Clause.buildFrom, Expression.Build, plainRenderers, hfit]

/-! ## Slices and `append` -/

theorem getElem?_window {α : Type} (l : List α) (o n j : Nat) :
    ((l.drop o).take n)[j]? = if j < n then l[o + j]? else none := by
  by_cases h : j < n
  · simp [h, List.getElem?_take_of_lt, List.getElem?_drop]
  · simp only [h, if_false]
    apply List.getElem?_eq_none
    simp only [List.length_take, List.length_drop]
    omega

theorem getElem?_stored {α : Type} (arr xs : List α) (i : Nat)
    (h : i + xs.length ≤ arr.length) (j : Nat) :
    ((arr.take i ++ xs) ++ arr.drop (i + xs.length))[j]? =
      if j < i then arr[j]? else if j < i + xs.length then xs[j - i]? else arr[j]? := by
  have hlen : (arr.take i).length = i := by
    rw [List.length_take]
    omega
  by_cases h1 : j < i
  · simp only [h1, if_true]
    rw [List.getElem?_append_left (by simp only [List.length_append, hlen]; omega),
      List.getElem?_append_left (by omega), List.getElem?_take_of_lt h1]
  · simp only [h1, if_false]
    by_cases h2 : j < i + xs.length
    · simp only [h2, if_true]
      rw [List.getElem?_append_left (by simp only [List.length_append, hlen]; omega),
        List.getElem?_append_right (by omega), hlen]
    · simp only [h2, if_false]
      rw [List.getElem?_append_right (by simp only [List.length_append, hlen]; omega),
        List.getElem?_drop]
      simp only [List.length_append, hlen]
      congr 1
      omega

theorem length_stored {α : Type} (arr xs : List α) (i : Nat)
    (h : i + xs.length ≤ arr.length) :
    ((arr.take i ++ xs) ++ arr.drop (i + xs.length)).length = arr.length := by
  simp only [List.length_append, List.length_take, List.length_drop]
  omega

theorem window_stored_apart {α : Type} (arr xs : List α) (i o n : Nat)
    (h : i + xs.length ≤ arr.length) (hsep : n = 0 ∨ o + n ≤ i ∨ i + xs.length ≤ o) :
    (((arr.take i ++ xs) ++ arr.drop (i + xs.length)).drop o).take n = (arr.drop o).take n := by
  apply List.ext_getElem?
  intro j
  rw [getElem?_window, getElem?_window, getElem?_stored arr xs i h]
  by_cases hj : j < n
  · simp only [hj, if_true]
    rcases hsep with h0 | h1 | h2
    · omega
    · rw [if_pos (by omega)]
    · rw [if_neg (by omega), if_neg (by omega)]
  · simp only [hj, if_false]

theorem window_stored_grown {α : Type} (arr xs : List α) (o n : Nat)
    (h : o + n + xs.length ≤ arr.length) :
    (((arr.take (o + n) ++ xs) ++ arr.drop (o + n + xs.length)).drop o).take (n + xs.length) =
      (arr.drop o).take n ++ xs := by
  apply List.ext_getElem?
  intro j
  rw [getElem?_window, getElem?_stored arr xs (o + n) h]
  have hwl : ((arr.drop o).take n).length = n := by
    simp only [List.length_take, List.length_drop]
    omega
  by_cases h1 : j < n
  · rw [if_pos (by omega), if_pos (by omega),
      List.getElem?_append_left (by omega), getElem?_window, if_pos h1]
  · by_cases h2 : j < n + xs.length
    · rw [if_pos h2, if_neg (by omega), if_pos (by omega),
        List.getElem?_append_right (by omega), hwl]
      congr 1
      omega
    · rw [if_neg h2]
      symm
      apply List.getElem?_eq_none
      simp only [List.length_append, hwl]
      omega

theorem getD_set_same {α : Type} (heap : List (List α)) (a : Nat) (v : List α)
    (h : a < heap.length ∨ v = []) : (heap.set a v).getD a [] = v := by
  rw [List.getD_eq_getElem?_getD]
  rcases h with h | h
  · rw [List.getElem?_set_self (by simpa using h)]
    rfl
  · subst h
    by_cases ha : a < heap.length
    · rw [List.getElem?_set_self (by simpa using ha)]
      rfl
    · rw [List.getElem?_eq_none (by simp only [List.length_set]; omega)]
      rfl

theorem getD_set_other {α : Type} (heap : List (List α)) (a b : Nat) (v : List α)
    (h : b ≠ a) : (heap.set a v).getD b [] = heap.getD b [] := by
  rw [List.getD_eq_getElem?_getD, List.getD_eq_getElem?_getD,
    List.getElem?_set_ne (fun e => h e.symm)]

theorem getD_push_old {α : Type} (heap : List (List α)) (x : List α) (b : Nat)
    (h : b < heap.length) : (heap ++ [x]).getD b [] = heap.getD b [] := by
  rw [List.getD_eq_getElem?_getD, List.getD_eq_getElem?_getD, List.getElem?_append_left h]

theorem getD_push_new {α : Type} (heap : List (List α)) (x : List α) :
    (heap ++ [x]).getD heap.length [] = x := by
  rw [List.getD_eq_getElem?_getD, List.getElem?_append_right (le_refl _)]
  simp

theorem getD_length_pos {α : Type} (heap : List (List α)) (b : Nat)
    (h : 0 < (heap.getD b []).length) : b < heap.length := by
  by_contra hc
  rw [List.getD_eq_getElem?_getD, List.getElem?_eq_none (by omega)] at h
  simp at h

/-- The array a store has written to. -/
theorem store_getD_same (heap : Heap) (a i : Nat) (xs : List (Option Expression))
    (h : i + xs.length ≤ (heap.getD a []).length) :
    (store heap a i xs).getD a [] =
      ((heap.getD a []).take i ++ xs) ++ (heap.getD a []).drop (i + xs.length) := by
  unfold store
  apply getD_set_same
  by_cases ha : a < heap.length
  · exact Or.inl ha
  · right
    have hempty : heap.getD a [] = [] := by
      rw [List.getD_eq_getElem?_getD, List.getElem?_eq_none (by omega)]
      rfl
    rw [hempty] at h ⊢
    have hx : xs = [] := List.eq_nil_of_length_eq_zero (by
      simp only [List.length_nil] at h
      omega)
    simp [hx]

theorem length_elems (heap : Heap) (s : Slice)
    (h : s.off + s.len ≤ (heap.getD s.array []).length) : (elems heap s).length = s.len := by
  simp only [elems, List.length_take, List.length_drop]
  omega

/-- The elements of the slice `append` returns. -/
theorem append_elems (rt : Runtime) (heap : Heap) (s : Slice) (xs : List (Option Expression))
    (hs : WellFormed heap s) :
    elems (append rt heap s xs).1 (append rt heap s xs).2 = elems heap s ++ xs ∧
      WellFormed (append rt heap s xs).1 (append rt heap s xs).2 := by
  obtain ⟨hlen, hcap⟩ := hs
  unfold append
  by_cases hfit : s.len + xs.length ≤ s.cap
  · simp only [hfit, if_true]
    have hroom : s.off + s.len + xs.length ≤ (heap.getD s.array []).length := by omega
    have hsame := store_getD_same heap s.array (s.off + s.len) xs hroom
    constructor
    · simp only [elems, hsame]
      exact window_stored_grown _ xs s.off s.len hroom
    · refine ⟨hfit, ?_⟩
      simp only [hsame]
      rw [length_stored _ xs _ hroom]
      exact hcap
  · simp only [hfit, if_false]
    have hl : (elems heap s).length = s.len := length_elems heap s (by omega)
    constructor
    · simp only [elems, getD_push_new, List.drop_zero]
      rw [List.take_append_of_le_length (by simp [elems] at hl ⊢; omega)]
      apply List.take_of_length_le
      simp only [List.length_append]
      simp only [elems] at hl
      omega
    · refine ⟨Nat.le_max_left _ _, ?_⟩
      simp only [getD_push_new, List.length_append, List.length_replicate, hl, Nat.zero_add]
      have := Nat.le_max_left (s.len + xs.length) (rt.growslice s.cap (s.len + xs.length))
      omega

/-- A slice whose elements are no spare cells of `s` keeps its elements through
an `append` to `s`. -/
theorem append_keeps (rt : Runtime) (heap : Heap) (s t : Slice)
    (xs : List (Option Expression)) (hs : WellFormed heap s) (ht : InBounds heap t)
    (hsep : Apart s t) :
    elems (append rt heap s xs).1 t = elems heap t ∧
      InBounds (append rt heap s xs).1 t ∧ Apart (append rt heap s xs).2 t := by
  obtain ⟨hlen, hcap⟩ := hs
  unfold append
  by_cases hfit : s.len + xs.length ≤ s.cap
  · simp only [hfit, if_true]
    have hroom : s.off + s.len + xs.length ≤ (heap.getD s.array []).length := by omega
    have hsame := store_getD_same heap s.array (s.off + s.len) xs hroom
    by_cases ha : t.array = s.array
    · have hwin : t.len = 0 ∨ t.off + t.len ≤ s.off + s.len ∨
          s.off + s.len + xs.length ≤ t.off := by
        rcases hsep with h | h | h | h
        · exact Or.inl h
        · exact absurd ha h
        · exact Or.inr (Or.inl h)
        · exact Or.inr (Or.inr (by omega))
      refine ⟨?_, ?_, ?_⟩
      · simp only [elems, ha, hsame]
        exact window_stored_apart _ xs _ t.off t.len hroom hwin
      · simp only [InBounds, ha, hsame]
        rw [length_stored _ xs _ hroom]
        have := ht
        simp only [InBounds, ha] at this
        exact this
      · rcases hsep with h | h | h | h
        · exact Or.inl h
        · exact absurd ha h
        · exact Or.inr (Or.inr (Or.inl (by simp only; omega)))
        · exact Or.inr (Or.inr (Or.inr h))
    · have hother : (store heap s.array (s.off + s.len) xs).getD t.array [] =
          heap.getD t.array [] := by
        unfold store
        exact getD_set_other _ _ _ _ ha
      refine ⟨?_, ?_, Or.inr (Or.inl ha)⟩
      · simp only [elems, hother]
      · simp only [InBounds, hother]
        exact ht
  · simp only [hfit, if_false]
    by_cases h0 : t.len = 0
    · refine ⟨?_, ?_, Or.inl h0⟩
      · simp only [elems, h0, List.take_zero]
      · by_cases hin : t.array < heap.length
        · simp only [InBounds, getD_push_old _ _ _ hin]
          exact ht
        · have hempty : heap.getD t.array [] = [] := by
            rw [List.getD_eq_getElem?_getD, List.getElem?_eq_none (by omega)]
            rfl
          have hoff : t.off = 0 := by
            have := ht
            simp only [InBounds, hempty, List.length_nil] at this
            omega
          simp only [InBounds, hoff, h0]
          omega
    · have hin : t.array < heap.length := by
        apply getD_length_pos
        have := ht
        simp only [InBounds] at this
        omega
      refine ⟨?_, ?_, Or.inr (Or.inl (by simp only; omega))⟩
      · simp only [elems, getD_push_old _ _ _ hin]
      · simp only [InBounds, getD_push_old _ _ _ hin]
        exact ht

/-- One `append` to `builders` keeps the invariant of `Clause.Build`. -/
theorem buildInv_append (rt : Runtime) {heap0 : Heap} {c : Clause} {heap : Heap}
    {builders : Slice} {acc : List (Option Expression)}
    (h : BuildInv heap0 c heap builders acc) (xs : List (Option Expression)) :
    BuildInv heap0 c (append rt heap builders xs).1 (append rt heap builders xs).2
      (acc ++ xs) := by
  obtain ⟨hwf, hacc, hslots⟩ := h
  obtain ⟨he, hw⟩ := append_elems rt heap builders xs hwf
  refine ⟨hw, by rw [he, hacc], ?_⟩
  intro t ht
  obtain ⟨h1, h2, h3⟩ := hslots t ht
  obtain ⟨k1, k2, k3⟩ := append_keeps rt heap builders t xs hwf h2 h3
  exact ⟨k1.trans h1, k2, k3⟩

/-- The loop of `Clause.Build` from a non-zero index over elements that are not
nil writes a space before every item. -/
theorem buildFrom_succ (r : Renderers) :
    ∀ (items : List Expression) (idx : Nat) (builder : Builder),
      Clause.buildFrom r (idx + 1) (items.map some) builder =
        .ok (items.foldl (fun b x => x.Build r (b ++ [.WriteByte ' '])) builder) := by
  intro items
  induction items with
  | nil => intro idx builder; rfl
  | cons e es ih =>
    intro idx builder
    simp only [List.map_cons, Clause.buildFrom, List.foldl_cons]
    rw [ih]
    simp

/-- The loop of `Clause.Build` from index zero over elements that are not nil is
the spaced rendering. -/
theorem buildFrom_zero (r : Renderers) (items : List Expression) (builder : Builder) :
    Clause.buildFrom r 0 (items.map some) builder = .ok (renderSpaced r items builder) := by
  cases items with
  | nil => rfl
  | cons e es =>
    simp only [List.map_cons, Clause.buildFrom, renderSpaced]
    rw [buildFrom_succ]
    simp

/-- The loop of `Clause.Build` faults at a nil element. -/
theorem buildFrom_nil_element (r : Renderers) :
    ∀ (before : List Expression) (after : List (Option Expression)) (idx : Nat)
      (builder : Builder),
      Clause.buildFrom r idx (before.map some ++ none :: after) builder =
        .error .nilPointer := by
  intro before
  induction before with
  | nil => intro after idx builder; rfl
  | cons e es ih =>
    intro after idx builder
    simp only [List.map_cons, List.cons_append, Clause.buildFrom]
    exact ih after _ _

/-- What `Clause.Build` does when no slot shares a spare cell of
`BeforeExpressions` and no element is nil: a clause without a custom `Builder`
whose slices lie within their arrays renders, in this order, the
before-expressions, the name as an `Expr` token if it is non-empty, the
after-name-expressions, the expression if it is set, the after-expressions;
the first item is written as it is, each further item after exactly one space
byte, and nothing follows the last. The slots hold afterwards what they held
before. -/
theorem Clause_Build_slots (r : Renderers) (rt : Runtime) (c : Clause) (heap : Heap)
    (builder : Builder) (items : List Expression)
    (h : c.Builder = none)
    (hbefore : WellFormed heap c.BeforeExpressions)
    (hname : InBounds heap c.AfterNameExpressions)
    (hafter : InBounds heap c.AfterExpressions)
    (hapart : Apart c.BeforeExpressions c.AfterNameExpressions ∧
      Apart c.BeforeExpressions c.AfterExpressions)
    (hitems : c.slots heap = items.map some) :
    ∃ heap1 : Heap,
      c.Build r rt heap builder = .ok (heap1, renderSpaced r items builder) ∧
      elems heap1 c.BeforeExpressions = elems heap c.BeforeExpressions ∧
      elems heap1 c.AfterNameExpressions = elems heap c.AfterNameExpressions ∧
      elems heap1 c.AfterExpressions = elems heap c.AfterExpressions := by
  have init : BuildInv heap c heap c.BeforeExpressions (elems heap c.BeforeExpressions) := by
    refine ⟨hbefore, rfl, ?_⟩
    intro t ht
    rcases ht with ht | ht | ht
    · subst ht
      refine ⟨rfl, ?_, Or.inr (Or.inr (Or.inl (le_refl _)))⟩
      have := hbefore
      simp only [WellFormed] at this
      simp only [InBounds]
      omega
    · subst ht
      exact ⟨rfl, hname, hapart.1⟩
    · subst ht
      exact ⟨rfl, hafter, hapart.2⟩
  have inv1 : BuildInv heap c
      (if c.Name ≠ "" then append rt heap c.BeforeExpressions [some (.expr c.Name)]
        else (heap, c.BeforeExpressions)).1
      (if c.Name ≠ "" then append rt heap c.BeforeExpressions [some (.expr c.Name)]
        else (heap, c.BeforeExpressions)).2
      (elems heap c.BeforeExpressions ++
        (if c.Name = "" then [] else [some (.expr c.Name)])) := by
    by_cases hn : c.Name = ""
    · simpa [hn] using init
    · simpa [hn] using buildInv_append rt init [some (.expr c.Name)]
  unfold Clause.Build
  rw [h]
  dsimp only
  generalize (if c.Name ≠ "" then append rt heap c.BeforeExpressions [some (.expr c.Name)]
    else (heap, c.BeforeExpressions)) = g1 at inv1 ⊢
  have inv2 := buildInv_append rt inv1 (elems g1.1 c.AfterNameExpressions)
  rw [(inv1.2.2 c.AfterNameExpressions (Or.inr (Or.inl rfl))).1] at inv2 ⊢
  generalize append rt g1.1 g1.2 (elems heap c.AfterNameExpressions) = g2 at inv2 ⊢
  have inv3 : BuildInv heap c
      (match c.Expression with
        | some e => append rt g2.1 g2.2 [some e]
        | none => g2).1
      (match c.Expression with
        | some e => append rt g2.1 g2.2 [some e]
        | none => g2).2
      (elems heap c.BeforeExpressions ++
        (if c.Name = "" then [] else [some (.expr c.Name)]) ++
        elems heap c.AfterNameExpressions ++ (c.Expression.map some).toList) := by
    cases c.Expression with
    | none => simpa using inv2
    | some e => simpa using buildInv_append rt inv2 [some e]
  generalize (match c.Expression with
    | some e => append rt g2.1 g2.2 [some e]
    | none => g2) = g3 at inv3 ⊢
  have inv4 := buildInv_append rt inv3 (elems g3.1 c.AfterExpressions)
  rw [(inv3.2.2 c.AfterExpressions (Or.inr (Or.inr rfl))).1] at inv4 ⊢
  generalize append rt g3.1 g3.2 (elems heap c.AfterExpressions) = g4 at inv4 ⊢
  have hranged : elems g4.1 g4.2 = items.map some := by
    rw [inv4.2.1, ← hitems]
    rfl
  rw [hranged, buildFrom_zero]
  exact ⟨g4.1, rfl, (inv4.2.2 _ (Or.inl rfl)).1, (inv4.2.2 _ (Or.inr (Or.inl rfl))).1,
    (inv4.2.2 _ (Or.inr (Or.inr rfl))).1⟩

/-- The rendering at two clauses whose slots are apart: a `WHERE` clause with
its name and condition, and a clause with one before-expression and one
after-name-expression in arrays of their own. -/
theorem Clause_Build_slots_witness :
    (∃ heap1 : Heap, whereClause.Build plainRenderers doublingRuntime [] [] =
      .ok (heap1, [.Write ["WHERE"], .WriteByte ' ', .Write ["age > 18"]])) ∧
    (∃ heap1 : Heap, apartClause.Build plainRenderers doublingRuntime apartHeap [] =
      .ok (heap1, [.Write ["a"], .WriteByte ' ', .Write ["N"], .WriteByte ' ',
        .Write ["b"]])) :=
  ⟨(Clause_Build_slots plainRenderers doublingRuntime whereClause [] []
      [.expr "WHERE", .expr "age > 18"] rfl (by decide) (by decide) (by decide)
      (by decide) rfl).imp fun _ h => h.1,
    (Clause_Build_slots plainRenderers doublingRuntime apartClause apartHeap []
      [.expr "a", .expr "N", .expr "b"] rfl (by decide) (by decide) (by decide)
      (by decide) rfl).imp fun _ h => h.1⟩

/-- With every slot empty `Clause.Build` writes nothing. -/
theorem Clause_Build_empty (r : Renderers) (rt : Runtime) (c : Clause) (heap : Heap)
    (builder : Builder) (h : c.Builder = none)
    (hbefore : c.BeforeExpressions.len = 0) (hname : c.Name = "")
    (hafterName : c.AfterNameExpressions.len = 0) (hexpr : c.Expression = none)
    (hafter : c.AfterExpressions.len = 0) :
    ∃ heap1 : Heap, c.Build r rt heap builder = .ok (heap1, builder) := by
  have hnone : ∀ (hp : Heap) (t : Slice), t.len = 0 → elems hp t = [] := by
    intro hp t ht
    simp only [elems, ht, List.take_zero]
  have hsame : ∀ (hp : Heap) (s : Slice), s.len = 0 →
      (append rt hp s []).2.len = 0 ∧ elems (append rt hp s []).1 (append rt hp s []).2 = [] := by
    intro hp s hs
    unfold append
    simp only [List.length_nil, Nat.add_zero, hs, Nat.zero_le, if_true]
    exact ⟨trivial, hnone _ _ rfl⟩
  unfold Clause.Build
  rw [h]
  simp only [hname, ne_eq, not_true_eq_false, if_false, hexpr,
    hnone _ _ hafterName, hnone _ _ hafter]
  obtain ⟨l1, _⟩ := hsame heap c.BeforeExpressions hbefore
  obtain ⟨_, e2⟩ := hsame (append rt heap c.BeforeExpressions []).1
    (append rt heap c.BeforeExpressions []).2 l1
  rw [e2]
  exact ⟨_, rfl⟩

end Gorm
